import Mathlib

/-!
# godba: the DynamoDB datastore

A shallow embedding of `store/request.go` and `store/dynamodb_datastore.go`.

Conventions of the embedding.

* Go `int` is the 64-bit two's-complement integer; arithmetic on numbers that
  come from the caller or the backend is passed through `wrapInt`, counters
  bounded by the length of a slice or map are not.
* A Go `map[string]T` is an association list `GoMap T` read with `mapIndex`
  and written with `mapAssign`; iteration follows the list.  A map that the
  code writes to is an `Option`, `none` being the nil map.
* A Go `error` is its message; `none` is the nil error.
* A run-time panic (nil map write, index or slice out of range, nil
  dereference, comparing uncomparable values) is `none` of the outer `Option`
  of a function's result.
* The AWS SDK is outside the repository: its attribute encoder and decoder are
  the fields of `Codec`, and the service client is a `DBer` over a backend
  state.
-/

namespace Godba

/-! ## Go runtime -/

/-- Two's-complement wrap of an integer to the range of the 64-bit Go `int`. -/
def wrapInt (x : Int) : Int := (x + 2 ^ 63) % 2 ^ 64 - 2 ^ 63

/-- The values of the Go `int` type. -/
def InIntRange (x : Int) : Prop := -(2 ^ 63) ≤ x ∧ x < 2 ^ 63

instance (x : Int) : Decidable (InIntRange x) :=
  inferInstanceAs (Decidable (-(2 ^ 63) ≤ x ∧ x < 2 ^ 63))

/-- Go association map. -/
abbrev GoMap (α : Type) := List (String × α)

/-- Read `m[k]` with the comma-ok form: `none` when the key is missing. -/
def mapLookup {α : Type} (m : GoMap α) (k : String) : Option α :=
  match m with
  | [] => none
  | (k', v) :: rest => if k' = k then some v else mapLookup rest k

/-- Write `m[k] = v`: replaces the entry of `k` or adds one. -/
def mapAssign {α : Type} (m : GoMap α) (k : String) (v : α) : GoMap α :=
  match m with
  | [] => [(k, v)]
  | (k', v') :: rest => if k' = k then (k, v) :: rest else (k', v') :: mapAssign rest k v

/-- The dynamic values a Go `interface{}` holds in requests and decoded items. -/
inductive Value where
  | nil
  | int (n : Int)
  | float (bits : Nat)
  | str (s : String)
  | bool (b : Bool)
  | strs (l : List String)
  | list (l : List Value)
  | map (m : List (String × Value))

instance : Inhabited Value := ⟨Value.nil⟩

/-- Test `v == nil` on an interface value. -/
def Value.isNil : Value → Bool
  | .nil => true
  | _ => false

/-- Read `m[k]` of a `map[string]interface{}`: the nil interface when missing. -/
def mapIndex (m : GoMap Value) (k : String) : Value :=
  match mapLookup m k with
  | some v => v
  | none => Value.nil

/-- IEEE-754 double: the bit pattern is a NaN. -/
def float64IsNaN (bits : Nat) : Bool :=
  (bits / 2 ^ 52) % 2 ^ 11 == 2 ^ 11 - 1 && bits % 2 ^ 52 != 0

/-- IEEE-754 double equality on bit patterns. -/
def float64Eq (a b : Nat) : Bool :=
  if float64IsNaN a || float64IsNaN b then false
  else if a % 2 ^ 63 == 0 && b % 2 ^ 63 == 0 then true
  else a == b

/-- Go `==` on two interface values; `none` is the panic on comparing two
values of the same uncomparable type (slice or map). -/
def goEq : Value → Value → Option Bool
  | .nil, .nil => some true
  | .int a, .int b => some (decide (a = b))
  | .float a, .float b => some (float64Eq a b)
  | .str a, .str b => some (decide (a = b))
  | .bool a, .bool b => some (decide (a = b))
  | .strs _, .strs _ => none
  | .list _, .list _ => none
  | .map _, .map _ => none
  | _, _ => some false

/-- The struct `dynamodb.AttributeValue` of the SDK: one optional field per tag. -/
structure AttributeValue where
  B : Option (List Nat) := none
  BOOL : Option Bool := none
  BS : Option (List (List Nat)) := none
  L : Option (List AttributeValue) := none
  M : Option (List (String × AttributeValue)) := none
  N : Option String := none
  NS : Option (List String) := none
  NULL : Option Bool := none
  S : Option String := none
  SS : Option (List String) := none

/-- The zero value `dynamodb.AttributeValue{}`. -/
def AttributeValue.zero : AttributeValue := { L := none, M := none }

/-- The literal `&dynamodb.AttributeValue{S: aws.String(s)}`. -/
def AttributeValue.ofS (s : String) : AttributeValue := { AttributeValue.zero with S := some s }

/-- The literal `&dynamodb.AttributeValue{N: aws.String(n)}`. -/
def AttributeValue.ofN (n : String) : AttributeValue := { AttributeValue.zero with N := some n }

instance : Inhabited AttributeValue := ⟨AttributeValue.zero⟩

/-- The two functions of `dynamodbattribute` the datastore calls:
`Encoder.Encode` and `Unmarshal` into an `interface{}`. -/
structure Codec where
  Encode : Value → Except String AttributeValue
  Unmarshal : AttributeValue → Except String Value

/-! ## request.go -/

abbrev Action := Int
abbrev Condition := Int
abbrev Relationship := Int

def Action.Put : Action := 0
def Action.Get : Action := 1
def Action.Update : Action := 2
def Action.Delete : Action := 3
def Action.Query : Action := 4
def Action.QueryPager : Action := 5

def Condition.Exist : Condition := 0
def Condition.NotExist : Condition := 1
def Condition.GreaterThan : Condition := 2
def Condition.LessThan : Condition := 3
def Condition.Equal : Condition := 4
def Condition.BeginsWith : Condition := 5

def Relationship.And : Relationship := 0
def Relationship.Or : Relationship := 1

/-- The struct `RequestCondition`; its field `Type` is `Kind` here. -/
structure RequestCondition where
  Field : String := ""
  Kind : Condition := 0
  Relationship : Relationship := 0
  Value : Value := Value.nil

def RequestCondition.RelationshipString (r : RequestCondition) : String :=
  if r.Relationship = Relationship.And then "AND"
  else if r.Relationship = Relationship.Or then "OR"
  else ""

structure UpdateValue where
  Action : Action := 0
  Path : String := ""
  Value : Value := Value.nil

structure Request where
  Table : String := ""
  Action : Action := 0
  Key : GoMap Value := []
  Item : Option (GoMap Value) := none
  Updates : List UpdateValue := []
  PageSize : Int := 0
  Page : Int := 0
  Index : String := ""
  ReturnValues : String := ""
  ConsistentRead : Bool := false
  LiveData : Bool := false
  Limit : Int := 0
  LastKey : GoMap Value := []
  RequestConditions : List RequestCondition := []
  ResultFitler : List RequestCondition := []

/-! ## Strings -/

/-- The Go function `strconv.Itoa`. -/
def Itoa (n : Int) : String := toString n

/-- Value of a string of decimal digits. -/
def digitsValue (ds : List Char) : Nat :=
  ds.foldl (fun acc c => acc * 10 + (c.toNat - 48)) 0

/-- The Go function `strconv.Atoi` returns a nil error on these characters: an optional
sign, then one or more decimal digits, the number being in the range of `int`. -/
def atoiOkChars (cs : List Char) : Bool :=
  match cs with
  | '-' :: ds => !ds.isEmpty && ds.all Char.isDigit && decide (digitsValue ds ≤ 2 ^ 63)
  | '+' :: ds => !ds.isEmpty && ds.all Char.isDigit && decide (digitsValue ds < 2 ^ 63)
  | ds => !ds.isEmpty && ds.all Char.isDigit && decide (digitsValue ds < 2 ^ 63)

/-- The error of `strconv.Atoi(s)` is nil. -/
def atoiOk (s : String) : Bool := atoiOkChars s.data

/-- The Go call `strings.Split(s, "/")` on the characters of `s`; never empty. -/
def splitSlashChars : List Char → List (List Char)
  | [] => [[]]
  | c :: cs =>
    if c = '/' then [] :: splitSlashChars cs
    else
      match splitSlashChars cs with
      | [] => [[c]]
      | seg :: rest => (c :: seg) :: rest

/-- The Go call `strings.Split(s, "/")`. -/
def splitSlash (s : String) : List String := (splitSlashChars s.data).map String.mk

/-! ## Marshalling (dynamodb_datastore.go, lines 471-513) -/

/-- The guard of `marshalItems`: the value is a string of length zero. -/
def isEmptyString : Value → Bool
  | .str s => s.data.isEmpty
  | _ => false

/-- The loop of `marshalItems` over the entries of `in`, `i` being the map
built so far. -/
def marshalLoop (cd : Codec) : GoMap Value → GoMap AttributeValue →
    Except String (GoMap AttributeValue)
  | [], i => .ok i
  | (k, v) :: rest, i =>
    if isEmptyString v then marshalLoop cd rest i
    else
      match cd.Encode v with
      | .error err => .error ("Could not marshal item: " ++ err)
      | .ok av => marshalLoop cd rest (mapAssign i k av)

def marshalItems (cd : Codec) (inp : GoMap Value) : Except String (GoMap AttributeValue) :=
  marshalLoop cd inp []

/-- The loop of `unmarshalItems`; `none` is the nil map returned on a decoding error. -/
def unmarshalLoop (cd : Codec) : GoMap AttributeValue → GoMap Value → Option (GoMap Value)
  | [], vals => some vals
  | (k, v) :: rest, vals =>
    match cd.Unmarshal v with
    | .error _ => none
    | .ok o => unmarshalLoop cd rest (mapAssign vals k o)

def unmarshalItems (cd : Codec) (inp : GoMap AttributeValue) : Option (GoMap Value) :=
  unmarshalLoop cd inp []

/-- Read `attrs[k]` of a possibly nil `map[string]interface{}`. -/
def nilMapIndex (m : Option (GoMap Value)) (k : String) : Value :=
  match m with
  | none => Value.nil
  | some m => mapIndex m k

/-! ## Condition expressions (lines 303-369) -/

/-- Expression attribute values: `map[string]*dynamodb.AttributeValue`, whose
entries may be nil pointers. -/
abbrev ExprValues := GoMap (Option AttributeValue)

/-- What `buildConditionExpression` and `buildUpdateExpression` leave behind:
the returned expression or error, and the two alias tables after the call. -/
structure Built where
  exp : Except String String
  vals : ExprValues
  names : GoMap String

/-- The loop of `buildConditionExpression` from condition number `i` on. -/
def condLoop : List RequestCondition → Nat → String → Int → Int → ExprValues → GoMap String →
    Option Built
  | [], _, exp, _, _, vals, names => some ⟨.ok exp, vals, names⟩
  | c :: rest, i, exp, valI, valN, vals, names =>
    let exp := if exp ≠ "" then exp ++ " " else exp
    let exp := if 0 < i ∧ c.Relationship ≠ -1 then exp ++ c.RelationshipString ++ " " else exp
    let fName := "#ename" ++ Itoa valN
    let names := mapAssign names fName c.Field
    let valN := valN + 1
    let valS := ":val" ++ Itoa valI
    if c.Kind = Condition.Exist then
      condLoop rest (i + 1) (exp ++ "attribute_exists(" ++ fName ++ ")") valI valN vals names
    else if c.Kind = Condition.NotExist then
      condLoop rest (i + 1) (exp ++ "attribute_not_exists(" ++ fName ++ ")") valI valN vals names
    else if c.Kind = Condition.GreaterThan then
      match c.Value with
      | .int n =>
        condLoop rest (i + 1) (exp ++ fName ++ " > " ++ valS) (valI + 1) valN
          (mapAssign vals valS (some (AttributeValue.ofN (Itoa n)))) names
      | _ => some ⟨.error "Invalid request condition: GreaterThan condition value must be an int",
          vals, names⟩
    else if c.Kind = Condition.LessThan then
      match c.Value with
      | .int n =>
        condLoop rest (i + 1) (exp ++ fName ++ " < " ++ valS) (valI + 1) valN
          (mapAssign vals valS (some (AttributeValue.ofN (Itoa n)))) names
      | _ => some ⟨.error "Invalid request condition: LessThan condition value must be an int",
          vals, names⟩
    else if c.Kind = Condition.Equal then
      match c.Value with
      | .nil => none
      | .int n =>
        condLoop rest (i + 1) (exp ++ fName ++ " = " ++ valS) (valI + 1) valN
          (mapAssign vals valS (some (AttributeValue.ofN (Itoa n)))) names
      | .str s =>
        condLoop rest (i + 1) (exp ++ fName ++ " = " ++ valS) (valI + 1) valN
          (mapAssign vals valS (some (AttributeValue.ofS s))) names
      | _ => some ⟨.error "Invalid request condition: Equal condition value must be int or string",
          vals, names⟩
    else if c.Kind = Condition.BeginsWith then
      match c.Value with
      | .str s =>
        condLoop rest (i + 1) (exp ++ "begins_with(" ++ fName ++ ", " ++ valS ++ ")") (valI + 1) valN
          (mapAssign vals valS (some (AttributeValue.ofS s))) names
      | _ => some ⟨.error "Invalid request condition: BeginsWith condition value must be a string",
          vals, names⟩
    else some ⟨.error "Unknown request condition", vals, names⟩

/-- The function `buildConditionExpression`; `none` is the panic of
`reflect.TypeOf(nil).Name()` on an `Equal` condition without a value. -/
def buildConditionExpression (conditions : List RequestCondition) (expAttVals : ExprValues)
    (expAttNames : GoMap String) : Option Built :=
  condLoop conditions 0 "" expAttVals.length expAttNames.length expAttVals expAttNames

/-! ## Update expressions (lines 371-469) -/

/-- The loop of `parseUpdateKey` from segment number `i` on. -/
def parseLoop (iString : String) : List String → Nat → String → GoMap String →
    String × GoMap String
  | [], _, final, names => (final, names)
  | val :: rest, i, final, names =>
    if atoiOk val then parseLoop iString rest (i + 1) (final ++ "[" ++ val ++ "]") names
    else
      let ename := if val = "-" then "-" else "#" ++ iString ++ "ename" ++ Itoa i
      let names := if val = "-" then names else mapAssign names ename val
      let final := if final = "" then final ++ ename else final ++ "." ++ ename
      parseLoop iString rest (i + 1) final names

def parseUpdateKey (key : String) (index : Int) : String × GoMap String :=
  parseLoop (Itoa index) (splitSlash key).tail 0 "" []

/-- The final expression of `buildUpdateExpression` from its two clauses. -/
def joinClauses (SET REMOVE : String) : String :=
  let finalExp := if SET ≠ "" then "SET " ++ SET else ""
  if REMOVE ≠ "" then
    (if finalExp ≠ "" then finalExp ++ " " else finalExp) ++ "REMOVE " ++ REMOVE
  else finalExp

/-- The loop of `buildUpdateExpression`; `none` is the panic of the slice
expressions `k[len(k)-1:]` and `k[:len(k)-2]` on a too short `k`. -/
def updLoop (cd : Codec) : List UpdateValue → String → String → Int → Int → ExprValues →
    GoMap String → Option Built
  | [], SET, REMOVE, _, _, vals, names => some ⟨.ok (joinClauses SET REMOVE), vals, names⟩
  | v :: rest, SET, REMOVE, i, n, vals, names =>
    let valStr := ":val" ++ Itoa i
    let k := (parseUpdateKey v.Path n).1
    let names := (parseUpdateKey v.Path n).2.foldl (fun m e => mapAssign m e.1 e.2) names
    let n := n + 1
    if v.Action = Action.Delete then
      updLoop cd rest SET ((if REMOVE ≠ "" then REMOVE ++ ", " else REMOVE) ++ k) (i + 1) n
        vals names
    else if v.Action = Action.Put ∨ v.Action = Action.Update then
      match marshalItems cd [(k, v.Value)] with
      | .error err => some ⟨.error ("Unable to marshal item: " ++ err), vals, names⟩
      | .ok val =>
        let SET := if SET ≠ "" then SET ++ ", " else SET
        match k.data.getLast? with
        | none => none
        | some last =>
          if last = '-' then
            if k.data.length < 2 then none
            else
              let nK := String.mk (k.data.take (k.data.length - 2)) ++ "[999" ++ Itoa n ++ "]"
              updLoop cd rest (SET ++ nK ++ " = " ++ valStr) REMOVE (i + 1) n
                (mapAssign vals valStr (mapLookup val k)) names
          else
            updLoop cd rest (SET ++ k ++ " = " ++ valStr) REMOVE (i + 1) n
              (mapAssign vals valStr (mapLookup val k)) names
    else updLoop cd rest SET REMOVE (i + 1) n vals names

def buildUpdateExpression (cd : Codec) (items : List UpdateValue) (expAttMap : ExprValues)
    (expAttName : GoMap String) : Option Built :=
  updLoop cd items "" "" expAttMap.length expAttName.length expAttMap expAttName

/-! ## The backend (lines 17-55) -/

/-- An error returned by the service client; `aws` when it implements
`awserr.Error`. -/
inductive BackendError where
  | aws (msg : String)
  | other (msg : String)

structure GetItemInput where
  TableName : String
  Key : GoMap AttributeValue
  ConsistentRead : Bool

structure PutItemInput where
  TableName : String
  Item : GoMap AttributeValue
  ConditionExpression : Option String
  ExpressionAttributeValues : Option ExprValues
  ExpressionAttributeNames : Option (GoMap String)

structure DeleteItemInput where
  TableName : String
  Key : GoMap AttributeValue
  ReturnValues : Option String

structure UpdateItemInput where
  TableName : String
  Key : GoMap AttributeValue
  UpdateExpression : String
  ExpressionAttributeValues : Option ExprValues
  ExpressionAttributeNames : Option (GoMap String)
  ReturnValues : Option String

structure QueryInput where
  TableName : String
  KeyConditionExpression : String
  ExpressionAttributeValues : ExprValues
  ExpressionAttributeNames : GoMap String
  FilterExpression : Option String
  IndexName : Option String
  Limit : Option Int
  ExclusiveStartKey : Option (GoMap AttributeValue)

structure GetItemOutput where
  Item : GoMap AttributeValue

structure DeleteItemOutput where
  Attributes : GoMap AttributeValue

structure UpdateItemOutput where
  Attributes : GoMap AttributeValue

/-- One page of a query: `Count` is a pointer in the SDK, `none` when nil. -/
structure QueryOutput where
  Count : Option Int
  Items : List (GoMap AttributeValue)
  LastEvaluatedKey : GoMap AttributeValue := []

/-- The interface `DBer` over a backend state `σ`.  `QueryPages` is given by
the pages it hands to the callback, which always answers `true`, and the
error it returns at the end. -/
structure DBer (σ : Type) where
  GetItem : GetItemInput → σ → Except BackendError GetItemOutput × σ
  PutItem : PutItemInput → σ → Option BackendError × σ
  DeleteItem : DeleteItemInput → σ → Except BackendError DeleteItemOutput × σ
  UpdateItem : UpdateItemInput → σ → Except BackendError UpdateItemOutput × σ
  QueryPages : QueryInput → σ → (List QueryOutput × Option BackendError) × σ
  Query : QueryInput → σ → Except BackendError QueryOutput × σ

structure dynamodbResult where
  items : List (GoMap AttributeValue) := []
  attributes : GoMap AttributeValue := []
  pageCount : Int := 0

/-- An operation of the log or cache; `result` is a pointer, `none` when nil. -/
structure op where
  request : Request
  result : Option dynamodbResult

structure DynamoDBDatastore where
  ops : List op := []
  transaction : Bool := false
  cache : List op := []
  tablePrefix : String := ""
  cacheDisabled : Bool := false

/-- The message built from a backend error: with the bracketed cause when the
error is an `awserr.Error`, the bare message otherwise. -/
def wrapBackendError (withCause bare : String) : BackendError → String
  | .aws m => withCause ++ " [" ++ m ++ "]"
  | .other _ => bare

/-- The pair `(r, e)` a Go operation returns, from its outcome. -/
def retResult (res : Except String dynamodbResult) : Option dynamodbResult :=
  match res with
  | .ok r => some r
  | .error _ => none

def retError (res : Except String dynamodbResult) : Option String :=
  match res with
  | .ok _ => none
  | .error e => some e

/-! ## The single-item operations (lines 515-688) -/

/-- The loop `for k, v := range r.Key { r.Item[k] = v }` of `put`: the item map
afterwards, `none` being the panic of writing to a nil map. -/
def mergeKey (key : GoMap Value) (item : Option (GoMap Value)) : Option (Option (GoMap Value)) :=
  match key with
  | [] => some item
  | _ :: _ =>
    match item with
    | none => none
    | some it => some (some (key.foldl (fun m e => mapAssign m e.1 e.2) it))

/-- The entries of a possibly nil map. -/
def nilMapEntries (m : Option (GoMap Value)) : GoMap Value :=
  match m with
  | none => []
  | some m => m

/-- An alias table as the input field: nil when it has no entry. -/
def nonEmptyMap {α : Type} (m : GoMap α) : Option (GoMap α) :=
  if m.length ≠ 0 then some m else none

/-- An optional string field: nil when the string is empty. -/
def nonEmptyString (x : String) : Option String :=
  if x ≠ "" then some x else none

/-- Lines 516-551 of `put`, given the merged item: the input of `PutItem` or
the error returned before any backend call. -/
def putInput (cd : Codec) (r : Request) (item : Option (GoMap Value)) :
    Option (Except String PutItemInput) :=
  match marshalItems cd (nilMapEntries item) with
  | .error err => some (.error ("Could not put item in the db [" ++ err ++ "]"))
  | .ok av =>
    match buildConditionExpression r.RequestConditions [] [] with
    | none => none
    | some b =>
      match b.exp with
      | .error err => some (.error ("Could not put item in the db [" ++ err ++ "]"))
      | .ok condexp =>
        some (.ok { TableName := r.Table, Item := av,
                    ConditionExpression := nonEmptyString condexp,
                    ExpressionAttributeValues := nonEmptyMap b.vals,
                    ExpressionAttributeNames := nonEmptyMap b.names })

/-- The function `put`: the item map of the request after the call, the
outcome and the backend state. -/
def put {σ : Type} (cd : Codec) (db : DBer σ) (r : Request) (s : σ) :
    Option (Option (GoMap Value) × Except String dynamodbResult × σ) :=
  match mergeKey r.Key r.Item with
  | none => none
  | some item =>
    match putInput cd r item with
    | none => none
    | some (.error err) => some (item, .error err, s)
    | some (.ok inp) =>
      match db.PutItem inp s with
      | (some e, s') =>
        some (item, .error (wrapBackendError "Unable to put item in the database"
          "Unable to put item in the database" e), s')
      | (none, s') => some (item, .ok {}, s')

/-- Lines 569-577 of `get`. -/
def getInput (cd : Codec) (r : Request) : Except String GetItemInput :=
  match marshalItems cd r.Key with
  | .error err => .error ("Could not get item [" ++ err ++ "]")
  | .ok key => .ok { TableName := r.Table, Key := key, ConsistentRead := r.ConsistentRead }

def get {σ : Type} (cd : Codec) (db : DBer σ) (r : Request) (s : σ) :
    Except String dynamodbResult × σ :=
  match getInput cd r with
  | .error err => (.error err, s)
  | .ok inp =>
    match db.GetItem inp s with
    | (.error e, s') =>
      (.error (wrapBackendError "Unable to retrieve item from the database"
        "Unable to retrieve item from the database " e), s')
    | (.ok out, s') =>
      (.ok { items := if out.Item.length ≠ 0 then [out.Item] else [] }, s')

/-- Lines 600-613 of `dbDelete`. -/
def deleteInput (cd : Codec) (r : Request) : Except String DeleteItemInput :=
  match marshalItems cd r.Key with
  | .error err => .error ("Could not delete item [" ++ err ++ "]")
  | .ok key => .ok { TableName := r.Table, Key := key, ReturnValues := nonEmptyString r.ReturnValues }

def dbDelete {σ : Type} (cd : Codec) (db : DBer σ) (r : Request) (s : σ) :
    Except String dynamodbResult × σ :=
  match deleteInput cd r with
  | .error err => (.error err, s)
  | .ok inp =>
    match db.DeleteItem inp s with
    | (.error e, s') =>
      (.error (wrapBackendError "Unable to delete item in the database"
        "Unable to delete item in the database" e), s')
    | (.ok out, s') => (.ok { attributes := out.Attributes }, s')

/-- Lines 638-669 of `update`. -/
def updateInput (cd : Codec) (r : Request) : Option (Except String UpdateItemInput) :=
  match marshalItems cd r.Key with
  | .error err => some (.error ("Could not update item [" ++ err ++ "]"))
  | .ok key =>
    match buildUpdateExpression cd r.Updates [] [] with
    | none => none
    | some b =>
      match b.exp with
      | .error err => some (.error ("Could not update item [" ++ err ++ "]"))
      | .ok updateExp =>
        some (.ok { TableName := r.Table, Key := key, UpdateExpression := updateExp,
                    ExpressionAttributeValues := nonEmptyMap b.vals,
                    ExpressionAttributeNames := nonEmptyMap b.names,
                    ReturnValues := nonEmptyString r.ReturnValues })

def update {σ : Type} (cd : Codec) (db : DBer σ) (r : Request) (s : σ) :
    Option (Except String dynamodbResult × σ) :=
  match updateInput cd r with
  | none => none
  | some (.error err) => some (.error err, s)
  | some (.ok inp) =>
    match db.UpdateItem inp s with
    | (.error e, s') =>
      some (.error (wrapBackendError "Unable to update item in the database"
        "Unable to update item in the database" e), s')
    | (.ok out, s') => some (.ok { attributes := out.Attributes }, s')

/-! ## Queries (lines 690-803) -/

/-- The inner loop of the `queryPages` callback (lines 724-732) on one page,
`rem` iterations being left from index `i`: the items and the budget `count`
afterwards.  `none` is the panic of `page.Items[i]` out of range. -/
def pageLoop (pageItems : List (GoMap AttributeValue)) (start resultsSeen : Int) :
    Nat → Nat → List (GoMap AttributeValue) → Int → Option (List (GoMap AttributeValue) × Int)
  | 0, _, items, count => some (items, count)
  | rem + 1, i, items, count =>
    if start ≤ wrapInt (resultsSeen + i) then
      match pageItems.get? i with
      | none => none
      | some it =>
        if wrapInt (count - 1) = 0 then some (items ++ [it], wrapInt (count - 1))
        else pageLoop pageItems start resultsSeen rem (i + 1) (items ++ [it]) (wrapInt (count - 1))
    else if count = 0 then some (items, count)
    else pageLoop pageItems start resultsSeen rem (i + 1) items count

/-- The variables the `queryPages` callback closes over. -/
structure PagerState where
  items : List (GoMap AttributeValue)
  count : Int
  resultsSeen : Int

/-- The callback of `queryPages` (lines 718-736) on one page; `none` is a
panic (nil `Count`, or an item index out of range). -/
def pageCallback (start : Int) (st : PagerState) (page : QueryOutput) : Option PagerState :=
  match page.Count with
  | none => none
  | some c =>
    if wrapInt (c + st.resultsSeen) ≤ start then
      some { st with resultsSeen := wrapInt (st.resultsSeen + c) }
    else if st.count ≠ 0 then
      match pageLoop page.Items start st.resultsSeen c.toNat 0 st.items st.count with
      | none => none
      | some (items, count) =>
        some { items := items, count := count, resultsSeen := wrapInt (st.resultsSeen + c) }
    else some { st with resultsSeen := wrapInt (st.resultsSeen + c) }

/-- The callback run over the pages the backend delivers, in order. -/
def pagesLoop (start : Int) : List QueryOutput → PagerState → Option PagerState
  | [], st => some st
  | page :: rest, st =>
    match pageCallback start st page with
    | none => none
    | some st' => pagesLoop start rest st'

/-- Lines 737-741: the page count from the number of results seen. -/
def pageCountOf (resultsSeen pageSize : Int) : Int :=
  if Int.tmod resultsSeen pageSize ≠ 0 then wrapInt (wrapInt (Int.tdiv resultsSeen pageSize) + 1)
  else wrapInt (Int.tdiv resultsSeen pageSize)

/-- Lines 691-713 of `queryPages`: the query input or the compile error. -/
def queryPagesInput (r : Request) : Option (Except String QueryInput) :=
  match buildConditionExpression r.RequestConditions [] [] with
  | none => none
  | some b1 =>
    match b1.exp with
    | .error err => some (.error ("Could not query items [" ++ err ++ "]"))
    | .ok keyExp =>
      match buildConditionExpression r.ResultFitler b1.vals b1.names with
      | none => none
      | some b2 =>
        match b2.exp with
        | .error err => some (.error ("Could not query items [" ++ err ++ "]"))
        | .ok filterExp =>
          some (.ok { TableName := r.Table, KeyConditionExpression := keyExp,
                      ExpressionAttributeValues := b2.vals,
                      ExpressionAttributeNames := b2.names,
                      FilterExpression := nonEmptyString filterExp,
                      IndexName := nonEmptyString r.Index,
                      Limit := none, ExclusiveStartKey := none })

/-- The function `queryPages`; `none` is a panic: in a compiler, in the
callback, or the division by a zero `PageSize`. -/
def queryPages {σ : Type} (db : DBer σ) (r : Request) (s : σ) :
    Option (Except String dynamodbResult × σ) :=
  match queryPagesInput r with
  | none => none
  | some (.error err) => some (.error err, s)
  | some (.ok qI) =>
    let start := wrapInt (r.PageSize * wrapInt (r.Page - 1))
    match db.QueryPages qI s with
    | ((pages, e), s') =>
      match pagesLoop start pages { items := [], count := r.PageSize, resultsSeen := 0 } with
      | none => none
      | some st =>
        if r.PageSize = 0 then none
        else
          match e with
          | some err =>
            some (.error (wrapBackendError "Unable to query the database"
              "Unable to query the database" err), s')
          | none =>
            some (.ok { items := st.items, pageCount := pageCountOf st.resultsSeen r.PageSize }, s')

/-- The callback of `query` (lines 784-789) on one page. -/
def queryCallback (items : List (GoMap AttributeValue)) (p : QueryOutput) :
    Option (List (GoMap AttributeValue)) :=
  match p.Count with
  | none => none
  | some c => if c.toNat ≤ p.Items.length then some (items ++ p.Items.take c.toNat) else none

def queryLoop : List QueryOutput → List (GoMap AttributeValue) →
    Option (List (GoMap AttributeValue))
  | [], items => some items
  | p :: rest, items =>
    match queryCallback items p with
    | none => none
    | some items' => queryLoop rest items'

/-- Lines 755-781 of `query`. -/
def queryInput (cd : Codec) (r : Request) : Option (Except String QueryInput) :=
  match buildConditionExpression r.RequestConditions [] [] with
  | none => none
  | some b =>
    match b.exp with
    | .error err => some (.error ("Could not query items [" ++ err ++ "]"))
    | .ok keyExp =>
      let limit : Option Int := if 0 < r.Limit then some r.Limit else none
      if r.LastKey.length ≠ 0 then
        match marshalItems cd r.LastKey with
        | .error err => some (.error err)
        | .ok lKey =>
          some (.ok { TableName := r.Table, KeyConditionExpression := keyExp,
                      ExpressionAttributeValues := b.vals, ExpressionAttributeNames := b.names,
                      FilterExpression := none, IndexName := none,
                      Limit := limit, ExclusiveStartKey := some lKey })
      else
        some (.ok { TableName := r.Table, KeyConditionExpression := keyExp,
                    ExpressionAttributeValues := b.vals, ExpressionAttributeNames := b.names,
                    FilterExpression := none, IndexName := none,
                    Limit := limit, ExclusiveStartKey := none })

def query {σ : Type} (cd : Codec) (db : DBer σ) (r : Request) (s : σ) :
    Option (Except String dynamodbResult × σ) :=
  match queryInput cd r with
  | none => none
  | some (.error err) => some (.error err, s)
  | some (.ok qI) =>
    match db.QueryPages qI s with
    | ((pages, e), s') =>
      match queryLoop pages [] with
      | none => none
      | some items =>
        match e with
        | some err =>
          some (.error (wrapBackendError "Unable to query the database"
            "Unable to query the database" err), s')
        | none => some (.ok { items := items }, s')

/-! ## The datastore handle (lines 201-301) -/

def ClearCache (c : DynamoDBDatastore) : DynamoDBDatastore :=
  { c with cache := [], ops := [] }

def CacheOn (c : DynamoDBDatastore) : DynamoDBDatastore :=
  { c with cacheDisabled := false }

def CacheOff (c : DynamoDBDatastore) : DynamoDBDatastore :=
  { c with cacheDisabled := true }

/-- The loop of `keysEqual` over the entries of `k1`. -/
def keysEqualLoop : GoMap Value → GoMap Value → Option Bool
  | [], _ => some true
  | (i, v) :: rest, k2 =>
    if (mapIndex k2 i).isNil then some false
    else
      match goEq (mapIndex k2 i) v with
      | none => none
      | some true => keysEqualLoop rest k2
      | some false => some false

/-- The function `keysEqual`; `none` is the panic of comparing two slices or maps. -/
def keysEqual (k1 k2 : GoMap Value) : Option Bool :=
  if k1.length ≠ k2.length then some false else keysEqualLoop k1 k2

/-- The cache scan of `Run` (lines 234-238): the first entry whose key equals
`key`, if any. -/
def cacheScan : List op → GoMap Value → Option (Option op)
  | [], _ => some none
  | o :: rest, key =>
    match keysEqual o.request.Key key with
    | none => none
    | some true => some (some o)
    | some false => cacheScan rest key

/-- What one call of `Run` leaves: the handle, the backend state and the
returned pair `(r, e)`. -/
structure RunOut (σ : Type) where
  c : DynamoDBDatastore
  s : σ
  r : Option dynamodbResult
  e : Option String

/-- Lines 255-259 of `Run`: log the operation when a transaction is active
and the error is nil, then return. -/
def runFinish {σ : Type} (c : DynamoDBDatastore) (request : Request)
    (r : Option dynamodbResult) (e : Option String) (s : σ) : RunOut σ :=
  if c.transaction ∧ e = none then
    { c := { c with ops := c.ops ++ [{ request := request, result := r }] }, s := s, r := r, e := e }
  else { c := c, s := s, r := r, e := e }

/-- The request of `Run` with `ReturnValues` forced while a transaction is active. -/
def withReturnValues (c : DynamoDBDatastore) (request : Request) : Request :=
  if c.transaction then { request with ReturnValues := "ALL_OLD" } else request

/-- The method `Run`; `none` is a panic.  The item map of a Put is shared
between the caller's request, the local copy and the log entry, so the logged
request carries the item as `put` left it, with the key merged in. -/
def Run {σ : Type} (cd : Codec) (db : DBer σ) (c : DynamoDBDatastore) (request : Request)
    (s : σ) : Option (RunOut σ) :=
  let request := { request with Table := c.tablePrefix ++ request.Table }
  if request.Action = Action.Put then
    match put cd db request s with
    | none => none
    | some (item, res, s') =>
      some (runFinish c { request with Item := item } (retResult res) (retError res) s')
  else if request.Action = Action.Delete then
    match dbDelete cd db (withReturnValues c request) s with
    | (res, s') => some (runFinish c (withReturnValues c request) (retResult res) (retError res) s')
  else if request.Action = Action.Get then
    match (if !request.LiveData && !c.cacheDisabled then cacheScan c.cache request.Key
           else some none) with
    | none => none
    | some (some o) => some { c := c, s := s, r := o.result, e := none }
    | some none =>
      match get cd db request s with
      | (.ok r, s') =>
        some (runFinish { c with cache := c.cache ++ [{ request := request, result := some r }] }
          request (some r) none s')
      | (.error e, s') => some (runFinish c request none (some e) s')
  else if request.Action = Action.Update then
    match update cd db (withReturnValues c request) s with
    | none => none
    | some (res, s') =>
      some (runFinish c (withReturnValues c request) (retResult res) (retError res) s')
  else if request.Action = Action.Query then
    match query cd db request s with
    | none => none
    | some (res, s') => some (runFinish c request (retResult res) (retError res) s')
  else if request.Action = Action.QueryPager then
    match queryPages db request s with
    | none => none
    | some (res, s') => some (runFinish c request (retResult res) (retError res) s')
  else some (runFinish c request none none s)

def StartTransaction (c : DynamoDBDatastore) : DynamoDBDatastore :=
  { c with transaction := true, ops := [] }

def FinishTransaction (c : DynamoDBDatastore) : DynamoDBDatastore :=
  { c with transaction := false, ops := [] }

/-- The loop of `reverseOp` over the updates of the logged request (lines 824-832). -/
def reverseUpdates (attrs : Option (GoMap Value)) : List UpdateValue → List UpdateValue →
    List UpdateValue
  | [], acc => acc
  | v :: rest, acc =>
    if v.Action = Action.Put ∧ (nilMapIndex attrs v.Path).isNil then
      reverseUpdates attrs rest (acc ++ [{ Action := Action.Delete }])
    else if !(nilMapIndex attrs v.Path).isNil then
      reverseUpdates attrs rest
        (acc ++ [{ Action := Action.Put, Path := v.Path, Value := nilMapIndex attrs v.Path }])
    else reverseUpdates attrs rest acc

/-- The function `reverseOp`; `none` is the nil dereference of `o.result`. -/
def reverseOp (cd : Codec) (o : op) : Option Request :=
  if o.request.Action = Action.Put then
    some { Action := Action.Delete, Key := o.request.Key, Table := o.request.Table }
  else if o.request.Action = Action.Delete then
    match o.result with
    | none => none
    | some res =>
      some { Action := Action.Put, Key := o.request.Key, Table := o.request.Table,
             Item := unmarshalItems cd res.attributes }
  else if o.request.Action = Action.Update then
    match o.result with
    | none => none
    | some res =>
      some { Action := Action.Update, Key := o.request.Key, Table := o.request.Table,
             Updates := reverseUpdates (unmarshalItems cd res.attributes) o.request.Updates [] }
  else some {}

/-- The loop of `Rollback` over the log, `errs` being the errors so far. -/
def rollbackLoop {σ : Type} (cd : Codec) (db : DBer σ) :
    List op → DynamoDBDatastore → σ → List String → Option (DynamoDBDatastore × σ × List String)
  | [], c, s, errs => some (c, s, errs)
  | o :: rest, c, s, errs =>
    match reverseOp cd o with
    | none => none
    | some reverse =>
      match Run cd db c reverse s with
      | none => none
      | some out =>
        rollbackLoop cd db rest out.c out.s
          (match out.e with
           | some e => errs ++ [e]
           | none => errs)

/-- The method `Rollback`: the handle and backend state afterwards and the
returned errors; `none` is a panic. -/
def Rollback {σ : Type} (cd : Codec) (db : DBer σ) (c : DynamoDBDatastore) (s : σ) :
    Option (DynamoDBDatastore × σ × List String) :=
  rollbackLoop cd db c.ops { c with transaction := false } s []

/-! ## Observing the backend calls -/

/-- A call on the service client with its input. -/
inductive Call where
  | GetItem (inp : GetItemInput)
  | PutItem (inp : PutItemInput)
  | DeleteItem (inp : DeleteItemInput)
  | UpdateItem (inp : UpdateItemInput)
  | QueryPages (inp : QueryInput)
  | Query (inp : QueryInput)

/-- The operation name of a call, as the SDK reports it. -/
def Call.name : Call → String
  | .GetItem _ => "GetItem"
  | .PutItem _ => "PutItem"
  | .DeleteItem _ => "DeleteItem"
  | .UpdateItem _ => "UpdateItem"
  | .QueryPages _ => "Query"
  | .Query _ => "Query"

/-- The client `db` with every call recorded, oldest first, next to its state. -/
def traced {σ : Type} (db : DBer σ) : DBer (σ × List Call) where
  GetItem inp st := ((db.GetItem inp st.1).1, ((db.GetItem inp st.1).2, st.2 ++ [Call.GetItem inp]))
  PutItem inp st := ((db.PutItem inp st.1).1, ((db.PutItem inp st.1).2, st.2 ++ [Call.PutItem inp]))
  DeleteItem inp st :=
    ((db.DeleteItem inp st.1).1, ((db.DeleteItem inp st.1).2, st.2 ++ [Call.DeleteItem inp]))
  UpdateItem inp st :=
    ((db.UpdateItem inp st.1).1, ((db.UpdateItem inp st.1).2, st.2 ++ [Call.UpdateItem inp]))
  QueryPages inp st :=
    ((db.QueryPages inp st.1).1, ((db.QueryPages inp st.1).2, st.2 ++ [Call.QueryPages inp]))
  Query inp st := ((db.Query inp st.1).1, ((db.Query inp st.1).2, st.2 ++ [Call.Query inp]))

/-! ## Specification vocabulary -/

/-- The window of `p` items starting at the 0-based position `start` of the
items delivered so far. -/
def window (start : Int) (p : Nat) (delivered : List (GoMap AttributeValue)) :
    List (GoMap AttributeValue) :=
  (delivered.drop start.toNat).take p

/-- The number of items a page announces. -/
def pageCountNat (pg : QueryOutput) : Nat :=
  match pg.Count with
  | some c => c.toNat
  | none => 0

/-- The items of the delivered pages that their `Count` covers, in delivery order. -/
def countedItems (pages : List QueryOutput) : List (GoMap AttributeValue) :=
  pages.flatMap (fun pg => pg.Items.take (pageCountNat pg))

/-- All items of the delivered pages, in delivery order. -/
def deliveredItems (pages : List QueryOutput) : List (GoMap AttributeValue) :=
  pages.flatMap (fun pg => pg.Items)

/-- The sum of the `Count`s of the delivered pages. -/
def countSum (pages : List QueryOutput) : Nat :=
  (pages.map pageCountNat).sum

/-- The `Count` of a page is set, not negative and not beyond its items. -/
def PageCounted (pg : QueryOutput) : Prop :=
  ∃ cn : Nat, pg.Count = some (cn : Int) ∧ cn ≤ pg.Items.length

/-! ## Example backends and inputs -/

/-- The item whose only attribute `id` is the string `x`. -/
def itemOf (x : String) : GoMap AttributeValue := [("id", AttributeValue.ofS x)]

/-- A backend without state whose `QueryPages` delivers the given pages and no
error; every other call succeeds with an empty output. -/
def pagedBackend (pages : List QueryOutput) : DBer Unit where
  GetItem _ s := (.ok { Item := [] }, s)
  PutItem _ s := (none, s)
  DeleteItem _ s := (.ok { Attributes := [] }, s)
  UpdateItem _ s := (.ok { Attributes := [] }, s)
  QueryPages _ s := ((pages, none), s)
  Query _ s := (.ok { Count := some 0, Items := [] }, s)

/-- A page of the given items with its `Count` set to their number. -/
def pageOf (items : List (GoMap AttributeValue)) : QueryOutput :=
  { Count := some (items.length : Int), Items := items }

/-- Three pages of three, two and two items. -/
def examplePages : List QueryOutput :=
  [pageOf [itemOf "a", itemOf "b", itemOf "c"], pageOf [itemOf "d", itemOf "e"],
   pageOf [itemOf "f", itemOf "g"]]

/-- A pager request for page 2 of size 2. -/
def examplePagerRequest : Request :=
  { Table := "test", Action := Action.QueryPager, PageSize := 2, Page := 2 }

/-- A pager request whose `PageSize * (Page - 1)` is `2 ^ 64`. -/
def overflowPagerRequest : Request :=
  { Table := "test", Action := Action.QueryPager, PageSize := 2 ^ 32, Page := 2 ^ 32 + 1 }

/-- A page that announces one item and carries none. -/
def shortPage : QueryOutput := { Count := some 1, Items := [] }

/-- Ten items `<pg>t1` .. `<pg>t10`, as the pages of `TestQueryPages`. -/
def tenItems (pg : String) : List (GoMap AttributeValue) :=
  ["1", "2", "3", "4", "5", "6", "7", "8", "9", "10"].map (fun t => itemOf (pg ++ "t" ++ t))

/-- The four pages of ten items of `TestQueryPages`. -/
def testPages : List QueryOutput :=
  [pageOf (tenItems "page0"), pageOf (tenItems "page1"), pageOf (tenItems "page2"),
   pageOf (tenItems "page3")]

/-- The third request of `TestQueryPages`: page 3 of size 3. -/
def testPagerRequest : Request :=
  { Table := "test", Action := Action.Query, Page := 3, PageSize := 3 }

/-- A pager request for page 1 of size 1. -/
def firstPagerRequest : Request :=
  { Table := "test", Action := Action.QueryPager, PageSize := 1, Page := 1 }

/-! ## Rollback vocabulary -/

/-- The backend call that `Run` dispatches, outside a transaction, for a
request whose action is a write; `none` when the request does not compile
(its input builder returns an error or panics) or is no write. -/
def dispatchOf (cd : Codec) (pfx : String) (rev : Request) : Option Call :=
  if rev.Action = Action.Put then
    match mergeKey rev.Key rev.Item with
    | none => none
    | some item =>
      match putInput cd { rev with Table := pfx ++ rev.Table } item with
      | some (.ok inp) => some (Call.PutItem inp)
      | _ => none
  else if rev.Action = Action.Delete then
    match deleteInput cd { rev with Table := pfx ++ rev.Table } with
    | .ok inp => some (Call.DeleteItem inp)
    | .error _ => none
  else if rev.Action = Action.Update then
    match updateInput cd { rev with Table := pfx ++ rev.Table } with
    | some (.ok inp) => some (Call.UpdateItem inp)
    | _ => none
  else none

/-- The backend call that compensates a log entry on a handle with table
prefix `pfx`; `none` when the compensating request does not compile. -/
def compensation (cd : Codec) (pfx : String) (o : op) : Option Call :=
  match reverseOp cd o with
  | none => none
  | some rev => dispatchOf cd pfx rev

/-- The operation that compensates a logged action: a `DeleteItem` for a
`Put`, an `UpdateItem` for an `Update`, a `PutItem` for a `Delete`. -/
def compensationName (a : Action) : String :=
  if a = Action.Put then "DeleteItem"
  else if a = Action.Update then "UpdateItem"
  else "PutItem"

/-- Running a write request panics: `put` writes the key into a nil item map,
or a compiler panics. -/
def writePanics (cd : Codec) (pfx : String) (rev : Request) : Bool :=
  if rev.Action = Action.Put then
    match mergeKey rev.Key rev.Item with
    | none => true
    | some item => (putInput cd { rev with Table := pfx ++ rev.Table } item).isNone
  else if rev.Action = Action.Update then
    (updateInput cd { rev with Table := pfx ++ rev.Table }).isNone
  else false

/-- Running the compensation of a log entry panics: `reverseOp` dereferences
a nil result, or the run of the compensating request panics. -/
def compensationPanics (cd : Codec) (pfx : String) (o : op) : Bool :=
  match reverseOp cd o with
  | none => true
  | some rev => writePanics cd pfx rev

/-- The outcomes of compensating the log entries one after the other, each in
the handle and backend state its predecessor left; `none` when one panics. -/
def compensationOutcomes {σ : Type} (cd : Codec) (db : DBer σ) :
    List op → DynamoDBDatastore → σ → Option (List (RunOut σ))
  | [], _, _ => some []
  | o :: rest, c, s =>
    match reverseOp cd o with
    | none => none
    | some rev =>
      match Run cd db c rev s with
      | none => none
      | some out =>
        match compensationOutcomes cd db rest out.c out.s with
        | none => none
        | some outs => some (out :: outs)

/-- The SDK encoding of a Go string: NULL when empty. -/
def encodeString (s : String) : AttributeValue :=
  if s.data.isEmpty then { AttributeValue.zero with NULL := some true } else AttributeValue.ofS s

/-- An instance of `Codec` for the examples: it agrees with the SDK on
strings, string slices, ints, booleans and nil, on decoding string sets, and
reports every other shape as an error. -/
def exampleCodec : Codec where
  Encode v :=
    match v with
    | .str s => .ok (encodeString s)
    | .strs l => .ok { AttributeValue.zero with L := some (l.map encodeString) }
    | .int n => .ok (AttributeValue.ofN (Itoa n))
    | .bool b => .ok { AttributeValue.zero with BOOL := some b }
    | .nil => .ok { AttributeValue.zero with NULL := some true }
    | _ => .error "unsupported value"
  Unmarshal av :=
    match av.S, av.BOOL, av.NULL, av.SS with
    | some s, _, _, _ => .ok (.str s)
    | none, some b, _, _ => .ok (.bool b)
    | none, none, some _, _ => .ok .nil
    | none, none, none, some l => .ok (.strs l)
    | none, none, none, none => .error "unsupported attribute"

/-- The old attributes of the examples: a string and a string set. -/
def exampleAttributes : GoMap AttributeValue :=
  [("field1", AttributeValue.ofS "value1 string"),
   ("field3", { AttributeValue.zero with SS := some ["value3.1", "value3.2"] })]

/-- The handle of `TestRollback`: a log of a Put, an Update and a Delete on the
key `id = 1234` of table `test`. -/
def testRollbackHandle : DynamoDBDatastore :=
  { ops :=
      [{ request := { Action := Action.Put, Key := [("id", .str "1234")], Table := "test" },
         result := some {} },
       { request := { Action := Action.Update, Key := [("id", .str "1234")], Table := "test" },
         result := some { attributes := exampleAttributes } },
       { request := { Action := Action.Delete, Key := [("id", .str "1234")], Table := "test" },
         result := some { attributes := exampleAttributes } }] }

/-- A backend without state whose `UpdateItem` and `DeleteItem` return the
given old attributes; every call succeeds. -/
def attrBackend (attrs : GoMap AttributeValue) : DBer Unit where
  GetItem _ s := (.ok { Item := [] }, s)
  PutItem _ s := (none, s)
  DeleteItem _ s := (.ok { Attributes := attrs }, s)
  UpdateItem _ s := (.ok { Attributes := attrs }, s)
  QueryPages _ s := (([], none), s)
  Query _ s := (.ok { Count := some 0, Items := [] }, s)

/-- An update request whose one update removes the path `field1`, written
without the leading slash. -/
def slashlessUpdate : Request :=
  { Table := "test", Action := Action.Update, Key := [("id", .str "1")],
    Updates := [{ Action := Action.Delete, Path := "field1" }] }

/-! ## A key-value model of the backend -/

/-- Equality of two key attributes: keys are scalars, compared by their
`S`, `N` and `B` tags. -/
def keyAttrEq (a b : AttributeValue) : Bool :=
  decide (a.S = b.S) && decide (a.N = b.N) && decide (a.B = b.B)

/-- Equality of two marshalled keys. -/
def keyEq (k1 k2 : GoMap AttributeValue) : Bool :=
  k1.length == k2.length &&
    k1.all (fun e =>
      match mapLookup k2 e.1 with
      | some v => keyAttrEq e.2 v
      | none => false)

/-- A stored item with the table and key that address it. -/
structure KVRow where
  table : String
  key : GoMap AttributeValue
  item : GoMap AttributeValue

/-- The row is addressed by this table name and key. -/
def KVRow.addressedBy (row : KVRow) (table : String) (key : GoMap AttributeValue) : Bool :=
  decide (row.table = table) && keyEq row.key key

/-- A key-value model of the backend whose tables all have the key
attributes `keyNames`: `PutItem` stores the item under its table name and key,
`DeleteItem` removes the item of that table name and key and returns it when
asked for `ALL_OLD`, `GetItem` returns the item or nothing.  Updates and
queries are not modelled and change nothing. -/
def kvBackend (keyNames : List String) : DBer (List KVRow) where
  GetItem inp st :=
    (.ok { Item := match st.find? (fun row => row.addressedBy inp.TableName inp.Key) with
                   | some row => row.item
                   | none => [] }, st)
  PutItem inp st :=
    (none,
      st.filter (fun row => !row.addressedBy inp.TableName
          (inp.Item.filter (fun e => keyNames.contains e.1))) ++
        [{ table := inp.TableName, key := inp.Item.filter (fun e => keyNames.contains e.1),
           item := inp.Item }])
  DeleteItem inp st :=
    (.ok { Attributes :=
            match st.find? (fun row => row.addressedBy inp.TableName inp.Key) with
            | some row => if inp.ReturnValues = some "ALL_OLD" then row.item else []
            | none => [] },
      st.filter (fun row => !row.addressedBy inp.TableName inp.Key))
  UpdateItem _ st := (.ok { Attributes := [] }, st)
  QueryPages _ st := (([], none), st)
  Query _ st := (.ok { Count := some 0, Items := [] }, st)

/-- The table a call addresses. -/
def Call.table : Call → String
  | .GetItem inp => inp.TableName
  | .PutItem inp => inp.TableName
  | .DeleteItem inp => inp.TableName
  | .UpdateItem inp => inp.TableName
  | .QueryPages inp => inp.TableName
  | .Query inp => inp.TableName

/-- A handle with the table prefix `p_`. -/
def prefixedHandle : DynamoDBDatastore := { tablePrefix := "p_" }

/-- A Put of the item `field1 = value1` under the key `id = 1` of table `t`. -/
def examplePut : Request :=
  { Table := "t", Action := Action.Put, Key := [("id", .str "1")],
    Item := some [("field1", .str "value1")] }

/-- A live Get of the key `id = 1` of table `t`. -/
def exampleLiveGet : Request :=
  { Table := "t", Action := Action.Get, Key := [("id", .str "1")], LiveData := true }

/-- On a handle `c`: start a transaction, run the Put, roll back, then run the
live Get, all on the recording key-value backend that starts empty.  The
result is the table names of the backend calls, the errors of the rollback and
the number of items the Get found. -/
def putRollbackGet (c : DynamoDBDatastore) : Option (List String × List String × Nat) :=
  match Run exampleCodec (traced (kvBackend ["id"])) (StartTransaction c) examplePut ([], []) with
  | none => none
  | some o1 =>
    match Rollback exampleCodec (traced (kvBackend ["id"])) o1.c o1.s with
    | none => none
    | some (c2, s2, errs) =>
      match Run exampleCodec (traced (kvBackend ["id"])) c2 exampleLiveGet s2 with
      | none => none
      | some o3 =>
        some (o3.s.2.map Call.table, errs,
          match o3.r with
          | some r => r.items.length
          | none => 0)

/-- The logged Put of `TestReverseOp`. -/
def testPutOp : op :=
  { request := { Table := "test", Action := Action.Put, Key := [("id", .str "valueofid")],
                 Item := some [("field1", .str "Val1"), ("field2", .int 2)] },
    result := none }

/-- A logged Delete with the old attributes of the examples. -/
def testDeleteOp : op :=
  { request := { Table := "test", Action := Action.Delete, Key := [("id", .str "valueofid")] },
    result := some { attributes := exampleAttributes } }

/-- A logged Update of the path `/name`, built as `AddUpdateValue` builds it,
whose old attributes hold the attribute `name`. -/
def namedUpdateOp : op :=
  { request := { Table := "test", Action := Action.Update, Key := [("id", .str "1")],
                 Updates := [{ Action := Action.Update, Path := "/name", Value := .str "new" }] },
    result := some { attributes := [("name", AttributeValue.ofS "old")] } }

/-- The same logged Update with the path written `name`, without the slash. -/
def slashlessUpdateOp : op :=
  { request := { Table := "test", Action := Action.Update, Key := [("id", .str "1")],
                 Updates := [{ Action := Action.Update, Path := "name", Value := .str "new" }] },
    result := some { attributes := [("name", AttributeValue.ofS "old")] } }

/-- A logged Update that puts `/field4` and updates `/field5`, neither of which
is among the old attributes. -/
def absentUpdateOp : op :=
  { request := { Table := "test", Action := Action.Update, Key := [("id", .str "1")],
                 Updates := [{ Action := Action.Put, Path := "/field4", Value := .str "x" },
                             { Action := Action.Update, Path := "/field5", Value := .str "y" }] },
    result := some { attributes := exampleAttributes } }

/-! ## The operation log -/

/-- The request as `Run` rewrites it before logging: the table name prefixed,
for a Put the key merged into the item, for an Update or Delete in a
transaction `ReturnValues` forced. -/
def loggedRequest (c : DynamoDBDatastore) (request : Request) : Request :=
  let rq : Request := { request with Table := c.tablePrefix ++ request.Table }
  if rq.Action = Action.Put then
    { rq with Item := match mergeKey rq.Key rq.Item with
                      | some item => item
                      | none => rq.Item }
  else if rq.Action = Action.Delete ∨ rq.Action = Action.Update then withReturnValues c rq
  else rq

/-- The request is a Get that `Run` answers from the cache. -/
def answeredFromCache (c : DynamoDBDatastore) (request : Request) : Bool :=
  decide (request.Action = Action.Get) && !request.LiveData && !c.cacheDisabled &&
    match cacheScan c.cache request.Key with
    | some (some _) => true
    | _ => false

/-- A backend without state whose `GetItem` returns the given item; every
call succeeds. -/
def itemBackend (item : GoMap AttributeValue) : DBer Unit where
  GetItem _ s := (.ok { Item := item }, s)
  PutItem _ s := (none, s)
  DeleteItem _ s := (.ok { Attributes := [] }, s)
  UpdateItem _ s := (.ok { Attributes := [] }, s)
  QueryPages _ s := (([], none), s)
  Query _ s := (.ok { Count := some 0, Items := [] }, s)

/-- A Get of the key `id = 1` of table `t`, served from the cache when possible. -/
def exampleGet : Request :=
  { Table := "t", Action := Action.Get, Key := [("id", .str "1")] }

/-- The states of a handle and backend that are reached from
`StartTransaction` by calls of `Run` that return. -/
inductive Reachable {σ : Type} (cd : Codec) (db : DBer σ) : DynamoDBDatastore → σ → Prop where
  | start (c : DynamoDBDatastore) (s : σ) : Reachable cd db (StartTransaction c) s
  | run (c : DynamoDBDatastore) (s : σ) (request : Request) (out : RunOut σ) :
      Reachable cd db c s → Run cd db c request s = some out → Reachable cd db out.c out.s

/-- On a fresh handle: start a transaction, run the Put, roll back and roll
back again, on the recording key-value backend.  The result is the
transaction flag and the length of the log after the first rollback, and the
names of the backend calls made up to the end of the first and of the second
rollback. -/
def putRollbackTwice : Option (Bool × Nat × List String × List String) :=
  match Run exampleCodec (traced (kvBackend ["id"])) (StartTransaction {}) examplePut ([], []) with
  | none => none
  | some o1 =>
    match Rollback exampleCodec (traced (kvBackend ["id"])) o1.c o1.s with
    | none => none
    | some (c2, s2, _) =>
      match Rollback exampleCodec (traced (kvBackend ["id"])) c2 s2 with
      | none => none
      | some (_, s3, _) =>
        some (c2.transaction, c2.ops.length, s2.2.map Call.name, s3.2.map Call.name)

/-- On a fresh handle: start a transaction, run the Put, clear the cache and
roll back, on the recording key-value backend.  The result is the transaction
flag and the length of the log after `ClearCache`, the names of the backend
calls made up to the end of the rollback, and the number of items a live Get
finds afterwards. -/
def putClearCacheRollback : Option (Bool × Nat × List String × Nat) :=
  match Run exampleCodec (traced (kvBackend ["id"])) (StartTransaction {}) examplePut ([], []) with
  | none => none
  | some o1 =>
    match Rollback exampleCodec (traced (kvBackend ["id"])) (ClearCache o1.c) o1.s with
    | none => none
    | some (c2, s2, _) =>
      match Run exampleCodec (traced (kvBackend ["id"])) c2 exampleLiveGet s2 with
      | none => none
      | some o3 =>
        some ((ClearCache o1.c).transaction, (ClearCache o1.c).ops.length, s2.2.map Call.name,
          match o3.r with
          | some r => r.items.length
          | none => 0)

/-- The `ReturnValues` field a `DeleteItem` or `UpdateItem` call carries
(`none` inside when the field is omitted); no value for the other calls. -/
def Call.writeReturnValues : Call → Option (Option String)
  | .DeleteItem inp => some inp.ReturnValues
  | .UpdateItem inp => some inp.ReturnValues
  | _ => none

/-- A Delete of the key `id = 1` of table `t` that asks for `UPDATED_OLD`. -/
def exampleDelete : Request :=
  { Table := "t", Action := Action.Delete, Key := [("id", .str "1")],
    ReturnValues := "UPDATED_OLD" }

/-! ## Key equality vocabulary -/

/-- The value is present and of a comparable type: an int, a float, a string
or a bool. -/
def Value.isScalar : Value → Bool
  | .int _ => true
  | .float _ => true
  | .str _ => true
  | .bool _ => true
  | _ => false

/-- A key whose one value is a slice of strings. -/
def sliceKey : GoMap Value := [("id", .strs ["x"])]

/-- The Get of `TestCacheHit`: a key of two fields. -/
def testGet : Request :=
  { Table := "test", Action := Action.Get, Key := [("id", .str "usr"), ("subd", .int 1234)] }

/-- The last Get of `TestCacheHit`: the key with one field fewer. -/
def testGetShortKey : Request :=
  { Table := "test", Action := Action.Get, Key := [("id", .str "usr")] }

/-- On the handle `c` and the recording backend that returns one item: run
`testGet` twice and then `testGetShortKey`.  The result is the number of
backend calls made up to the end of each of the three runs, and whether the
second run returned the result of the first. -/
def threeGets (c : DynamoDBDatastore) (tr : List Call) : Option (List Nat × Bool) :=
  match Run exampleCodec (traced (itemBackend (itemOf "1"))) c testGet ((), tr) with
  | none => none
  | some o1 =>
    match Run exampleCodec (traced (itemBackend (itemOf "1"))) o1.c testGet o1.s with
    | none => none
    | some o2 =>
      match Run exampleCodec (traced (itemBackend (itemOf "1"))) o2.c testGetShortKey o2.s with
      | none => none
      | some o3 =>
        some ([o1.s.2.length, o2.s.2.length, o3.s.2.length],
          match o1.r, o2.r with
          | some r1, some r2 => r1.items.length == r2.items.length
          | _, _ => false)

/-- A handle with caching enabled whose cache already holds the result of a
Get of the one-field key. -/
def warmHandle : DynamoDBDatastore :=
  match Run exampleCodec (itemBackend (itemOf "1")) {} testGetShortKey () with
  | some out => out.c
  | none => {}

/-! ## The vocabulary of the claims on condition expressions -/

/-- The name alias number `i`. -/
def nameAlias (i : Int) : String := "#ename" ++ Itoa i

/-- The value alias number `i`. -/
def valueAlias (i : Int) : String := ":val" ++ Itoa i

/-- The kind of the condition compares the field with a value. -/
def RequestCondition.carriesValue (c : RequestCondition) : Bool :=
  decide (c.Kind = Condition.GreaterThan ∨ c.Kind = Condition.LessThan ∨
    c.Kind = Condition.Equal ∨ c.Kind = Condition.BeginsWith)

/-- The condition is of a known kind and its value is of a type the kind
takes: none is looked at for Exist and NotExist, an `int` for GreaterThan
and LessThan, an `int` or a `string` for Equal, a `string` for BeginsWith. -/
def RequestCondition.typeCorrect (c : RequestCondition) : Bool :=
  if c.Kind = Condition.Exist ∨ c.Kind = Condition.NotExist then true
  else if c.Kind = Condition.GreaterThan ∨ c.Kind = Condition.LessThan then
    match c.Value with
    | .int _ => true
    | _ => false
  else if c.Kind = Condition.Equal then
    match c.Value with
    | .int _ => true
    | .str _ => true
    | _ => false
  else if c.Kind = Condition.BeginsWith then
    match c.Value with
    | .str _ => true
    | _ => false
  else false

/-- The attribute value an `int` or a `string` is bound as: a number or a
string. -/
def boundValue : Value → Option AttributeValue
  | .int n => some (AttributeValue.ofN (Itoa n))
  | .str s => some (AttributeValue.ofS s)
  | _ => none

/-- The form of the kind of `c` over the name alias number `n` and the value
alias number `v`. -/
def termOf (c : RequestCondition) (n v : Int) : String :=
  if c.Kind = Condition.Exist then "attribute_exists(" ++ nameAlias n ++ ")"
  else if c.Kind = Condition.NotExist then "attribute_not_exists(" ++ nameAlias n ++ ")"
  else if c.Kind = Condition.GreaterThan then nameAlias n ++ " > " ++ valueAlias v
  else if c.Kind = Condition.LessThan then nameAlias n ++ " < " ++ valueAlias v
  else if c.Kind = Condition.Equal then nameAlias n ++ " = " ++ valueAlias v
  else "begins_with(" ++ nameAlias n ++ ", " ++ valueAlias v ++ ")"

/-- The keyword of a condition whose Relationship is And or Or. -/
def keywordOf (c : RequestCondition) : String :=
  if c.Relationship = Relationship.And then "AND" else "OR"

/-- The expression after the first term: for each further condition one space,
its keyword, one space and its term, over the name alias `n` and the next
unused value alias `v`. -/
def exprTail : List RequestCondition → Int → Int → String
  | [], _, _ => ""
  | c :: rest, n, v =>
    " " ++ keywordOf c ++ " " ++ termOf c n v ++
      exprTail rest (n + 1) (if c.carriesValue then v + 1 else v)

/-- The expression of a list of conditions compiled from empty tables. -/
def exprOf : List RequestCondition → String
  | [] => ""
  | c :: rest => termOf c 0 0 ++ exprTail rest 1 (if c.carriesValue then 1 else 0)

/-- The value aliases bound by the conditions, from the value alias `v` on. -/
def bindValues : List RequestCondition → Int → ExprValues → ExprValues
  | [], _, vals => vals
  | c :: rest, v, vals =>
    if c.carriesValue then bindValues rest (v + 1) (mapAssign vals (valueAlias v) (boundValue c.Value))
    else bindValues rest v vals

/-- The name aliases bound by the conditions, from the name alias `n` on. -/
def bindNames : List RequestCondition → Int → GoMap String → GoMap String
  | [], _, names => names
  | c :: rest, n, names => bindNames rest (n + 1) (mapAssign names (nameAlias n) c.Field)

/-- The conditions of the last case of `TestBuildConditionExpression`. -/
def testConditions : List RequestCondition :=
  [{ Field := "test4", Kind := Condition.GreaterThan, Value := .int 42 },
   { Field := "test5", Kind := Condition.BeginsWith, Value := .str "amd",
     Relationship := Relationship.And }]

/-- A GreaterThan condition whose value is the `float64` 1.5. -/
def floatCondition : RequestCondition :=
  { Field := "f", Kind := Condition.GreaterThan, Value := .float 0x3FF8000000000000 }

/-- An Equal condition without a value. -/
def equalNilCondition : RequestCondition :=
  { Field := "f", Kind := Condition.Equal }

/-- The conditions of the second case of `TestBuildConditionExpression` that
compiles: an Exist and a NotExist. -/
def testExistConditions : List RequestCondition :=
  [{ Field := "test2", Kind := Condition.Exist },
   { Field := "test3", Kind := Condition.NotExist, Relationship := Relationship.And }]

/-! ## The vocabulary of the claims on alias tables -/

/-- The entries of an alias table that binds the aliases number `n`, `n + 1`,
... to the elements of a list, in order. -/
def aliased {α : Type} (al : Int → String) : List α → Int → GoMap α
  | [], _ => []
  | x :: xs, n => (al n, x) :: aliased al xs (n + 1)

/-- The name aliases minted for the conditions from the alias number `n` on:
one per condition, bound to its field. -/
def namesFrom (conds : List RequestCondition) (n : Int) : GoMap String :=
  aliased nameAlias (conds.map (fun c => c.Field)) n

/-- The number of value-carrying conditions. -/
def valueCount (conds : List RequestCondition) : Nat :=
  (conds.filter (fun c => c.carriesValue)).length

/-- The value aliases minted for the conditions from the alias number `v` on:
one per value-carrying condition, bound to its value. -/
def valuesFrom (conds : List RequestCondition) (v : Int) : ExprValues :=
  aliased valueAlias
    ((conds.filter (fun c => c.carriesValue)).map (fun c => boundValue c.Value)) v

/-- What stands between the space after the expression so far and the term of
a condition that is not the first: its keyword and a space, nothing for the
Relationship -1. -/
def joinerOf (c : RequestCondition) : String :=
  if c.Relationship ≠ -1 then c.RelationshipString ++ " " else ""

/-- The expression after the first term, over the name aliases from `n` and
the value aliases from `v` on. -/
def exprTailFrom : List RequestCondition → Int → Int → String
  | [], _, _ => ""
  | c :: rest, n, v =>
    " " ++ joinerOf c ++ termOf c n v ++
      exprTailFrom rest (n + 1) (if c.carriesValue then v + 1 else v)

/-- The expression of a list of conditions over the name aliases from `n` and
the value aliases from `v` on, and over no other alias. -/
def exprFrom : List RequestCondition → Int → Int → String
  | [], _, _ => ""
  | c :: rest, n, v =>
    termOf c n v ++ exprTailFrom rest (n + 1) (if c.carriesValue then v + 1 else v)

/-- The keys of the table are aliases of numbers from `lo` up to `hi - 1`. -/
def KeysIn {α : Type} (al : Int → String) (lo hi : Int) (m : GoMap α) : Prop :=
  ∀ k ∈ m.map Prod.fst, ∃ j, lo ≤ j ∧ j < hi ∧ k = al j

/-- A result filter of two conditions, the first of which carries a value. -/
def testFilter : List RequestCondition :=
  [{ Field := "status", Kind := Condition.Equal, Value := .str "open" },
   { Field := "owner", Kind := Condition.Exist, Relationship := Relationship.Or }]

/-- A Put with a condition that fails the type check of its kind: GreaterThan
with a string. -/
def badConditionPut : Request :=
  { Table := "t", Action := Action.Put, Key := [("id", .str "1")],
    Item := some [("field1", .str "value1")],
    RequestConditions :=
      [{ Field := "test4", Kind := Condition.GreaterThan, Value := .str "string" }] }

/-- The Put of `badConditionPut` with an Equal condition without a value. -/
def equalNilPut : Request :=
  { badConditionPut with RequestConditions := [equalNilCondition] }

/-- A Query with an Equal condition without a value. -/
def equalNilQuery : Request :=
  { Table := "t", Action := Action.Query, RequestConditions := [equalNilCondition] }

/-! ## The vocabulary of the claims on update expressions -/

/-- The alias of the segment number `i` of a path translated with index `x`. -/
def segmentAlias (x i : Int) : String := "#" ++ Itoa x ++ "ename" ++ Itoa i

/-- The segment gets an alias: it neither parses as an integer nor is the
append marker. -/
def isNamed (seg : String) : Bool := !atoiOk seg && !decide (seg = "-")

/-- What the segment number `i` adds to the translated path: a segment that
parses as an integer is bracketed and appended directly; any other segment,
its alias or the marker `-` itself, follows a dot unless it is the first. -/
def pieceOf (x : Int) (i : Nat) (seg : String) : String :=
  if atoiOk seg then "[" ++ seg ++ "]"
  else (if i = 0 then "" else ".") ++ (if seg = "-" then "-" else segmentAlias x i)

/-- The translated path of the segments from number `i` on. -/
def piecesFrom (x : Int) : List String → Nat → String
  | [], _ => ""
  | seg :: rest, i => pieceOf x i seg ++ piecesFrom x rest (i + 1)

/-- The alias table of the segments from number `i` on: one entry per named
segment. -/
def segmentAliases (x : Int) : List String → Nat → GoMap String
  | [], _ => []
  | seg :: rest, i =>
    if isNamed seg then (segmentAlias x i, seg) :: segmentAliases x rest (i + 1)
    else segmentAliases x rest (i + 1)

/-- The segments of a path that are walked: those after the first, which is
empty for a path that starts with a slash. -/
def segmentsOf (key : String) : List String := (splitSlash key).tail

/-- The destination of the assignment of an item with index `x` (the size of
the name table at the start plus the position of the item): the translated
path, or, for a path that ends with the append marker, the translated parent
path followed by the list index made of the digits 999 and the decimal of
`x + 1`. -/
def destinationOf (x : Int) (segs : List String) : String :=
  if segs.getLast? = some "-" then
    piecesFrom x segs.dropLast 0 ++ "[999" ++ Itoa (x + 1) ++ "]"
  else piecesFrom x segs 0

/-- The strings joined by a comma and a space. -/
def commaJoin : List String → String
  | [] => ""
  | [a] => a
  | a :: b :: rest => a ++ ", " ++ commaJoin (b :: rest)

/-- The assignments of the Put and Update items, in input order, `i` and `n`
being the sizes of the value and name tables plus the position of the first
item. -/
def assignmentsOf : List UpdateValue → Int → Int → List String
  | [], _, _ => []
  | v :: rest, i, n =>
    if v.Action = Action.Put ∨ v.Action = Action.Update then
      (destinationOf n (segmentsOf v.Path) ++ " = " ++ valueAlias i) ::
        assignmentsOf rest (i + 1) (n + 1)
    else assignmentsOf rest (i + 1) (n + 1)

/-- The translated paths of the Delete items, in input order. -/
def removalsOf : List UpdateValue → Int → List String
  | [], _ => []
  | v :: rest, n =>
    if v.Action = Action.Delete then
      piecesFrom n (segmentsOf v.Path) 0 :: removalsOf rest (n + 1)
    else removalsOf rest (n + 1)

/-- The update expression of the two halves: `SET` and the assignments, then
`REMOVE` and the removals, joined by one space; a half without items is left
out. -/
def halvesOf (sets rems : List String) : String :=
  match sets, rems with
  | [], [] => ""
  | _ :: _, [] => "SET " ++ commaJoin sets
  | [], _ :: _ => "REMOVE " ++ commaJoin rems
  | _ :: _, _ :: _ => "SET " ++ commaJoin sets ++ " " ++ "REMOVE " ++ commaJoin rems

/-- The update of `TestUpdate`: one Update of `/name` to `Test`. -/
def testUpdates : List UpdateValue :=
  [{ Action := Action.Update, Path := "/name", Value := .str "Test" }]

/-- The first list of `TestBuildUpdateExpression`: a Delete, a Put and an
Update. -/
def testUpdateList : List UpdateValue :=
  [{ Action := Action.Delete, Path := "/test/2" },
   { Action := Action.Put, Path := "/test1", Value := .strs ["test1", "test2"] },
   { Action := Action.Update, Path := "/test2/test2", Value := .int 12345 }]

/-- The compensation `reverseOp` builds for a Put of a new attribute: one
Delete without a path. -/
def emptyPathDelete : List UpdateValue := [{ Action := Action.Delete }]

/-- The aliases minted for the items of an update list, `n` being the index
of the first item: for each item in turn, those of its named segments. -/
def allAliases : List UpdateValue → Int → GoMap String
  | [], _ => []
  | v :: rest, n => segmentAliases n (segmentsOf v.Path) 0 ++ allAliases rest (n + 1)

/-- The named segments of all items of an update list, in order. -/
def namedSegments : List UpdateValue → List String
  | [] => []
  | v :: rest => (segmentsOf v.Path).filter isNamed ++ namedSegments rest

/-- The keys of the table are segment aliases of items with an index from `lo`
up to `hi - 1`. -/
def ItemKeysIn (lo hi : Int) (m : GoMap String) : Prop :=
  ∀ k ∈ m.map Prod.fst, ∃ x i, lo ≤ x ∧ x < hi ∧ k = segmentAlias x i

/-- A Put that appends to the list `list`: its path ends with the marker. -/
def appendUpdates : List UpdateValue :=
  [{ Action := Action.Delete, Path := "/old" },
   { Action := Action.Put, Path := "/list/-", Value := .strs ["test1", "test2"] }]

/-- A Put whose path holds the marker twice. -/
def doubleMarkerUpdates : List UpdateValue :=
  [{ Action := Action.Put, Path := "/a/-/-", Value := .str "x" }]

/-- A Put that appends the empty string. -/
def emptyStringAppend : List UpdateValue :=
  [{ Action := Action.Put, Path := "/list/-", Value := .str "" }]

/-- The fields of a mapping that `marshalItems` is to encode: those whose
value is not the empty string. -/
def encodedFields (inp : GoMap Value) : GoMap Value :=
  inp.filter (fun e => !isEmptyString e.2)

/-- The mapping of `TestMarshalItem` with an empty-string field added. -/
def testMarshalInput : GoMap Value :=
  [("key1", .str "ValueString"), ("empty", .str ""), ("Key2", .int 2),
   ("Key3", .strs ["three1", "three2"])]

/-- An encoder that answers an empty list or map with a NULL attribute, as the
comment of `marshalItems` says of the default marshaler; on every other value
it is `exampleCodec`. -/
def nullingCodec : Codec where
  Encode v :=
    match v with
    | .strs [] => .ok { AttributeValue.zero with NULL := some true }
    | .list [] => .ok { AttributeValue.zero with NULL := some true }
    | .map [] => .ok { AttributeValue.zero with NULL := some true }
    | w => exampleCodec.Encode w
  Unmarshal := exampleCodec.Unmarshal

/-- Between the traces `tr` and `tr'` no call was made, or one call, on the
table `table`. -/
def OneCallOn (table : String) (tr tr' : List Call) : Prop :=
  tr' = tr ∨ ∃ call, tr' = tr ++ [call] ∧ call.table = table

/-- The list `l'` is `l`, or `l` with one operation added at the end whose
request names the table `table`. -/
def OneOpOn (table : String) (l l' : List op) : Prop :=
  l' = l ∨ ∃ o, l' = l ++ [o] ∧ o.request.Table = table

/-- A Query of table `t` with a key condition. -/
def exampleQuery : Request :=
  { Table := "t", Action := Action.Query,
    RequestConditions := [{ Field := "id", Kind := Condition.Equal, Value := .str "1" }] }

/-- On a fresh handle: start a transaction, run the request, a read, and roll
back, on a recording backend that returns one item.  The result is the length
of the log after the run and the names and tables of the backend calls made up
to the end of the rollback. -/
def readRollback (request : Request) : Option (Nat × List String × List String) :=
  match Run exampleCodec (traced (itemBackend (itemOf "1"))) (StartTransaction {}) request
      ((), []) with
  | none => none
  | some o1 =>
    match Rollback exampleCodec (traced (itemBackend (itemOf "1"))) o1.c o1.s with
    | none => none
    | some (_, s2, _) => some (o1.c.ops.length, s2.2.map Call.name, s2.2.map Call.table)

/-- The action of the logged request is a read. -/
def isRead (a : Action) : Bool :=
  decide (a = Action.Get ∨ a = Action.Query ∨ a = Action.QueryPager)

/-- The call is a write. -/
def Call.isWrite : Call → Bool
  | .PutItem _ => true
  | .UpdateItem _ => true
  | .DeleteItem _ => true
  | _ => false

/-! ## The result accessors (lines 63-160) -/

/-- The method `GetLastEvaluatedKey` (lines 139-156): the body that reads the
key of the query output is commented out, and nil is returned. -/
def dynamodbResult.GetLastEvaluatedKey (_r : dynamodbResult) : Option (GoMap Value) := none

/-- The method `GetStringListItem` (lines 88-101); `none` is a panic: the item
index out of range, or the nil pointer `s.S` of a list element that is not a
string. -/
def dynamodbResult.GetStringListItem (r : dynamodbResult) (itemIndex : Int) (name : String) :
    Option (List String × Bool) :=
  if itemIndex < 0 then none
  else
    match r.items.get? itemIndex.toNat with
    | none => none
    | some item =>
      match mapLookup item name with
      | none => some ([], false)
      | some av =>
        match av.L with
        | none => some ([], false)
        | some l =>
          if l.all (fun s => s.S.isSome) then some (l.filterMap (fun s => s.S), true) else none

/-- The filter expression of a query call. -/
def Call.filterExpression : Call → Option String
  | .QueryPages inp => inp.FilterExpression
  | .Query inp => inp.FilterExpression
  | _ => none

/-- A Query of table `t` with a key condition and a result filter. -/
def filteredQuery : Request :=
  { exampleQuery with
    ResultFitler := [{ Field := "status", Kind := Condition.Equal, Value := .str "open" }] }

/-- The request of `filteredQuery` as a paged query for page 1 of size 1. -/
def filteredPager : Request :=
  { filteredQuery with Action := Action.QueryPager, PageSize := 1, Page := 1 }

/-- The delivery of a query in two pages: the first carries one item and a
last-evaluated key, after which the next page is requested; the second carries
the last item and no key. -/
def keyedPages : List QueryOutput :=
  [{ Count := some 1, Items := [itemOf "1"], LastEvaluatedKey := itemOf "1" },
   { Count := some 1, Items := [itemOf "2"] }]

/-- The Query of `exampleQuery` limited to one item. -/
def limitedQuery : Request := { exampleQuery with Limit := 1 }

/-- The limited query with the key `id = 1` as its `LastKey`. -/
def resumedQuery : Request := { limitedQuery with LastKey := [("id", .str "1")] }

/-- The first item of `TestResult`. -/
def testResultItem : GoMap AttributeValue :=
  [("number", AttributeValue.ofN "1"), ("string", AttributeValue.ofS "1"),
   ("set", { AttributeValue.zero with
      L := some [AttributeValue.ofS "s1", AttributeValue.ofS "s2"] })]

/-- The result of `TestResult`: two items. -/
def testResult : dynamodbResult := { items := [testResultItem, testResultItem] }

/-- A result whose item holds a list of two numbers. -/
def numberListResult : dynamodbResult :=
  { items := [[("set", { AttributeValue.zero with
      L := some [AttributeValue.ofN "1", AttributeValue.ofN "2"] })]] }

/-- The item of a `PutItem` call. -/
def Call.item : Call → GoMap AttributeValue
  | .PutItem inp => inp.Item
  | _ => []

/-- The Put of `TestPut`: a key and an item of two fields. -/
def testPut : Request :=
  { Table := "test", Action := Action.Put, Key := [("id", .str "1")],
    Item := some [("field1", .str "value1"), ("field2", .int 1)] }

/-- A Put built with a Key but no Item. -/
def keyOnlyPut : Request :=
  { Table := "test", Action := Action.Put, Key := [("id", .str "1")] }

/-- A Put whose Key field holds the empty string. -/
def emptyKeyPut : Request :=
  { Table := "test", Action := Action.Put, Key := [("id", .str "")],
    Item := some [("field1", .str "value1")] }

/-- A Put whose Item has a field of the name of the Key field. -/
def shadowedPut : Request :=
  { Table := "test", Action := Action.Put, Key := [("id", .str "1")],
    Item := some [("id", .str "other"), ("field1", .str "value1")] }

/-! ## Building requests (request.go, lines 114-127) -/

/-- The method `AddUpdateValue`; `none` is the panic of `path[0]` on an empty
path. -/
def Request.AddUpdateValue (r : Request) (path : String) (action : Godba.Action) (value : Value) :
    Option Request :=
  match path.data with
  | [] => none
  | c :: _ =>
    let path := if c ≠ '/' then "/" ++ path else path
    some { r with Updates := r.Updates ++ [{ Action := action, Path := path, Value := value }] }

/-- The request after the calls of `AddUpdateValue` with the given arguments,
in order. -/
def addUpdateValues : Request → List (String × Action × Value) → Option Request
  | r, [] => some r
  | r, (path, action, value) :: rest =>
    match r.AddUpdateValue path action value with
    | none => none
    | some r' => addUpdateValues r' rest

/-- The path is the append marker alone, with or without the leading slash. -/
def isBareMarker (path : String) : Bool := decide (path = "-") || decide (path = "/-")

/-- The arguments of the calls of `AddUpdateValue` the claim is about: no path
is empty, and no Put or Update has the marker alone as its path. -/
def sliceSafe (args : List (String × Action × Value)) : Bool :=
  args.all (fun a =>
    decide (a.1 ≠ "") &&
    (!(decide (a.2.1 = Action.Put ∨ a.2.1 = Action.Update)) || !isBareMarker a.1))

/-- Three calls of `AddUpdateValue`: an Update whose path lacks the slash, a
Put that appends to a list, and a Delete. -/
def exampleUpdateArgs : List (String × Action × Value) :=
  [("name", Action.Update, .str "Test"), ("/list/-", Action.Put, .strs ["test1", "test2"]),
   ("/old", Action.Delete, .nil)]

/-- One call of `AddUpdateValue`: a Put whose path is the marker alone. -/
def bareMarkerArgs : List (String × Action × Value) := [("-", Action.Put, .str "x")]

/-- The Get of `exampleGet` on another table and with a consistent read. -/
def otherTableGet : Request :=
  { exampleGet with Table := "other", ConsistentRead := true }

/-- A handle with caching enabled whose cache holds, for the key `id = 1`, the
item `id = 0` that an earlier Get received. -/
def staleHandle : DynamoDBDatastore :=
  match Run exampleCodec (itemBackend (itemOf "0")) {} exampleGet () with
  | some out => out.c
  | none => {}

/-- On the handle `c` and the recording backend that returns the item
`id = 1`: run the live Get of the key `id = 1` on table `t`, then the Get of
the same key on the table `other`.  The result is the items of the two results
and the number of backend calls made up to the end of each run. -/
def liveThenOther (c : DynamoDBDatastore) :
    Option (List (GoMap AttributeValue) × List (GoMap AttributeValue) × List Nat) :=
  match Run exampleCodec (traced (itemBackend (itemOf "1"))) c exampleLiveGet ((), []) with
  | none => none
  | some o1 =>
    match Run exampleCodec (traced (itemBackend (itemOf "1"))) o1.c otherTableGet o1.s with
    | none => none
    | some o2 =>
      some ((match o1.r with | some r => r.items | none => []),
        (match o2.r with | some r => r.items | none => []),
        [o1.s.2.length, o2.s.2.length])

/-- The value is nil or of a comparable type (an int, a float, a string or a
bool): comparing it with any value returns. -/
def Value.isComparable : Value → Bool
  | .nil => true
  | .int _ => true
  | .float _ => true
  | .str _ => true
  | .bool _ => true
  | _ => false

/-- A key of two fields, the first holding a slice of strings. -/
def mixedKey : GoMap Value := [("a", .strs ["x"]), ("b", .int 1)]

/-- The fields of `mixedKey` with another number, the field `b` visited first. -/
def mixedKeyOther : GoMap Value := [("b", .int 2), ("a", .strs ["x"])]

/-- A key with a nil value, as in a request built with a missing field. -/
def nilValueKey : GoMap Value := [("id", .str "usr"), ("subd", .nil)]

end Godba

/-! # Properties -/

namespace Godba

/-! ## Arithmetic of the Go `int` -/

theorem wrapInt_eq_self {x : Int} (h1 : -(2 ^ 63) ≤ x) (h2 : x < 2 ^ 63) : wrapInt x = x := by
  unfold wrapInt
  omega

/-! ## The page window -/

theorem window_length_le (start : Int) (p : Nat) (d : List (GoMap AttributeValue)) :
    (window start p d).length ≤ p := by
  unfold window
  simp

theorem window_append_of_full (start : Int) (p : Nat) (d e : List (GoMap AttributeValue))
    (h : p ≤ (window start p d).length) : window start p (d ++ e) = window start p d := by
  unfold window at *
  simp only [List.length_take, List.length_drop] at h
  rw [List.drop_append_eq_append_drop, List.take_append_eq_append_take]
  have : p - (List.drop start.toNat d).length = 0 := by
    simp only [List.length_drop]; omega
  rw [this]
  simp

theorem window_of_short (start : Int) (p : Nat) (d : List (GoMap AttributeValue))
    (h : (d.length : Int) ≤ start) : window start p d = [] := by
  unfold window
  have : d.length ≤ start.toNat := by omega
  simp [List.drop_eq_nil_of_le this]

theorem window_snoc (start : Int) (p : Nat) (d : List (GoMap AttributeValue))
    (a : GoMap AttributeValue) :
    window start p (d ++ [a]) =
      if start ≤ (d.length : Int) ∧ (window start p d).length < p then window start p d ++ [a]
      else window start p d := by
  unfold window
  by_cases h1 : start ≤ (d.length : Int)
  · have h1' : start.toNat ≤ d.length := by omega
    rw [List.drop_append_of_le_length h1']
    by_cases h2 : (List.take p (List.drop start.toNat d)).length < p
    · simp only [h1, h2, and_self, if_true]
      simp only [List.length_take, List.length_drop] at h2
      have h3 : d.length - start.toNat < p := by omega
      rw [List.take_append_eq_append_take]
      have h4 : List.take p (List.drop start.toNat d) = List.drop start.toNat d := by
        apply List.take_of_length_le; simp; omega
      rw [h4]
      congr 1
      apply List.take_of_length_le
      simp only [List.length_drop, List.length_singleton]; omega
    · simp only [h1, h2, and_false, if_false]
      simp only [List.length_take, List.length_drop] at h2
      rw [List.take_append_eq_append_take]
      have : p - (List.drop start.toNat d).length = 0 := by
        simp only [List.length_drop]; omega
      rw [this]
      simp
  · have h1' : d.length + 1 ≤ start.toNat := by omega
    have h5 : ¬ (start ≤ (d.length : Int) ∧ (List.take p (List.drop start.toNat d)).length < p) :=
      fun h => h1 h.1
    rw [if_neg h5]
    rw [List.drop_eq_nil_of_le (by simp; omega), List.drop_eq_nil_of_le (by omega)]

theorem pageLoop_spec (start : Int) (p : Nat) (pI D : List (GoMap AttributeValue)) (c : Nat)
    (hc : c ≤ pI.length) (hb : (D.length : Int) + c < 2 ^ 63) (hpb : (p : Int) < 2 ^ 63) :
    ∀ (rem i : Nat) (X : List (GoMap AttributeValue)) (cnt : Int), i + rem = c →
      X = window start p (D ++ pI.take i) → cnt = (p : Int) - X.length → X.length < p →
      pageLoop pI start D.length rem i X cnt =
        some (window start p (D ++ pI.take c),
          (p : Int) - (window start p (D ++ pI.take c)).length) := by
  intro rem
  induction rem with
  | zero =>
    intro i X cnt hi hX hcnt _
    have : i = c := by omega
    subst this
    simp [pageLoop, hX, hcnt]
  | succ rem ih =>
    intro i X cnt hi hX hcnt hlt
    have hic : i < c := by omega
    have hil : i < pI.length := by omega
    have hw : wrapInt ((D.length : Int) + (i : Int)) = (D.length : Int) + i := by
      apply wrapInt_eq_self <;> omega
    have hcw : wrapInt (cnt - 1) = cnt - 1 := by
      apply wrapInt_eq_self <;> omega
    have htake : pI.take (i + 1) = pI.take i ++ [pI[i]] := by
      rw [List.take_succ, List.getElem?_eq_getElem hil]; rfl
    have hlen : (D ++ pI.take i).length = D.length + i := by
      simp [List.length_take]; omega
    have hsnoc := window_snoc start p (D ++ pI.take i) pI[i]
    rw [List.append_assoc, ← htake, hlen] at hsnoc
    unfold pageLoop
    rw [hw, hcw]
    by_cases h1 : start ≤ (D.length : Int) + i
    · rw [if_pos h1]
      have hget : pI.get? i = some pI[i] := by
        rw [List.get?_eq_getElem?, List.getElem?_eq_getElem hil]
      rw [hget]
      dsimp only
      have hX' : X ++ [pI[i]] = window start p (D ++ pI.take (i + 1)) := by
        rw [hsnoc, if_pos ⟨by exact_mod_cast h1, by rw [← hX]; exact hlt⟩, hX]
      have hlen' : (X ++ [pI[i]]).length = X.length + 1 := by simp
      by_cases h2 : cnt - 1 = 0
      · rw [if_pos h2]
        have hfull : p ≤ (window start p (D ++ pI.take (i + 1))).length := by
          rw [← hX', hlen']; omega
        have hsplit : D ++ pI.take c = (D ++ pI.take (i + 1)) ++ (pI.take c).drop (i + 1) := by
          have : pI.take (i + 1) = (pI.take c).take (i + 1) := by
            rw [List.take_take, Nat.min_eq_left (by omega)]
          rw [List.append_assoc, this, List.take_append_drop]
        have hfin : window start p (D ++ pI.take c) = X ++ [pI[i]] := by
          rw [hsplit, window_append_of_full _ _ _ _ hfull, hX']
        have hc1 : cnt - 1 = (p : Int) - ((X.length + 1 : Nat) : Int) := by omega
        rw [hfin, hlen', hc1]
      · rw [if_neg h2]
        apply ih (i + 1) (X ++ [pI[i]]) (cnt - 1) (by omega) hX'
        · rw [hlen']; omega
        · rw [hlen']; omega
    · rw [if_neg h1]
      have hcnt0 : cnt ≠ 0 := by omega
      rw [if_neg hcnt0]
      apply ih (i + 1) X cnt (by omega) _ hcnt hlt
      rw [hsnoc, if_neg (fun h => h1 (by exact_mod_cast h.1)), hX]

theorem pageCountNat_eq {pg : QueryOutput} {cn : Nat} (h : pg.Count = some (cn : Int)) :
    pageCountNat pg = cn := by
  unfold pageCountNat
  rw [h]
  exact Int.toNat_natCast cn

theorem pageCallback_spec (start : Int) (p : Nat) (D : List (GoMap AttributeValue))
    (pg : QueryOutput) (hpg : PageCounted pg)
    (hb : (D.length : Int) + pageCountNat pg < 2 ^ 63) (hpb : (p : Int) < 2 ^ 63) :
    pageCallback start
        { items := window start p D, count := (p : Int) - (window start p D).length,
          resultsSeen := D.length } pg =
      some { items := window start p (D ++ pg.Items.take (pageCountNat pg)),
             count := (p : Int) - (window start p (D ++ pg.Items.take (pageCountNat pg))).length,
             resultsSeen := ((D ++ pg.Items.take (pageCountNat pg)).length : Nat) } := by
  obtain ⟨cn, hcn, hle⟩ := hpg
  have hcnt := pageCountNat_eq hcn
  rw [hcnt] at hb ⊢
  have hlen : (D ++ pg.Items.take cn).length = D.length + cn := by
    rw [List.length_append, List.length_take, Nat.min_eq_left hle]
  have hw1 : wrapInt ((cn : Int) + (D.length : Int)) = (cn : Int) + D.length := by
    apply wrapInt_eq_self <;> omega
  have hw2 : wrapInt ((D.length : Int) + (cn : Int)) = ((D.length + cn : Nat) : Int) := by
    rw [wrapInt_eq_self] <;> omega
  have hwl := window_length_le start p D
  unfold pageCallback
  rw [hcn]
  dsimp only
  rw [hw1, hw2, hlen, Int.toNat_natCast]
  by_cases h1 : (cn : Int) + (D.length : Int) ≤ start
  · rw [if_pos h1]
    have e1 : window start p D = [] := window_of_short start p D (by omega)
    have e2 : window start p (D ++ pg.Items.take cn) = [] :=
      window_of_short start p _ (by rw [hlen]; omega)
    rw [e1, e2]
  · rw [if_neg h1]
    by_cases h2 : (p : Int) - ((window start p D).length : Int) ≠ 0
    · rw [if_pos h2]
      have hl := pageLoop_spec start p pg.Items D cn hle hb hpb cn 0 (window start p D)
        ((p : Int) - ((window start p D).length : Int)) (by omega) (by simp) rfl (by omega)
      rw [hl]
    · rw [if_neg h2]
      have hfull : p ≤ (window start p D).length := by omega
      rw [window_append_of_full start p D _ hfull]

/-- The callback run over well-counted pages keeps the window of the items
delivered so far, the remaining budget and the number of results seen. -/
theorem pagesLoop_spec (start : Int) (p : Nat) (hpb : (p : Int) < 2 ^ 63) :
    ∀ (pages : List QueryOutput) (D : List (GoMap AttributeValue)),
      (∀ pg ∈ pages, PageCounted pg) → (D.length : Int) + countSum pages < 2 ^ 63 →
      pagesLoop start pages
          { items := window start p D, count := (p : Int) - (window start p D).length,
            resultsSeen := D.length } =
        some { items := window start p (D ++ countedItems pages),
               count := (p : Int) - (window start p (D ++ countedItems pages)).length,
               resultsSeen := ((D ++ countedItems pages).length : Nat) } := by
  intro pages
  induction pages with
  | nil =>
    intro D _ _
    simp [pagesLoop, countedItems]
  | cons pg rest ih =>
    intro D hall hb
    have hsum : countSum (pg :: rest) = pageCountNat pg + countSum rest := by
      simp [countSum]
    rw [hsum] at hb
    have hpg : PageCounted pg := hall pg (List.mem_cons_self _ _)
    obtain ⟨cn, hcn, hle⟩ := hpg
    have hcnt := pageCountNat_eq hcn
    have hlen : (D ++ pg.Items.take (pageCountNat pg)).length = D.length + pageCountNat pg := by
      rw [List.length_append, List.length_take, hcnt, Nat.min_eq_left hle]
    unfold pagesLoop
    rw [pageCallback_spec start p D pg ⟨cn, hcn, hle⟩ (by omega) hpb]
    dsimp only
    have hrest := ih (D ++ pg.Items.take (pageCountNat pg))
      (fun q hq => hall q (List.mem_cons_of_mem _ hq)) (by rw [hlen]; omega)
    rw [hrest]
    have hce : countedItems (pg :: rest) = pg.Items.take (pageCountNat pg) ++ countedItems rest := by
      simp [countedItems]
    rw [hce, List.append_assoc]

theorem countedItems_length (pages : List QueryOutput) (h : ∀ pg ∈ pages, PageCounted pg) :
    (countedItems pages).length = countSum pages := by
  induction pages with
  | nil => simp [countedItems, countSum]
  | cons pg rest ih =>
    obtain ⟨cn, hcn, hle⟩ := h pg (List.mem_cons_self _ _)
    have hcnt := pageCountNat_eq hcn
    have e1 : countedItems (pg :: rest) = pg.Items.take (pageCountNat pg) ++ countedItems rest := by
      simp [countedItems]
    have e2 : countSum (pg :: rest) = pageCountNat pg + countSum rest := by
      simp [countSum]
    rw [e1, e2, List.length_append, List.length_take, hcnt, Nat.min_eq_left hle,
      ih (fun q hq => h q (List.mem_cons_of_mem _ hq))]

theorem countedItems_eq_delivered (pages : List QueryOutput)
    (h : ∀ pg ∈ pages, pg.Count = some (pg.Items.length : Int)) :
    countedItems pages = deliveredItems pages := by
  induction pages with
  | nil => simp [countedItems, deliveredItems]
  | cons pg rest ih =>
    have hcnt := pageCountNat_eq (h pg (List.mem_cons_self _ _))
    have e1 : countedItems (pg :: rest) = pg.Items.take (pageCountNat pg) ++ countedItems rest := by
      simp [countedItems]
    have e2 : deliveredItems (pg :: rest) = pg.Items ++ deliveredItems rest := by
      simp [deliveredItems]
    rw [e1, e2, hcnt, List.take_length, ih (fun q hq => h q (List.mem_cons_of_mem _ hq))]

theorem ceil_div_nat (S p : Nat) (hp : 0 < p) :
    ⌈((S : ℚ) / (p : ℚ))⌉ =
      if S % p ≠ 0 then ((S / p : Nat) : Int) + 1 else ((S / p : Nat) : Int) := by
  have hpq : (0 : ℚ) < p := by exact_mod_cast hp
  have hdm : p * (S / p) + S % p = S := Nat.div_add_mod S p
  have hr : S % p < p := Nat.mod_lt _ hp
  generalize S / p = q at hdm ⊢
  generalize S % p = r at hdm hr ⊢
  have hdq : (p : ℚ) * (q : ℚ) + (r : ℚ) = S := by exact_mod_cast hdm
  have hrq : (r : ℚ) < p := by exact_mod_cast hr
  split_ifs with h
  · rw [Int.ceil_eq_iff]
    have h0 : (0 : ℚ) < (r : ℚ) := by exact_mod_cast Nat.pos_of_ne_zero h
    simp only [Int.cast_add, Int.cast_natCast, Int.cast_one]
    constructor
    · rw [lt_div_iff₀ hpq]; nlinarith
    · rw [div_le_iff₀ hpq]; nlinarith
  · have h0 : r = 0 := by omega
    subst h0
    rw [Int.ceil_eq_iff]
    simp only [Int.cast_natCast]
    simp only [Nat.cast_zero, add_zero] at hdq
    constructor
    · rw [lt_div_iff₀ hpq]; nlinarith
    · rw [div_le_iff₀ hpq]; nlinarith

theorem pageCountOf_eq_ceil (S p : Nat) (hp : 0 < p) (hS : (S : Int) < 2 ^ 63) :
    pageCountOf (S : Int) (p : Int) = ⌈((S : ℚ) / (p : ℚ))⌉ := by
  have hdiv : Int.tdiv (S : Int) (p : Int) = ((S / p : Nat) : Int) := by
    rw [Int.tdiv_eq_ediv (by omega) (by omega), Int.natCast_div]
  have hmod : Int.tmod (S : Int) (p : Int) = ((S % p : Nat) : Int) := by
    rw [Int.tmod_eq_emod (by omega) (by omega), Int.natCast_mod]
  have hle : S / p ≤ S := Nat.div_le_self S p
  have hlt : S % p ≠ 0 → S / p < S := by
    intro h
    have hS0 : 0 < S := by
      rcases Nat.eq_zero_or_pos S with h0 | h0
      · rw [h0, Nat.zero_mod] at h; exact absurd rfl h
      · exact h0
    have hp1 : 1 < p := by
      rcases Nat.lt_or_ge 1 p with h1 | h1
      · exact h1
      · have h2 : p = 1 := by omega
        rw [h2, Nat.mod_one] at h; exact absurd rfl h
    exact Nat.div_lt_self hS0 hp1
  unfold pageCountOf
  rw [hdiv, hmod, ceil_div_nat S p hp]
  generalize S / p = q at hle hlt ⊢
  generalize S % p = m at hlt ⊢
  have hw : wrapInt (q : Int) = (q : Int) := by
    apply wrapInt_eq_self <;> omega
  rw [hw]
  by_cases h : m = 0
  · have h1 : ¬ ((m : Int) ≠ 0) := by omega
    have h2 : ¬ (m ≠ 0) := by omega
    rw [if_neg h1, if_neg h2]
  · have h1 : (m : Int) ≠ 0 := by omega
    have h3 := hlt h
    rw [if_pos h1, if_pos h]
    apply wrapInt_eq_self <;> omega

theorem window_nil (start : Int) (p : Nat) : window start p [] = [] := by
  simp [window]

/-- What `queryPages` returns when the conditions compile, the backend
reports no error and every page is well counted. -/
theorem queryPages_counted {σ : Type} (db : DBer σ) (r : Request) (s s' : σ) (qI : QueryInput)
    (pages : List QueryOutput)
    (hq : queryPagesInput r = some (.ok qI))
    (hdb : db.QueryPages qI s = ((pages, none), s'))
    (hp : 0 < r.PageSize) (hpr : r.PageSize < 2 ^ 63)
    (hwf : ∀ pg ∈ pages, PageCounted pg) (htot : (countSum pages : Int) < 2 ^ 63) :
    queryPages db r s =
      some (.ok { items := window (wrapInt (r.PageSize * wrapInt (r.Page - 1))) r.PageSize.toNat
                    (countedItems pages),
                  pageCount := pageCountOf (countSum pages) r.PageSize }, s') := by
  have hpn : ((r.PageSize.toNat : Nat) : Int) = r.PageSize := Int.toNat_of_nonneg (le_of_lt hp)
  have hspec := pagesLoop_spec (wrapInt (r.PageSize * wrapInt (r.Page - 1))) r.PageSize.toNat
    (by rw [hpn]; exact hpr) pages [] hwf (by simpa using htot)
  rw [window_nil] at hspec
  simp only [List.length_nil, Nat.cast_zero, sub_zero, List.nil_append] at hspec
  rw [hpn] at hspec
  have hne : r.PageSize ≠ 0 := ne_of_gt hp
  simp only [queryPages, hq, hdb, hspec, if_neg hne, countedItems_length pages hwf]

/-- C1, amended: for every PageSize `p > 0` and Page `n ≥ 1` whose product
`p * (n - 1)` fits the Go `int`, and every finite sequence of backend pages in
which each page's `Count` is the number of its `Items` (the conditions
compiling and the backend reporting no error), `queryPages` returns exactly
the items at the 0-based positions `p * (n - 1)` up to `p * (n - 1) + p - 1` of
the concatenation of the delivered pages, in delivery order, and never more
than `p` items. -/
theorem queryPages_returns_window {σ : Type} (db : DBer σ) (r : Request) (s s' : σ)
    (qI : QueryInput) (pages : List QueryOutput)
    (hq : queryPagesInput r = some (.ok qI))
    (hdb : db.QueryPages qI s = ((pages, none), s'))
    (hp : 0 < r.PageSize) (hpr : r.PageSize < 2 ^ 63) (hn : 1 ≤ r.Page)
    (hfit : r.PageSize * (r.Page - 1) < 2 ^ 63)
    (hwf : ∀ pg ∈ pages, pg.Count = some (pg.Items.length : Int))
    (htot : ((deliveredItems pages).length : Int) < 2 ^ 63) :
    queryPages db r s =
        some (.ok { items := window (r.PageSize * (r.Page - 1)) r.PageSize.toNat
                      (deliveredItems pages),
                    pageCount := pageCountOf (deliveredItems pages).length r.PageSize }, s') ∧
      (window (r.PageSize * (r.Page - 1)) r.PageSize.toNat (deliveredItems pages)).length ≤
        r.PageSize.toNat := by
  have hpc : ∀ pg ∈ pages, PageCounted pg := fun pg hpg => ⟨pg.Items.length, hwf pg hpg, le_refl _⟩
  have hce := countedItems_eq_delivered pages hwf
  have hcl := countedItems_length pages hpc
  rw [hce] at hcl
  have hn0 : 0 ≤ r.Page - 1 := by omega
  have hmul0 : 0 ≤ r.PageSize * (r.Page - 1) := mul_nonneg (le_of_lt hp) hn0
  have hle : r.Page - 1 ≤ r.PageSize * (r.Page - 1) := by nlinarith
  have hw1 : wrapInt (r.Page - 1) = r.Page - 1 := by
    apply wrapInt_eq_self <;> omega
  have hw2 : wrapInt (r.PageSize * (r.Page - 1)) = r.PageSize * (r.Page - 1) := by
    apply wrapInt_eq_self
    · exact le_trans (by decide) hmul0
    · exact hfit
  have h := queryPages_counted db r s s' qI pages hq hdb hp hpr hpc (by rw [← hcl]; exact htot)
  rw [hw1, hw2, hce, ← hcl] at h
  exact ⟨h, window_length_le _ _ _⟩

/-- Witness of C1: page 2 of size 2 over pages of three, two and two items. -/
theorem queryPages_returns_window_witness :
    (queryPages (pagedBackend examplePages) examplePagerRequest () =
        some (.ok { items := window (examplePagerRequest.PageSize * (examplePagerRequest.Page - 1))
                      examplePagerRequest.PageSize.toNat (deliveredItems examplePages),
                    pageCount := pageCountOf (deliveredItems examplePages).length
                      examplePagerRequest.PageSize }, ()) ∧
      (window (examplePagerRequest.PageSize * (examplePagerRequest.Page - 1))
        examplePagerRequest.PageSize.toNat (deliveredItems examplePages)).length ≤
        examplePagerRequest.PageSize.toNat) ∧
    window (examplePagerRequest.PageSize * (examplePagerRequest.Page - 1))
      examplePagerRequest.PageSize.toNat (deliveredItems examplePages) =
        [itemOf "c", itemOf "d"] :=
  ⟨queryPages_returns_window (pagedBackend examplePages) examplePagerRequest () () _ examplePages
      rfl rfl (by decide) (by decide) (by decide) (by decide) (by decide) (by decide), rfl⟩

/-- Counterexample to C1 as stated: with PageSize `2 ^ 32` and Page `2 ^ 32 + 1`
the start `p * (n - 1) = 2 ^ 64` wraps to 0, so the one delivered item is
returned, while no item has a position from `2 ^ 64` on. -/
theorem queryPages_window_overflow :
    queryPages (pagedBackend [pageOf [itemOf "a"]]) overflowPagerRequest () =
        some (.ok { items := [itemOf "a"], pageCount := 1 }, ()) ∧
      window (overflowPagerRequest.PageSize * (overflowPagerRequest.Page - 1))
        overflowPagerRequest.PageSize.toNat (deliveredItems [pageOf [itemOf "a"]]) = [] :=
  ⟨rfl, rfl⟩

/-- C2, amended: for every PageSize `p > 0` and every sequence of backend pages
whose `Count`s are set, not negative and not larger than the number of items
of their page (the conditions compiling and the backend reporting no error),
the `PageCount` of the `queryPages` result is `ceil(S / p)`, `S` being the sum
of the `Count`s of the delivered pages, whatever the requested Page. -/
theorem queryPages_pageCount {σ : Type} (db : DBer σ) (r : Request) (s s' : σ)
    (qI : QueryInput) (pages : List QueryOutput)
    (hq : queryPagesInput r = some (.ok qI))
    (hdb : db.QueryPages qI s = ((pages, none), s'))
    (hp : 0 < r.PageSize) (hpr : r.PageSize < 2 ^ 63)
    (hwf : ∀ pg ∈ pages, PageCounted pg) (htot : (countSum pages : Int) < 2 ^ 63) :
    queryPages db r s =
      some (.ok { items := window (wrapInt (r.PageSize * wrapInt (r.Page - 1))) r.PageSize.toNat
                    (countedItems pages),
                  pageCount := ⌈((countSum pages : ℚ) / (r.PageSize : ℚ))⌉ }, s') := by
  have hpn : ((r.PageSize.toNat : Nat) : Int) = r.PageSize := Int.toNat_of_nonneg (le_of_lt hp)
  have hpos : 0 < r.PageSize.toNat := by omega
  have hceil := pageCountOf_eq_ceil (countSum pages) r.PageSize.toNat hpos htot
  rw [hpn] at hceil
  have hcast : ((r.PageSize.toNat : Nat) : ℚ) = (r.PageSize : ℚ) := by
    rw [← Int.cast_natCast, hpn]
  rw [hcast] at hceil
  rw [← hceil]
  exact queryPages_counted db r s s' qI pages hq hdb hp hpr hwf htot

/-- Witness of C2: the four pages of ten items of `TestQueryPages` with page
size 3 give 14 pages, and page 3 holds the items 7 to 9 of the first page. -/
theorem queryPages_pageCount_witness :
    queryPages (pagedBackend testPages) testPagerRequest () =
        some (.ok { items := window (wrapInt (testPagerRequest.PageSize *
                      wrapInt (testPagerRequest.Page - 1))) testPagerRequest.PageSize.toNat
                      (countedItems testPages),
                    pageCount := ⌈((countSum testPages : ℚ) / (testPagerRequest.PageSize : ℚ))⌉ },
              ()) ∧
      queryPages (pagedBackend testPages) testPagerRequest () =
        some (.ok { items := [itemOf "page0t7", itemOf "page0t8", itemOf "page0t9"],
                    pageCount := 14 }, ()) :=
  ⟨queryPages_pageCount (pagedBackend testPages) testPagerRequest () () _ testPages rfl rfl
      (by decide) (by decide)
      (fun pg hpg => ⟨pg.Items.length, by
        simp only [testPages, List.mem_cons, List.mem_singleton, List.not_mem_nil, or_false] at hpg
        rcases hpg with h | h | h | h <;> subst h <;> rfl, le_refl _⟩)
      (by decide), rfl⟩

/-- Counterexample to C2 as stated: a page that announces one item and
carries none makes the callback index out of range, so `queryPages` panics
and there is no result whose `PageCount` could be `ceil(1 / 1) = 1`. -/
theorem queryPages_short_page_panics :
    queryPages (pagedBackend [shortPage]) firstPagerRequest () = none ∧
      countSum [shortPage] = 1 :=
  ⟨rfl, rfl⟩

/-! ## Rollback -/

theorem reverseOp_action (cd : Codec) (o : op) (rev : Request) (h : reverseOp cd o = some rev) :
    rev.Action = Action.Put ∨ rev.Action = Action.Delete ∨ rev.Action = Action.Update := by
  unfold reverseOp at h
  split_ifs at h
  · cases h; right; left; rfl
  · cases hr : o.result with
    | none => rw [hr] at h; cases h
    | some res => rw [hr] at h; cases h; left; rfl
  · cases hr : o.result with
    | none => rw [hr] at h; cases h
    | some res => rw [hr] at h; cases h; right; right; rfl
  · cases h; left; rfl

theorem runFinish_idle {σ : Type} (c : DynamoDBDatastore) (request : Request)
    (r : Option dynamodbResult) (e : Option String) (s : σ) (ht : c.transaction = false) :
    runFinish c request r e s = { c := c, s := s, r := r, e := e } := by
  unfold runFinish
  rw [ht]
  simp

theorem withReturnValues_idle (c : DynamoDBDatastore) (request : Request)
    (ht : c.transaction = false) : withReturnValues c request = request := by
  unfold withReturnValues
  rw [ht]
  simp

theorem Action.delete_ne_put : ¬ (Action.Delete = Action.Put) := by decide

theorem Action.put_ne_delete : ¬ (Action.Put = Action.Delete) := by decide

theorem Action.update_ne_put : ¬ (Action.Update = Action.Put) := by decide

theorem Action.update_ne_delete : ¬ (Action.Update = Action.Delete) := by decide

theorem Action.update_ne_get : ¬ (Action.Update = Action.Get) := by decide

theorem Action.delete_ne_get : ¬ (Action.Delete = Action.Get) := by decide

/-- Outside a transaction a write request that does not panic is run to its
end and leaves the handle as it was. -/
theorem Run_idle_write {σ : Type} (cd : Codec) (db : DBer σ) (c : DynamoDBDatastore)
    (rev : Request) (s : σ) (ht : c.transaction = false)
    (hact : rev.Action = Action.Put ∨ rev.Action = Action.Delete ∨ rev.Action = Action.Update)
    (hsafe : writePanics cd c.tablePrefix rev = false) :
    ∃ out, Run cd db c rev s = some out ∧ out.c = c := by
  unfold writePanics at hsafe
  unfold Run
  generalize hrq : ({ rev with Table := c.tablePrefix ++ rev.Table } : Request) = rq at hsafe ⊢
  have hA : rq.Action = rev.Action := by rw [← hrq]
  have hK : rq.Key = rev.Key := by rw [← hrq]
  have hI : rq.Item = rev.Item := by rw [← hrq]
  dsimp only
  rw [hA]
  rcases hact with h | h | h
  · rw [h, if_pos rfl] at hsafe ⊢
    unfold put
    rw [hK, hI]
    cases hm : mergeKey rev.Key rev.Item with
    | none => rw [hm] at hsafe; cases hsafe
    | some item =>
      rw [hm] at hsafe
      dsimp only at hsafe ⊢
      cases hp : putInput cd rq item with
      | none => rw [hp] at hsafe; cases hsafe
      | some res =>
        cases res with
        | error err => exact ⟨_, rfl, by rw [runFinish_idle _ _ _ _ _ ht]⟩
        | ok inp =>
          dsimp only
          cases hb : db.PutItem inp s with
          | mk e s' =>
            cases e with
            | none => exact ⟨_, rfl, by rw [runFinish_idle _ _ _ _ _ ht]⟩
            | some e => exact ⟨_, rfl, by rw [runFinish_idle _ _ _ _ _ ht]⟩
  · rw [h, if_neg Action.delete_ne_put, if_pos rfl]
    exact ⟨_, rfl, by rw [runFinish_idle _ _ _ _ _ ht]⟩
  · rw [h, if_neg Action.update_ne_put, if_pos rfl] at hsafe
    rw [h, if_neg Action.update_ne_put, if_neg Action.update_ne_delete,
      if_neg Action.update_ne_get, if_pos rfl, withReturnValues_idle c _ ht]
    unfold update
    cases hu : updateInput cd rq with
    | none => rw [hu] at hsafe; cases hsafe
    | some res =>
      cases res with
      | error err => exact ⟨_, rfl, by rw [runFinish_idle _ _ _ _ _ ht]⟩
      | ok inp =>
        dsimp only
        cases hb : db.UpdateItem inp s with
        | mk e s' =>
          cases e with
          | error e => exact ⟨_, rfl, by rw [runFinish_idle _ _ _ _ _ ht]⟩
          | ok out => exact ⟨_, rfl, by rw [runFinish_idle _ _ _ _ _ ht]⟩

/-- Outside a transaction, a write request that compiles makes exactly one
backend call, the one `dispatchOf` names, and leaves the handle as it was. -/
theorem Run_traced_dispatch {σ : Type} (cd : Codec) (db : DBer σ) (c : DynamoDBDatastore)
    (rev : Request) (s : σ) (tr : List Call) (call : Call) (ht : c.transaction = false)
    (hd : dispatchOf cd c.tablePrefix rev = some call) :
    ∃ out, Run cd (traced db) c rev (s, tr) = some out ∧ out.c = c ∧
      out.s.2 = tr ++ [call] := by
  unfold dispatchOf at hd
  unfold Run
  generalize hrq : ({ rev with Table := c.tablePrefix ++ rev.Table } : Request) = rq at hd ⊢
  have hA : rq.Action = rev.Action := by rw [← hrq]
  have hK : rq.Key = rev.Key := by rw [← hrq]
  have hI : rq.Item = rev.Item := by rw [← hrq]
  dsimp only
  rw [hA]
  by_cases h1 : rev.Action = Action.Put
  · rw [if_pos h1] at hd ⊢
    unfold put
    rw [hK, hI]
    cases hm : mergeKey rev.Key rev.Item with
    | none => rw [hm] at hd; cases hd
    | some item =>
      rw [hm] at hd
      dsimp only at hd ⊢
      cases hp : putInput cd rq item with
      | none => rw [hp] at hd; cases hd
      | some res =>
        cases res with
        | error err => rw [hp] at hd; cases hd
        | ok inp =>
          rw [hp] at hd
          cases hd
          dsimp only [traced]
          cases hb : (db.PutItem inp s).1 with
          | none => exact ⟨_, rfl, by rw [runFinish_idle _ _ _ _ _ ht], by rw [runFinish_idle _ _ _ _ _ ht]⟩
          | some e => exact ⟨_, rfl, by rw [runFinish_idle _ _ _ _ _ ht], by rw [runFinish_idle _ _ _ _ _ ht]⟩
  · rw [if_neg h1] at hd ⊢
    by_cases h2 : rev.Action = Action.Delete
    · rw [if_pos h2] at hd ⊢
      rw [withReturnValues_idle c _ ht]
      unfold dbDelete
      cases hp : deleteInput cd rq with
      | error err => rw [hp] at hd; cases hd
      | ok inp =>
        rw [hp] at hd
        cases hd
        dsimp only [traced]
        cases hb : (db.DeleteItem inp s).1 with
        | error e => exact ⟨_, rfl, by rw [runFinish_idle _ _ _ _ _ ht], by rw [runFinish_idle _ _ _ _ _ ht]⟩
        | ok out => exact ⟨_, rfl, by rw [runFinish_idle _ _ _ _ _ ht], by rw [runFinish_idle _ _ _ _ _ ht]⟩
    · rw [if_neg h2] at hd ⊢
      by_cases h3 : rev.Action = Action.Update
      · rw [if_pos h3] at hd
        rw [h3, if_neg Action.update_ne_get, if_pos rfl, withReturnValues_idle c _ ht]
        unfold update
        cases hu : updateInput cd rq with
        | none => rw [hu] at hd; cases hd
        | some res =>
          cases res with
          | error err => rw [hu] at hd; cases hd
          | ok inp =>
            rw [hu] at hd
            cases hd
            dsimp only [traced]
            cases hb : (db.UpdateItem inp s).1 with
            | error e => exact ⟨_, rfl, by rw [runFinish_idle _ _ _ _ _ ht], by rw [runFinish_idle _ _ _ _ _ ht]⟩
            | ok out => exact ⟨_, rfl, by rw [runFinish_idle _ _ _ _ _ ht], by rw [runFinish_idle _ _ _ _ _ ht]⟩
      · rw [if_neg h3] at hd
        cases hd

theorem compensation_name (cd : Codec) (pfx : String) (o : op) (call : Call)
    (hact : o.request.Action = Action.Put ∨ o.request.Action = Action.Update ∨
      o.request.Action = Action.Delete)
    (h : compensation cd pfx o = some call) :
    call.name = compensationName o.request.Action := by
  unfold compensation reverseOp at h
  unfold compensationName
  rcases hact with ha | ha | ha
  · rw [ha, if_pos rfl] at h
    rw [ha, if_pos rfl]
    unfold dispatchOf at h
    dsimp only at h
    rw [if_neg Action.delete_ne_put, if_pos rfl] at h
    split at h
    · cases h; rfl
    · cases h
  · rw [ha, if_neg Action.update_ne_put, if_neg Action.update_ne_delete, if_pos rfl] at h
    rw [ha, if_neg Action.update_ne_put, if_pos rfl]
    cases hr : o.result with
    | none => rw [hr] at h; cases h
    | some res =>
      rw [hr] at h
      unfold dispatchOf at h
      dsimp only at h
      rw [if_neg Action.update_ne_put, if_neg Action.update_ne_delete, if_pos rfl] at h
      split at h
      · cases h; rfl
      · cases h
  · rw [ha, if_neg Action.delete_ne_put, if_pos rfl] at h
    rw [ha, if_neg Action.delete_ne_put, if_neg (fun h => Action.update_ne_delete h.symm)]
    cases hr : o.result with
    | none => rw [hr] at h; cases h
    | some res =>
      rw [hr] at h
      unfold dispatchOf at h
      dsimp only at h
      rw [if_pos rfl] at h
      split at h
      · cases h
      · split at h
        · cases h; rfl
        · cases h

/-- The loop of `Rollback` over a log whose compensations compile, on a
recording backend: one call per entry, in log order. -/
theorem rollbackLoop_traced {σ : Type} (cd : Codec) (db : DBer σ) :
    ∀ (ops : List op) (c : DynamoDBDatastore) (s : σ) (tr : List Call) (errs : List String),
      c.transaction = false →
      (∀ o ∈ ops, (compensation cd c.tablePrefix o).isSome) →
      ∃ calls s' errs', rollbackLoop cd (traced db) ops c (s, tr) errs =
          some (c, (s', tr ++ calls), errs') ∧
        calls.map some = ops.map (compensation cd c.tablePrefix) := by
  intro ops
  induction ops with
  | nil =>
    intro c s tr errs _ _
    exact ⟨[], s, errs, by simp [rollbackLoop], rfl⟩
  | cons o rest ih =>
    intro c s tr errs ht hcomp
    have ho := hcomp o (List.mem_cons_self _ _)
    cases hc : compensation cd c.tablePrefix o with
    | none => rw [hc] at ho; cases ho
    | some call =>
      have hc' := hc
      unfold compensation at hc'
      cases hr : reverseOp cd o with
      | none => rw [hr] at hc'; cases hc'
      | some rev =>
        rw [hr] at hc'
        dsimp only at hc'
        obtain ⟨out, hrun, hoc, hos⟩ := Run_traced_dispatch cd db c rev s tr call ht hc'
        have hout : out.s = (out.s.1, tr ++ [call]) := by
          rw [← hos]
        obtain ⟨calls, s', errs', hl, hm⟩ := ih c out.s.1 (tr ++ [call])
          (match out.e with
           | some e => errs ++ [e]
           | none => errs) ht
          (fun q hq => hcomp q (List.mem_cons_of_mem _ hq))
        refine ⟨call :: calls, s', errs', ?_, ?_⟩
        · unfold rollbackLoop
          rw [hr]
          dsimp only
          rw [hrun]
          dsimp only
          rw [hoc, hout, hl, List.append_assoc]
          rfl
        · rw [List.map_cons, List.map_cons, hm, hc]

/-- C3: for every operation log made of Put, Update and Delete entries whose
compensating requests compile, `Rollback` dispatches exactly one backend call
per entry, the i-th being the compensation of the i-th entry (a `DeleteItem`
for a logged Put, an `UpdateItem` for a logged Update, a `PutItem` for a
logged Delete), in the recorded order of the log, oldest entry first. -/
theorem Rollback_dispatches {σ : Type} (cd : Codec) (db : DBer σ) (c : DynamoDBDatastore) (s : σ)
    (hact : ∀ o ∈ c.ops, o.request.Action = Action.Put ∨ o.request.Action = Action.Update ∨
      o.request.Action = Action.Delete)
    (hcomp : ∀ o ∈ c.ops, (compensation cd c.tablePrefix o).isSome) :
    ∃ c' s' errs calls, Rollback cd (traced db) c (s, []) = some (c', (s', calls), errs) ∧
      calls.length = c.ops.length ∧
      calls.map some = c.ops.map (compensation cd c.tablePrefix) ∧
      calls.map Call.name = c.ops.map (fun o => compensationName o.request.Action) := by
  obtain ⟨calls, s', errs', hl, hm⟩ := rollbackLoop_traced cd db c.ops
    { c with transaction := false } s [] [] rfl hcomp
  have hlen : calls.length = c.ops.length := by
    have := congrArg List.length hm
    simpa using this
  refine ⟨{ c with transaction := false }, s', errs', calls, ?_, hlen, hm, ?_⟩
  · unfold Rollback
    rw [hl]
    rfl
  · apply List.ext_getElem
    · simp [hlen]
    · intro i h1 h2
      simp only [List.getElem_map]
      have hi : i < c.ops.length := by simpa using h2
      have hic : i < calls.length := by simpa using h1
      have hmi : (calls.map some)[i]? = (c.ops.map (compensation cd c.tablePrefix))[i]? := by
        rw [hm]
      rw [List.getElem?_map, List.getElem?_map, List.getElem?_eq_getElem hic,
        List.getElem?_eq_getElem hi] at hmi
      simp only [Option.map_some'] at hmi
      exact compensation_name cd c.tablePrefix c.ops[i] calls[i]
        (hact _ (List.getElem_mem _)) (Option.some.inj hmi).symm

/-- Witness of C3: the log of `TestRollback` is compensated by the calls
`DeleteItem`, `UpdateItem`, `PutItem`, in this order. -/
theorem Rollback_dispatches_witness :
    (∃ c' s' errs calls,
        Rollback exampleCodec (traced (pagedBackend [])) testRollbackHandle ((), []) =
          some (c', (s', calls), errs) ∧
        calls.length = testRollbackHandle.ops.length ∧
        calls.map some =
          testRollbackHandle.ops.map (compensation exampleCodec testRollbackHandle.tablePrefix) ∧
        calls.map Call.name =
          testRollbackHandle.ops.map (fun o => compensationName o.request.Action)) ∧
      testRollbackHandle.ops.map (fun o => compensationName o.request.Action) =
        ["DeleteItem", "UpdateItem", "PutItem"] :=
  ⟨Rollback_dispatches exampleCodec (pagedBackend []) testRollbackHandle () (by decide)
    (by decide), by decide⟩

/-- The loop of `Rollback` over a log none of whose compensations panics:
every entry is run and the errors are appended in log order. -/
theorem rollbackLoop_outcomes {σ : Type} (cd : Codec) (db : DBer σ) :
    ∀ (ops : List op) (c : DynamoDBDatastore) (s : σ) (errs : List String),
      c.transaction = false →
      (∀ o ∈ ops, compensationPanics cd c.tablePrefix o = false) →
      ∃ outs s', compensationOutcomes cd db ops c s = some outs ∧ outs.length = ops.length ∧
        rollbackLoop cd db ops c s errs =
          some (c, s', errs ++ outs.filterMap (fun out => out.e)) := by
  intro ops
  induction ops with
  | nil =>
    intro c s errs _ _
    exact ⟨[], s, rfl, rfl, by simp [rollbackLoop]⟩
  | cons o rest ih =>
    intro c s errs ht hsafe
    have ho := hsafe o (List.mem_cons_self _ _)
    unfold compensationPanics at ho
    cases hr : reverseOp cd o with
    | none => rw [hr] at ho; cases ho
    | some rev =>
      rw [hr] at ho
      dsimp only at ho
      obtain ⟨out, hrun, hoc⟩ := Run_idle_write cd db c rev s ht (reverseOp_action cd o rev hr) ho
      obtain ⟨outs, s', h1, h2, h3⟩ := ih c out.s
        (match out.e with
         | some e => errs ++ [e]
         | none => errs) ht
        (fun q hq => hsafe q (List.mem_cons_of_mem _ hq))
      refine ⟨out :: outs, s', ?_, ?_, ?_⟩
      · unfold compensationOutcomes
        rw [hr]
        dsimp only
        rw [hrun]
        dsimp only
        rw [hoc, h1]
      · rw [List.length_cons, List.length_cons, h2]
      · unfold rollbackLoop
        rw [hr]
        dsimp only
        rw [hrun]
        dsimp only
        rw [hoc, h3]
        cases he : out.e with
        | none => simp [List.filterMap_cons, he]
        | some e => simp [List.filterMap_cons, he]

/-- C4, amended: for every operation log none of whose compensations hits a
run-time panic, and every backend behaviour, `Rollback` runs the compensation
of every log entry even when earlier compensations fail, and the list it
returns holds exactly the errors of the failed compensations, in log order;
it is empty exactly when every compensation succeeded. -/
theorem Rollback_collects_errors {σ : Type} (cd : Codec) (db : DBer σ) (c : DynamoDBDatastore)
    (s : σ) (hsafe : ∀ o ∈ c.ops, compensationPanics cd c.tablePrefix o = false) :
    ∃ outs c' s',
      compensationOutcomes cd db c.ops { c with transaction := false } s = some outs ∧
      outs.length = c.ops.length ∧
      Rollback cd db c s = some (c', s', outs.filterMap (fun out => out.e)) ∧
      (outs.filterMap (fun out => out.e) = [] ↔ ∀ out ∈ outs, out.e = none) := by
  obtain ⟨outs, s', h1, h2, h3⟩ := rollbackLoop_outcomes cd db c.ops
    { c with transaction := false } s [] rfl hsafe
  refine ⟨outs, { c with transaction := false }, s', h1, h2, ?_, List.filterMap_eq_nil_iff⟩
  unfold Rollback
  rw [h3]
  rfl

/-- Witness of C4: the log of `TestRollback` on a backend that accepts every call. -/
theorem Rollback_collects_errors_witness :
    ∃ outs c' s',
      compensationOutcomes exampleCodec (pagedBackend []) testRollbackHandle.ops
        { testRollbackHandle with transaction := false } () = some outs ∧
      outs.length = testRollbackHandle.ops.length ∧
      Rollback exampleCodec (pagedBackend []) testRollbackHandle () =
        some (c', s', outs.filterMap (fun out => out.e)) ∧
      (outs.filterMap (fun out => out.e) = [] ↔ ∀ out ∈ outs, out.e = none) :=
  Rollback_collects_errors exampleCodec (pagedBackend []) testRollbackHandle () (by decide)

/-- Counterexample to C4 as stated: in a transaction, an Update that removes
the path `field1` (no leading slash) succeeds on a backend that returns the
old attributes and is logged; its compensation is a Put at the path `field1`,
whose translated path is empty, so `buildUpdateExpression` slices out of range
and `Rollback` panics: it returns no list. -/
theorem Rollback_panics_on_slashless_path :
    (Run exampleCodec (attrBackend exampleAttributes) (StartTransaction {}) slashlessUpdate ()).map
        (fun out => (out.e, out.c.ops.length)) = some (none, 1) ∧
      (Run exampleCodec (attrBackend exampleAttributes) (StartTransaction {}) slashlessUpdate ()).map
        (fun out => (Rollback exampleCodec (attrBackend exampleAttributes) out.c out.s).isNone) =
        some true :=
  ⟨rfl, rfl⟩

/-! ## Put followed by Rollback -/

/-- C5 at the failing input, the table prefix `p_`: the Put reaches the
backend on table `p_t`, the compensating Delete on table `p_p_t` (the logged
request already carries the prefix and `Run` adds it again), the rollback
returns no error, and the live Get on `p_t` still finds the item.  With the
empty prefix the Delete reaches the table of the Put and the Get finds
nothing. -/
theorem Rollback_put_double_prefix :
    putRollbackGet prefixedHandle = some (["p_t", "p_p_t", "p_t"], [], 1) ∧
      putRollbackGet {} = some (["t", "t", "t"], [], 0) :=
  ⟨rfl, rfl⟩

/-! ## reverseOp -/

/-- C6: for every logged Put operation, `reverseOp` returns a request whose
Action is Delete and whose Key and Table are those of the logged request,
with no Item and no Updates. -/
theorem reverseOp_put (cd : Codec) (o : op) (h : o.request.Action = Action.Put) :
    ∃ r, reverseOp cd o = some r ∧ r.Action = Action.Delete ∧ r.Key = o.request.Key ∧
      r.Table = o.request.Table ∧ r.Item = none ∧ r.Updates = [] := by
  unfold reverseOp
  rw [if_pos h]
  exact ⟨_, rfl, rfl, rfl, rfl, rfl, rfl⟩

/-- Witness of C6: the Put of `TestReverseOp`. -/
theorem reverseOp_put_witness :
    ∃ r, reverseOp exampleCodec testPutOp = some r ∧ r.Action = Action.Delete ∧
      r.Key = testPutOp.request.Key ∧ r.Table = testPutOp.request.Table ∧ r.Item = none ∧
      r.Updates = [] :=
  reverseOp_put exampleCodec testPutOp rfl

theorem mapAssign_new {α : Type} (m : GoMap α) (k : String) (v : α)
    (h : k ∉ m.map Prod.fst) : mapAssign m k v = m ++ [(k, v)] := by
  induction m with
  | nil => rfl
  | cons e rest ih =>
    obtain ⟨k', v'⟩ := e
    have hne : ¬ (k' = k) := fun hk => h (by simp [hk])
    have hrest : k ∉ rest.map Prod.fst := fun hk => h (by simp [hk])
    unfold mapAssign
    rw [if_neg hne, ih hrest]
    rfl

/-- The loop of `unmarshalItems` over decodable attributes with distinct
names appends one decoded field per attribute. -/
theorem unmarshalLoop_spec (cd : Codec) :
    ∀ (A : GoMap AttributeValue) (acc : GoMap Value),
      (∀ e ∈ A, ∃ x, cd.Unmarshal e.2 = .ok x) → (A.map Prod.fst).Nodup →
      (∀ e ∈ A, e.1 ∉ acc.map Prod.fst) →
      ∃ vals, unmarshalLoop cd A acc = some (acc ++ vals) ∧
        List.Forall₂ (fun e v => v.1 = e.1 ∧ cd.Unmarshal e.2 = .ok v.2) A vals := by
  intro A
  induction A with
  | nil =>
    intro acc _ _ _
    exact ⟨[], by simp [unmarshalLoop], List.Forall₂.nil⟩
  | cons e rest ih =>
    intro acc hdec hnd hdis
    obtain ⟨k, v⟩ := e
    obtain ⟨x, hx⟩ := hdec (k, v) (List.mem_cons_self _ _)
    rw [List.map_cons, List.nodup_cons] at hnd
    have hk : k ∉ acc.map Prod.fst := hdis (k, v) (List.mem_cons_self _ _)
    obtain ⟨vals, h1, h2⟩ := ih (acc ++ [(k, x)])
      (fun q hq => hdec q (List.mem_cons_of_mem _ hq)) hnd.2
      (fun q hq hmem => by
        rw [List.map_append, List.mem_append] at hmem
        rcases hmem with hm | hm
        · exact hdis q (List.mem_cons_of_mem _ hq) hm
        · simp only [List.map_cons, List.map_nil, List.mem_singleton] at hm
          exact hnd.1 (List.mem_map.mpr ⟨q, hq, hm⟩))
    refine ⟨(k, x) :: vals, ?_, List.Forall₂.cons ⟨rfl, hx⟩ h2⟩
    unfold unmarshalLoop
    dsimp only at hx ⊢
    rw [hx]
    dsimp only
    rw [mapAssign_new acc k x hk, h1, List.append_assoc]
    rfl

theorem forall₂_fields (cd : Codec) (A : GoMap AttributeValue) (vals : GoMap Value)
    (h : List.Forall₂ (fun e v => v.1 = e.1 ∧ cd.Unmarshal e.2 = .ok v.2) A vals) :
    vals.map Prod.fst = A.map Prod.fst := by
  induction h with
  | nil => rfl
  | cons hh _ ih => rw [List.map_cons, List.map_cons, ih, hh.1]

theorem forall₂_lookup (cd : Codec) (A : GoMap AttributeValue) (vals : GoMap Value)
    (h : List.Forall₂ (fun e v => v.1 = e.1 ∧ cd.Unmarshal e.2 = .ok v.2) A vals)
    (hnd : (A.map Prod.fst).Nodup) :
    ∀ e ∈ A, ∃ x, cd.Unmarshal e.2 = .ok x ∧ mapLookup vals e.1 = some x := by
  induction h with
  | nil => intro e he; cases he
  | @cons a b l₁ l₂ hh _ ih =>
    intro e he
    rw [List.map_cons, List.nodup_cons] at hnd
    obtain ⟨bk, bv⟩ := b
    dsimp only at hh
    rcases List.mem_cons.mp he with h1 | h1
    · subst h1
      refine ⟨bv, hh.2, ?_⟩
      unfold mapLookup
      rw [if_pos hh.1]
    · obtain ⟨x, hx1, hx2⟩ := ih hnd.2 e h1
      refine ⟨x, hx1, ?_⟩
      have hne : ¬ (bk = e.1) := by
        intro hk
        apply hnd.1
        rw [← hh.1, hk]
        exact List.mem_map_of_mem _ h1
      unfold mapLookup
      rw [if_neg hne]
      exact hx2

/-- C7: for every logged Delete operation whose result carries old
attributes `A`, all decodable (`A` being a map, its names are distinct),
`reverseOp` returns a Put request with the same Key and Table whose Item has
exactly one field per attribute of `A`, each holding the unmarshalled value of
that attribute. -/
theorem reverseOp_delete (cd : Codec) (o : op) (res : dynamodbResult)
    (hact : o.request.Action = Action.Delete) (hres : o.result = some res)
    (hdec : ∀ e ∈ res.attributes, ∃ x, cd.Unmarshal e.2 = .ok x)
    (hnd : (res.attributes.map Prod.fst).Nodup) :
    ∃ r item, reverseOp cd o = some r ∧ r.Action = Action.Put ∧ r.Key = o.request.Key ∧
      r.Table = o.request.Table ∧ r.Item = some item ∧
      item.map Prod.fst = res.attributes.map Prod.fst ∧
      ∀ e ∈ res.attributes, ∃ x, cd.Unmarshal e.2 = .ok x ∧ mapLookup item e.1 = some x := by
  obtain ⟨vals, h1, h2⟩ := unmarshalLoop_spec cd res.attributes [] hdec hnd
    (fun _ _ hm => by cases hm)
  rw [List.nil_append] at h1
  refine ⟨{ Action := Action.Put, Key := o.request.Key, Table := o.request.Table,
            Item := some vals }, vals, ?_, rfl, rfl, rfl, rfl, forall₂_fields cd _ _ h2,
    forall₂_lookup cd _ _ h2 hnd⟩
  unfold reverseOp unmarshalItems
  rw [hact, if_neg Action.delete_ne_put, if_pos rfl, hres]
  dsimp only
  rw [h1]

/-- Witness of C7: a Delete whose old attributes are a string and a string set. -/
theorem reverseOp_delete_witness :
    ∃ r item, reverseOp exampleCodec testDeleteOp = some r ∧ r.Action = Action.Put ∧
      r.Key = testDeleteOp.request.Key ∧ r.Table = testDeleteOp.request.Table ∧
      r.Item = some item ∧ item.map Prod.fst = exampleAttributes.map Prod.fst ∧
      ∀ e ∈ exampleAttributes, ∃ x, exampleCodec.Unmarshal e.2 = .ok x ∧
        mapLookup item e.1 = some x :=
  reverseOp_delete exampleCodec testDeleteOp { attributes := exampleAttributes } rfl rfl
    (fun e he => by
      simp only [exampleAttributes, List.mem_cons, List.mem_singleton, List.not_mem_nil,
        or_false] at he
      rcases he with h | h <;> subst h <;> exact ⟨_, rfl⟩)
    (by decide)

/-- C8 at the failing input: the logged Update has one update path, `/name`,
and the old attributes hold `name = "old"`, yet the compensating request has
no update at all: `reverseOp` looks the whole path `/name` up among the
attribute names.  Only with the path written `name` is the old value
restored by a Put. -/
theorem reverseOp_update_loses_path :
    reverseOp exampleCodec namedUpdateOp =
        some { Action := Action.Update, Key := [("id", .str "1")], Table := "test",
               Updates := [] } ∧
      reverseOp exampleCodec slashlessUpdateOp =
        some { Action := Action.Update, Key := [("id", .str "1")], Table := "test",
               Updates := [{ Action := Action.Put, Path := "name", Value := .str "old" }] } :=
  ⟨rfl, rfl⟩

/-- Every Delete that the loop of `reverseOp` appends is built without a path. -/
theorem reverseUpdates_delete_pathless (attrs : Option (GoMap Value)) :
    ∀ (us acc : List UpdateValue),
      (∀ u ∈ acc, u.Action = Action.Delete → u.Path = "") →
      ∀ u ∈ reverseUpdates attrs us acc, u.Action = Action.Delete → u.Path = "" := by
  intro us
  induction us with
  | nil => intro acc hacc; exact hacc
  | cons v rest ih =>
    intro acc hacc
    unfold reverseUpdates
    split_ifs
    · apply ih
      intro u hu hd
      rcases List.mem_append.mp hu with h | h
      · exact hacc u h hd
      · rw [List.mem_singleton.mp h]
    · apply ih
      intro u hu hd
      rcases List.mem_append.mp hu with h | h
      · exact hacc u h hd
      · rw [List.mem_singleton.mp h] at hd
        exact absurd hd Action.put_ne_delete
    · exact ih acc hacc

/-- C9 at the failing input: neither `/field4` (a Put) nor `/field5` (an
Update) has an old value.  The compensating request holds one Delete, for the
Put, and its Path is empty instead of `/field4`; the Update of `/field5` gets
no compensation.  For every logged Update, no Delete of the compensating
request carries a path. -/
theorem reverseOp_update_delete_without_path :
    reverseOp exampleCodec absentUpdateOp =
        some { Action := Action.Update, Key := [("id", .str "1")], Table := "test",
               Updates := [{ Action := Action.Delete, Path := "", Value := .nil }] } ∧
      ∀ (cd : Codec) (o : op) (r : Request), o.request.Action = Action.Update →
        reverseOp cd o = some r →
        ∀ u ∈ r.Updates, u.Action = Action.Delete → u.Path = "" := by
  refine ⟨rfl, fun cd o r hact h u hu hd => ?_⟩
  unfold reverseOp at h
  rw [hact, if_neg Action.update_ne_put, if_neg Action.update_ne_delete, if_pos rfl] at h
  cases hres : o.result with
  | none => rw [hres] at h; cases h
  | some res =>
    rw [hres] at h
    cases h
    exact reverseUpdates_delete_pathless _ _ [] (fun _ hx => by cases hx) u hu hd

/-! ## Run and the operation log -/

theorem runFinish_e {σ : Type} (c : DynamoDBDatastore) (request : Request)
    (r : Option dynamodbResult) (e : Option String) (s : σ) :
    (runFinish c request r e s).e = e := by
  unfold runFinish
  split_ifs <;> rfl

theorem runFinish_r {σ : Type} (c : DynamoDBDatastore) (request : Request)
    (r : Option dynamodbResult) (e : Option String) (s : σ) :
    (runFinish c request r e s).r = r := by
  unfold runFinish
  split_ifs <;> rfl

theorem runFinish_active {σ : Type} (c : DynamoDBDatastore) (request : Request)
    (r : Option dynamodbResult) (s : σ) (ht : c.transaction = true) :
    (runFinish c request r none s).c.ops = c.ops ++ [{ request := request, result := r }] := by
  unfold runFinish
  rw [ht]
  simp

theorem put_item {σ : Type} (cd : Codec) (db : DBer σ) (rq : Request) (s s' : σ)
    (item : Option (GoMap Value)) (res : Except String dynamodbResult)
    (h : put cd db rq s = some (item, res, s')) : mergeKey rq.Key rq.Item = some item := by
  unfold put at h
  cases hm : mergeKey rq.Key rq.Item with
  | none => rw [hm] at h; cases h
  | some it =>
    rw [hm] at h
    dsimp only at h
    cases hp : putInput cd rq it with
    | none => rw [hp] at h; cases h
    | some x =>
      rw [hp] at h
      cases x with
      | error err => cases h; rfl
      | ok inp =>
        dsimp only at h
        cases hb : db.PutItem inp s with
        | mk e s'' =>
          rw [hb] at h
          cases e with
          | none => cases h; rfl
          | some e => cases h; rfl

theorem Action.get_ne_put : ¬ (Action.Get = Action.Put) := by decide

theorem Action.get_ne_delete : ¬ (Action.Get = Action.Delete) := by decide

/-- C10, amended: for every handle with an active transaction and every
request, whenever `Run` returns success the operation log afterwards is the
log before with exactly one entry appended at the end, the request as `Run`
rewrote it paired with the result of this call; this holds for every action,
except that a Get answered from the cache leaves the log as it was. -/
theorem Run_logs_success {σ : Type} (cd : Codec) (db : DBer σ) (c : DynamoDBDatastore)
    (request : Request) (s : σ) (out : RunOut σ) (ht : c.transaction = true)
    (hrun : Run cd db c request s = some out) (he : out.e = none) :
    out.c.ops =
      if answeredFromCache c request then c.ops
      else c.ops ++ [{ request := loggedRequest c request, result := out.r }] := by
  unfold Run at hrun
  unfold answeredFromCache loggedRequest
  generalize hrq : ({ request with Table := c.tablePrefix ++ request.Table } : Request) = rq
    at hrun ⊢
  have hA : request.Action = rq.Action := by rw [← hrq]
  have hK : request.Key = rq.Key := by rw [← hrq]
  have hL : request.LiveData = rq.LiveData := by rw [← hrq]
  rw [hA, hK, hL]
  dsimp only at hrun ⊢
  by_cases h1 : rq.Action = Action.Put
  · have hd : decide (rq.Action = Action.Get) = false := by
      rw [h1]; rfl
    rw [if_pos h1] at hrun
    rw [hd, if_pos h1]
    simp only [Bool.false_and, Bool.false_eq_true, if_false]
    cases hp : put cd db rq s with
    | none => rw [hp] at hrun; cases hrun
    | some x =>
      obtain ⟨item, res, s'⟩ := x
      rw [hp] at hrun
      dsimp only at hrun
      cases hrun
      rw [runFinish_e] at he
      rw [he, runFinish_active _ _ _ _ ht, runFinish_r, put_item cd db rq s s' item res hp]
  · rw [if_neg h1] at hrun
    rw [if_neg h1]
    by_cases h2 : rq.Action = Action.Delete
    · have hd : decide (rq.Action = Action.Get) = false := by
        rw [h2]; rfl
      rw [if_pos h2] at hrun
      rw [hd, if_pos (Or.inl h2)]
      simp only [Bool.false_and, Bool.false_eq_true, if_false]
      cases hrun
      rw [runFinish_e] at he
      rw [he, runFinish_active _ _ _ _ ht, runFinish_r]
    · rw [if_neg h2] at hrun
      by_cases h3 : rq.Action = Action.Get
      · have hd : decide (rq.Action = Action.Get) = true := by
          rw [h3]; rfl
        have hnu : ¬ (rq.Action = Action.Delete ∨ rq.Action = Action.Update) := by
          rw [h3]; decide
        rw [if_pos h3] at hrun
        rw [hd, if_neg hnu]
        by_cases hc : (!rq.LiveData && !c.cacheDisabled) = true
        · rw [if_pos hc] at hrun
          have hc' : rq.LiveData = false ∧ c.cacheDisabled = false := by
            simpa using hc
          rw [hc'.1, hc'.2]
          cases hs : cacheScan c.cache rq.Key with
          | none => rw [hs] at hrun; cases hrun
          | some found =>
            rw [hs] at hrun
            cases found with
            | some o =>
              dsimp only at hrun
              cases hrun
              simp
            | none =>
              dsimp only at hrun
              simp only [Bool.true_and, Bool.false_eq_true, if_false]
              cases hg : get cd db rq s with
              | mk res s' =>
                rw [hg] at hrun
                cases res with
                | ok r =>
                  dsimp only at hrun
                  cases hrun
                  rw [runFinish_active
                    { c with cache := c.cache ++ [{ request := rq, result := some r }] }
                    rq (some r) s' ht, runFinish_r]
                  simp
                | error e =>
                  dsimp only at hrun
                  cases hrun
                  rw [runFinish_e] at he
                  cases he
        · rw [if_neg hc] at hrun
          have hc' : (!rq.LiveData && !c.cacheDisabled) = false := by
            simpa using hc
          rw [Bool.true_and, hc']
          simp only [Bool.false_and, Bool.false_eq_true, if_false]
          dsimp only at hrun
          cases hg : get cd db rq s with
          | mk res s' =>
            rw [hg] at hrun
            cases res with
            | ok r =>
              dsimp only at hrun
              cases hrun
              rw [runFinish_active
                { c with cache := c.cache ++ [{ request := rq, result := some r }] }
                rq (some r) s' ht, runFinish_r]
            | error e =>
              dsimp only at hrun
              cases hrun
              rw [runFinish_e] at he
              cases he
      · have hd : decide (rq.Action = Action.Get) = false := by
          simpa using h3
        rw [if_neg h3] at hrun
        rw [hd]
        simp only [Bool.false_and, Bool.false_eq_true, if_false]
        by_cases h4 : rq.Action = Action.Update
        · rw [if_pos h4] at hrun
          rw [if_pos (Or.inr h4)]
          cases hu : update cd db (withReturnValues c rq) s with
          | none => rw [hu] at hrun; cases hrun
          | some x =>
            obtain ⟨res, s'⟩ := x
            rw [hu] at hrun
            dsimp only at hrun
            cases hrun
            rw [runFinish_e] at he
            rw [he, runFinish_active _ _ _ _ ht, runFinish_r]
        · rw [if_neg h4] at hrun
          rw [if_neg (fun h => h.elim h2 h4)]
          by_cases h5 : rq.Action = Action.Query
          · rw [if_pos h5] at hrun
            cases hu : query cd db rq s with
            | none => rw [hu] at hrun; cases hrun
            | some x =>
              obtain ⟨res, s'⟩ := x
              rw [hu] at hrun
              dsimp only at hrun
              cases hrun
              rw [runFinish_e] at he
              rw [he, runFinish_active _ _ _ _ ht, runFinish_r]
          · rw [if_neg h5] at hrun
            by_cases h6 : rq.Action = Action.QueryPager
            · rw [if_pos h6] at hrun
              cases hu : queryPages db rq s with
              | none => rw [hu] at hrun; cases hrun
              | some x =>
                obtain ⟨res, s'⟩ := x
                rw [hu] at hrun
                dsimp only at hrun
                cases hrun
                rw [runFinish_e] at he
                rw [he, runFinish_active _ _ _ _ ht, runFinish_r]
            · rw [if_neg h6] at hrun
              cases hrun
              rw [runFinish_active _ _ _ _ ht, runFinish_r]

/-- Witness of C10: a Put in a fresh transaction is logged with its result. -/
theorem Run_logs_success_witness :
    ∃ out, Run exampleCodec (pagedBackend []) (StartTransaction {}) examplePut () = some out ∧
      out.e = none ∧
      out.c.ops =
        (if answeredFromCache (StartTransaction {}) examplePut then (StartTransaction {}).ops
         else (StartTransaction {}).ops ++
           [{ request := loggedRequest (StartTransaction {}) examplePut, result := out.r }]) ∧
      out.c.ops.length = 1 :=
  ⟨_, rfl, rfl,
    Run_logs_success exampleCodec (pagedBackend []) (StartTransaction {}) examplePut () _ rfl rfl
      rfl, rfl⟩

/-- Counterexample to C10 as stated: in a transaction the first Get of a key
reaches the backend, is cached and logged; the second Get of the same key is
answered from the cache, returns success, and the log still has one entry. -/
theorem Run_cached_get_not_logged :
    (Run exampleCodec (itemBackend (itemOf "1")) (StartTransaction {}) exampleGet ()).bind
        (fun o1 =>
          (Run exampleCodec (itemBackend (itemOf "1")) o1.c exampleGet o1.s).map
            (fun o2 => (o1.c.transaction, o1.e, o1.c.ops.length, o2.e, o2.c.ops.length))) =
      some (true, none, 1, none, 1) :=
  rfl

/-! ## The shape of a run -/

theorem runFinish_transaction {σ : Type} (c : DynamoDBDatastore) (request : Request)
    (r : Option dynamodbResult) (e : Option String) (s : σ) :
    (runFinish c request r e s).c.transaction = c.transaction := by
  unfold runFinish
  split_ifs <;> rfl

theorem runFinish_ops_unchanged {σ : Type} (c : DynamoDBDatastore) (request : Request)
    (r : Option dynamodbResult) (e : Option String) (s : σ)
    (h : e ≠ none ∨ c.transaction = false) : (runFinish c request r e s).c.ops = c.ops := by
  unfold runFinish
  split_ifs with h1
  · rcases h with h | h
    · exact absurd h1.2 h
    · rw [h] at h1
      exact absurd h1.1 (by decide)
  · rfl

/-- A run that returns was either answered from the cache, leaving the handle
as it was, or went through the final logging step of `Run` with the rewritten
request, on a handle that differs from the given one in its cache at most. -/
theorem Run_shape {σ : Type} (cd : Codec) (db : DBer σ) (c : DynamoDBDatastore)
    (request : Request) (s : σ) (out : RunOut σ) (hrun : Run cd db c request s = some out) :
    (answeredFromCache c request = true ∧ out.c = c ∧ out.s = s ∧ out.e = none) ∨
    (answeredFromCache c request = false ∧
      ∃ c' r e s', out = runFinish c' (loggedRequest c request) r e s' ∧ c'.ops = c.ops ∧
        c'.transaction = c.transaction ∧ c'.tablePrefix = c.tablePrefix ∧
        c'.cacheDisabled = c.cacheDisabled) := by
  unfold Run at hrun
  unfold answeredFromCache loggedRequest
  generalize hrq : ({ request with Table := c.tablePrefix ++ request.Table } : Request) = rq
    at hrun ⊢
  have hA : request.Action = rq.Action := by rw [← hrq]
  have hK : request.Key = rq.Key := by rw [← hrq]
  have hL : request.LiveData = rq.LiveData := by rw [← hrq]
  rw [hA, hK, hL]
  dsimp only at hrun ⊢
  by_cases h1 : rq.Action = Action.Put
  · have hd : decide (rq.Action = Action.Get) = false := by
      rw [h1]; rfl
    rw [if_pos h1] at hrun
    rw [hd, if_pos h1]
    cases hp : put cd db rq s with
    | none => rw [hp] at hrun; cases hrun
    | some x =>
      obtain ⟨item, res, s'⟩ := x
      rw [hp] at hrun
      dsimp only at hrun
      cases hrun
      rw [put_item cd db rq s s' item res hp]
      exact Or.inr ⟨by simp, c, _, _, s', rfl, rfl, rfl, rfl, rfl⟩
  · rw [if_neg h1] at hrun
    rw [if_neg h1]
    by_cases h2 : rq.Action = Action.Delete
    · have hd : decide (rq.Action = Action.Get) = false := by
        rw [h2]; rfl
      rw [if_pos h2] at hrun
      rw [hd, if_pos (Or.inl h2)]
      cases hrun
      exact Or.inr ⟨by simp, c, _, _, _, rfl, rfl, rfl, rfl, rfl⟩
    · rw [if_neg h2] at hrun
      by_cases h3 : rq.Action = Action.Get
      · have hd : decide (rq.Action = Action.Get) = true := by
          rw [h3]; rfl
        have hnu : ¬ (rq.Action = Action.Delete ∨ rq.Action = Action.Update) := by
          rw [h3]; decide
        rw [if_pos h3] at hrun
        rw [hd, if_neg hnu]
        by_cases hc : (!rq.LiveData && !c.cacheDisabled) = true
        · rw [if_pos hc] at hrun
          have hc' : rq.LiveData = false ∧ c.cacheDisabled = false := by
            simpa using hc
          rw [hc'.1, hc'.2]
          cases hs : cacheScan c.cache rq.Key with
          | none => rw [hs] at hrun; cases hrun
          | some found =>
            rw [hs] at hrun
            cases found with
            | some o =>
              dsimp only at hrun
              cases hrun
              exact Or.inl ⟨by simp, rfl, rfl, rfl⟩
            | none =>
              dsimp only at hrun
              cases hg : get cd db rq s with
              | mk res s' =>
                rw [hg] at hrun
                cases res with
                | ok r =>
                  dsimp only at hrun
                  cases hrun
                  exact Or.inr ⟨by simp, _, _, _, _, rfl, rfl, rfl, rfl, hc'.2⟩
                | error e =>
                  dsimp only at hrun
                  cases hrun
                  exact Or.inr ⟨by simp, c, _, _, _, rfl, rfl, rfl, rfl, hc'.2⟩
        · rw [if_neg hc] at hrun
          have hc' : (!rq.LiveData && !c.cacheDisabled) = false := by
            simpa using hc
          rw [Bool.true_and, hc']
          dsimp only at hrun
          cases hg : get cd db rq s with
          | mk res s' =>
            rw [hg] at hrun
            cases res with
            | ok r =>
              dsimp only at hrun
              cases hrun
              exact Or.inr ⟨by simp, _, _, _, _, rfl, rfl, rfl, rfl, rfl⟩
            | error e =>
              dsimp only at hrun
              cases hrun
              exact Or.inr ⟨by simp, c, _, _, _, rfl, rfl, rfl, rfl, rfl⟩
      · have hd : decide (rq.Action = Action.Get) = false := by
          simpa using h3
        rw [if_neg h3] at hrun
        rw [hd]
        by_cases h4 : rq.Action = Action.Update
        · rw [if_pos h4] at hrun
          rw [if_pos (Or.inr h4)]
          cases hu : update cd db (withReturnValues c rq) s with
          | none => rw [hu] at hrun; cases hrun
          | some x =>
            obtain ⟨res, s'⟩ := x
            rw [hu] at hrun
            dsimp only at hrun
            cases hrun
            exact Or.inr ⟨by simp, c, _, _, _, rfl, rfl, rfl, rfl, rfl⟩
        · rw [if_neg h4] at hrun
          rw [if_neg (fun h => h.elim h2 h4)]
          by_cases h5 : rq.Action = Action.Query
          · rw [if_pos h5] at hrun
            cases hu : query cd db rq s with
            | none => rw [hu] at hrun; cases hrun
            | some x =>
              obtain ⟨res, s'⟩ := x
              rw [hu] at hrun
              dsimp only at hrun
              cases hrun
              exact Or.inr ⟨by simp, c, _, _, _, rfl, rfl, rfl, rfl, rfl⟩
          · rw [if_neg h5] at hrun
            by_cases h6 : rq.Action = Action.QueryPager
            · rw [if_pos h6] at hrun
              cases hu : queryPages db rq s with
              | none => rw [hu] at hrun; cases hrun
              | some x =>
                obtain ⟨res, s'⟩ := x
                rw [hu] at hrun
                dsimp only at hrun
                cases hrun
                exact Or.inr ⟨by simp, c, _, _, _, rfl, rfl, rfl, rfl, rfl⟩
            · rw [if_neg h6] at hrun
              cases hrun
              exact Or.inr ⟨by simp, c, _, _, _, rfl, rfl, rfl, rfl, rfl⟩

/-- C11: `Run` leaves the operation log unchanged whenever it returns an
error or no transaction is active; hence in every state reachable from
`StartTransaction` by calls of `Run`, each log entry is the request, as `Run`
rewrote it, and the result of a call of `Run` that returned success. -/
theorem Run_log_only_successes {σ : Type} (cd : Codec) (db : DBer σ) :
    (∀ (c : DynamoDBDatastore) (request : Request) (s : σ) (out : RunOut σ),
      Run cd db c request s = some out → (out.e ≠ none ∨ c.transaction = false) →
      out.c.ops = c.ops) ∧
    (∀ (c : DynamoDBDatastore) (s : σ), Reachable cd db c s →
      c.transaction = true ∧
      ∀ o ∈ c.ops, ∃ c0 s0 request out, Reachable cd db c0 s0 ∧
        Run cd db c0 request s0 = some out ∧ out.e = none ∧
        o = { request := loggedRequest c0 request, result := out.r }) := by
  constructor
  · intro c request s out hrun h
    rcases Run_shape cd db c request s out hrun with ⟨_, hc, _, _⟩ | ⟨_, c', r, e, s', ho, hops, ht, _, _⟩
    · rw [hc]
    · rw [ho, runFinish_ops_unchanged, hops]
      rw [ho, runFinish_e] at h
      rw [ht]
      exact h
  · intro c s hreach
    induction hreach with
    | start c s => exact ⟨rfl, fun o ho => by cases ho⟩
    | run c s request out hr hrun ih =>
      rcases Run_shape cd db c request s out hrun with
        ⟨_, hc, _, _⟩ | ⟨_, c', r, e, s', ho, hops, ht, _, _⟩
      · rw [hc]
        exact ih
      · refine ⟨by rw [ho, runFinish_transaction, ht]; exact ih.1, ?_⟩
        intro o hmem
        by_cases he : e = none
        · rw [ho, he, runFinish_active c' _ r s' (by rw [ht]; exact ih.1), hops,
            List.mem_append, List.mem_singleton] at hmem
          rcases hmem with hmem | hmem
          · exact ih.2 o hmem
          · refine ⟨c, s, request, out, hr, hrun, ?_, ?_⟩
            · rw [ho, runFinish_e, he]
            · rw [hmem, ho, runFinish_r]
        · rw [ho, runFinish_ops_unchanged c' _ r e s' (Or.inl he), hops] at hmem
          exact ih.2 o hmem

/-- Witness of C11: outside a transaction a successful Put leaves the empty
log empty, and the state reached by a Put in a fresh transaction has an active
transaction and a log in which every entry stems from a successful run. -/
theorem Run_log_only_successes_witness :
    (Run exampleCodec (pagedBackend []) {} examplePut ()).map (fun out => out.c.ops.length) =
        some 0 ∧
      ((Run exampleCodec (pagedBackend []) (StartTransaction {}) examplePut ()).map
          (fun out => out.c.ops.length) = some 1 ∧
        ∀ out, Run exampleCodec (pagedBackend []) (StartTransaction {}) examplePut () = some out →
          out.c.transaction = true ∧
          ∀ o ∈ out.c.ops, ∃ c0 s0 request out0, Reachable exampleCodec (pagedBackend []) c0 s0 ∧
            Run exampleCodec (pagedBackend []) c0 request s0 = some out0 ∧ out0.e = none ∧
            o = { request := loggedRequest c0 request, result := out0.r }) :=
  ⟨rfl, rfl, fun out h =>
    (Run_log_only_successes exampleCodec (pagedBackend [])).2 out.c out.s
      (Reachable.run (StartTransaction {}) () examplePut out (Reachable.start {} ()) h)⟩

/-! ## The log after Rollback and ClearCache -/

/-- C12 at the failing input: after the rollback of one logged Put the
transaction flag is false but the log still holds its entry, and a second
rollback dispatches the compensating `DeleteItem` once more. -/
theorem Rollback_keeps_log :
    putRollbackTwice =
      some (false, 1, ["PutItem", "DeleteItem"], ["PutItem", "DeleteItem", "DeleteItem"]) :=
  rfl

/-- C16 at the failing input: `ClearCache` inside a transaction leaves the
transaction flag set and empties the log together with the cache, so the
following rollback dispatches nothing and the item of the Put stays in the
backend. -/
theorem ClearCache_drops_log :
    putClearCacheRollback = some (true, 0, ["PutItem"], 1) ∧
      ∀ c : DynamoDBDatastore, (ClearCache c).ops = [] ∧ (ClearCache c).cache = [] ∧
        (ClearCache c).transaction = c.transaction ∧
        (ClearCache c).tablePrefix = c.tablePrefix ∧
        (ClearCache c).cacheDisabled = c.cacheDisabled :=
  ⟨rfl, fun _ => ⟨rfl, rfl, rfl, rfl, rfl⟩⟩

/-! ## Old values -/

theorem runFinish_s {σ : Type} (c : DynamoDBDatastore) (request : Request)
    (r : Option dynamodbResult) (e : Option String) (s : σ) :
    (runFinish c request r e s).s = s := by
  unfold runFinish
  split_ifs <;> rfl

theorem deleteInput_returnValues (cd : Codec) (r : Request) (inp : DeleteItemInput)
    (h : deleteInput cd r = .ok inp) : inp.ReturnValues = nonEmptyString r.ReturnValues := by
  unfold deleteInput at h
  cases hm : marshalItems cd r.Key with
  | error err => rw [hm] at h; cases h
  | ok key => rw [hm] at h; cases h; rfl

theorem updateInput_returnValues (cd : Codec) (r : Request) (inp : UpdateItemInput)
    (h : updateInput cd r = some (.ok inp)) :
    inp.ReturnValues = nonEmptyString r.ReturnValues := by
  unfold updateInput at h
  cases hm : marshalItems cd r.Key with
  | error err => rw [hm] at h; cases h
  | ok key =>
    rw [hm] at h
    dsimp only at h
    cases hb : buildUpdateExpression cd r.Updates [] [] with
    | none => rw [hb] at h; cases h
    | some b =>
      rw [hb] at h
      dsimp only at h
      cases he : b.exp with
      | error err => rw [he] at h; cases h
      | ok exp => rw [he] at h; cases h; rfl

theorem withReturnValues_field (c : DynamoDBDatastore) (rq : Request) :
    nonEmptyString (withReturnValues c rq).ReturnValues =
      if c.transaction then some "ALL_OLD" else nonEmptyString rq.ReturnValues := by
  unfold withReturnValues
  cases c.transaction <;> rfl

/-- C13: every Delete and every Update that `Run` dispatches reaches the
backend with `ReturnValues = "ALL_OLD"` while a transaction is active,
whatever the caller put in the request, and with the caller's `ReturnValues`
(omitted when empty) when no transaction is active.  A run of such a request
that returns either dispatched exactly this one call or, the request not
compiling, dispatched nothing and returned an error. -/
theorem Run_requests_old_values {σ : Type} (cd : Codec) (db : DBer σ) (c : DynamoDBDatastore)
    (request : Request) (s : σ) (tr : List Call) (out : RunOut (σ × List Call))
    (hact : request.Action = Action.Delete ∨ request.Action = Action.Update)
    (hrun : Run cd (traced db) c request (s, tr) = some out) :
    (out.s.2 = tr ∧ out.e ≠ none) ∨
    (∃ call, out.s.2 = tr ++ [call] ∧
      call.name = (if request.Action = Action.Delete then "DeleteItem" else "UpdateItem") ∧
      call.writeReturnValues =
        some (if c.transaction then some "ALL_OLD" else nonEmptyString request.ReturnValues)) := by
  unfold Run at hrun
  generalize hrq : ({ request with Table := c.tablePrefix ++ request.Table } : Request) = rq
    at hrun
  have hA : request.Action = rq.Action := by rw [← hrq]
  have hR : request.ReturnValues = rq.ReturnValues := by rw [← hrq]
  rw [hA, hR]
  rw [hA] at hact
  dsimp only at hrun
  rcases hact with h | h
  · rw [h, if_neg Action.delete_ne_put, if_pos rfl] at hrun
    rw [h, if_pos rfl]
    unfold dbDelete at hrun
    cases hd : deleteInput cd (withReturnValues c rq) with
    | error err =>
      rw [hd] at hrun
      dsimp only at hrun
      cases hrun
      left
      rw [runFinish_s, runFinish_e]
      exact ⟨rfl, by simp [retError]⟩
    | ok inp =>
      rw [hd] at hrun
      dsimp only [traced] at hrun
      cases hb : (db.DeleteItem inp s).1 with
      | error e =>
        rw [hb] at hrun
        dsimp only at hrun
        cases hrun
        right
        refine ⟨Call.DeleteItem inp, ?_, rfl, ?_⟩
        · rw [runFinish_s]
        · rw [← withReturnValues_field, ← deleteInput_returnValues cd _ inp hd]
          rfl
      | ok o =>
        rw [hb] at hrun
        dsimp only at hrun
        cases hrun
        right
        refine ⟨Call.DeleteItem inp, ?_, rfl, ?_⟩
        · rw [runFinish_s]
        · rw [← withReturnValues_field, ← deleteInput_returnValues cd _ inp hd]
          rfl
  · rw [h, if_neg Action.update_ne_put, if_neg Action.update_ne_delete,
      if_neg Action.update_ne_get, if_pos rfl] at hrun
    rw [h, if_neg Action.update_ne_delete]
    unfold update at hrun
    cases hu : updateInput cd (withReturnValues c rq) with
    | none => rw [hu] at hrun; cases hrun
    | some res =>
      rw [hu] at hrun
      cases res with
      | error err =>
        dsimp only at hrun
        cases hrun
        left
        rw [runFinish_s, runFinish_e]
        exact ⟨rfl, by simp [retError]⟩
      | ok inp =>
        dsimp only [traced] at hrun
        cases hb : (db.UpdateItem inp s).1 with
        | error e =>
          rw [hb] at hrun
          dsimp only at hrun
          cases hrun
          right
          refine ⟨Call.UpdateItem inp, ?_, rfl, ?_⟩
          · rw [runFinish_s]
          · rw [← withReturnValues_field, ← updateInput_returnValues cd _ inp hu]
            rfl
        | ok o =>
          rw [hb] at hrun
          dsimp only at hrun
          cases hrun
          right
          refine ⟨Call.UpdateItem inp, ?_, rfl, ?_⟩
          · rw [runFinish_s]
          · rw [← withReturnValues_field, ← updateInput_returnValues cd _ inp hu]
            rfl

/-- Witness of C13: a Delete that asks for `UPDATED_OLD` reaches the backend
asking for `ALL_OLD` inside a transaction and for `UPDATED_OLD` outside. -/
theorem Run_requests_old_values_witness :
    (∃ out, Run exampleCodec (traced (pagedBackend [])) (StartTransaction {}) exampleDelete
          ((), []) = some out ∧
        ((out.s.2 = [] ∧ out.e ≠ none) ∨
          (∃ call, out.s.2 = [] ++ [call] ∧
            call.name =
              (if exampleDelete.Action = Action.Delete then "DeleteItem" else "UpdateItem") ∧
            call.writeReturnValues =
              some (if (StartTransaction {}).transaction then some "ALL_OLD"
                    else nonEmptyString exampleDelete.ReturnValues))) ∧
        out.s.2.map Call.writeReturnValues = [some (some "ALL_OLD")]) ∧
      (Run exampleCodec (traced (pagedBackend [])) {} exampleDelete ((), [])).map
        (fun out => out.s.2.map Call.writeReturnValues) = some [some (some "UPDATED_OLD")] :=
  ⟨⟨_, rfl,
      Run_requests_old_values exampleCodec (pagedBackend []) (StartTransaction {}) exampleDelete ()
        [] _ (Or.inl rfl) rfl, rfl⟩, rfl⟩

/-! ## keysEqual -/

theorem goEq_scalar_total (w v : Value) (hv : v.isScalar = true) :
    goEq w v = some true ∨ goEq w v = some false := by
  cases v <;> cases w <;> simp [goEq, Value.isScalar] at hv ⊢ <;> exact Classical.em _

theorem goEq_true_not_nil (w v : Value) (hv : v.isScalar = true) (h : goEq w v = some true) :
    w.isNil = false := by
  cases v <;> cases w <;> simp [goEq, Value.isScalar, Value.isNil] at hv h ⊢

theorem mapIndex_eq_of_lookup (m : GoMap Value) (k : String) (w : Value)
    (h : mapLookup m k = some w) : mapIndex m k = w := by
  unfold mapIndex
  rw [h]

theorem mapIndex_not_nil (m : GoMap Value) (k : String) (h : (mapIndex m k).isNil = false) :
    mapLookup m k = some (mapIndex m k) := by
  unfold mapIndex at h ⊢
  cases hl : mapLookup m k with
  | none => rw [hl] at h; simp [Value.isNil] at h
  | some w => rfl

/-- The loop of `keysEqual` over scalar values returns, and returns true
exactly when every entry finds an equal value. -/
theorem keysEqualLoop_scalar (k2 : GoMap Value) :
    ∀ k1 : GoMap Value, (∀ e ∈ k1, e.2.isScalar = true) →
      (keysEqualLoop k1 k2 = some true ∨ keysEqualLoop k1 k2 = some false) ∧
      (keysEqualLoop k1 k2 = some true ↔
        ∀ e ∈ k1, ∃ w, mapLookup k2 e.1 = some w ∧ goEq w e.2 = some true) := by
  intro k1
  induction k1 with
  | nil =>
    intro _
    exact ⟨Or.inl rfl, Iff.intro (fun _ e he => by cases he) (fun _ => rfl)⟩
  | cons e rest ih =>
    intro hs
    obtain ⟨i, v⟩ := e
    have hv : v.isScalar = true := hs (i, v) (List.mem_cons_self _ _)
    obtain ⟨ih1, ih2⟩ := ih (fun q hq => hs q (List.mem_cons_of_mem _ hq))
    unfold keysEqualLoop
    by_cases hn : (mapIndex k2 i).isNil = true
    · rw [if_pos hn]
      refine ⟨Or.inr rfl, Iff.intro (fun h => by cases h) (fun h => ?_)⟩
      obtain ⟨w, hw1, hw2⟩ := h (i, v) (List.mem_cons_self _ _)
      dsimp only at hw1 hw2
      have := goEq_true_not_nil w v hv hw2
      rw [mapIndex_eq_of_lookup k2 i w hw1, this] at hn
      cases hn
    · rw [if_neg hn]
      have hn' : (mapIndex k2 i).isNil = false := by simpa using hn
      rcases goEq_scalar_total (mapIndex k2 i) v hv with hg | hg
      · rw [hg]
        dsimp only
        refine ⟨ih1, Iff.intro (fun h q hq => ?_) (fun h => ?_)⟩
        · rcases List.mem_cons.mp hq with h1 | h1
          · subst h1
            exact ⟨mapIndex k2 i, mapIndex_not_nil k2 i hn', hg⟩
          · exact ih2.mp h q h1
        · exact ih2.mpr (fun q hq => h q (List.mem_cons_of_mem _ hq))
      · rw [hg]
        dsimp only
        refine ⟨Or.inr rfl, Iff.intro (fun h => by cases h) (fun h => ?_)⟩
        obtain ⟨w, hw1, hw2⟩ := h (i, v) (List.mem_cons_self _ _)
        dsimp only at hw1 hw2
        rw [mapIndex_eq_of_lookup k2 i w hw1, hw2] at hg
        cases hg

/-- C15, amended: for all key mappings `k1` and `k2`, the values of `k1`
being present and comparable (ints, floats, strings or bools), `keysEqual`
returns, and it returns true if and only if `k1` and `k2` have the same number
of entries and, for every field of `k1`, `k2` has that field with an equal
value; in particular it returns false when some field of `k1` has a differing
value in `k2`. -/
theorem keysEqual_iff (k1 k2 : GoMap Value) (hs : ∀ e ∈ k1, e.2.isScalar = true) :
    (keysEqual k1 k2 = some true ∨ keysEqual k1 k2 = some false) ∧
    (keysEqual k1 k2 = some true ↔
      k1.length = k2.length ∧
        ∀ e ∈ k1, ∃ w, mapLookup k2 e.1 = some w ∧ goEq w e.2 = some true) ∧
    (∀ e ∈ k1, ∀ w, mapLookup k2 e.1 = some w → goEq w e.2 = some false →
      keysEqual k1 k2 = some false) := by
  obtain ⟨h1, h2⟩ := keysEqualLoop_scalar k2 k1 hs
  have hiff : keysEqual k1 k2 = some true ↔
      k1.length = k2.length ∧
        ∀ e ∈ k1, ∃ w, mapLookup k2 e.1 = some w ∧ goEq w e.2 = some true := by
    unfold keysEqual
    by_cases hl : k1.length = k2.length
    · rw [if_neg (fun h => h hl), h2]
      exact Iff.intro (fun h => ⟨hl, h⟩) (fun h => h.2)
    · rw [if_pos hl]
      exact Iff.intro (fun h => by cases h) (fun h => absurd h.1 hl)
  have htot : keysEqual k1 k2 = some true ∨ keysEqual k1 k2 = some false := by
    unfold keysEqual
    by_cases hl : k1.length = k2.length
    · rw [if_neg (fun h => h hl)]
      exact h1
    · rw [if_pos hl]
      exact Or.inr rfl
  refine ⟨htot, hiff, ?_⟩
  intro e he w hw hg
  rcases htot with ht | ht
  · obtain ⟨w', hw1, hw2⟩ := (hiff.mp ht).2 e he
    rw [hw] at hw1
    cases hw1
    rw [hg] at hw2
    cases hw2
  · exact ht

/-- Witness of C15: the two keys of `TestCacheHit`, of two entries and of one. -/
theorem keysEqual_iff_witness :
    ((keysEqual [("id", .str "usr"), ("subd", .int 1234)] [("id", .str "usr")] = some true ∨
        keysEqual [("id", .str "usr"), ("subd", .int 1234)] [("id", .str "usr")] = some false) ∧
      (keysEqual [("id", .str "usr"), ("subd", .int 1234)] [("id", .str "usr")] = some true ↔
        ([("id", Value.str "usr"), ("subd", Value.int 1234)] : GoMap Value).length =
            ([("id", Value.str "usr")] : GoMap Value).length ∧
          ∀ e ∈ ([("id", Value.str "usr"), ("subd", Value.int 1234)] : GoMap Value),
            ∃ w, mapLookup [("id", Value.str "usr")] e.1 = some w ∧ goEq w e.2 = some true) ∧
      (∀ e ∈ ([("id", Value.str "usr"), ("subd", Value.int 1234)] : GoMap Value), ∀ w,
        mapLookup [("id", Value.str "usr")] e.1 = some w → goEq w e.2 = some false →
        keysEqual [("id", .str "usr"), ("subd", .int 1234)] [("id", .str "usr")] = some false)) ∧
    keysEqual [("id", .str "usr"), ("subd", .int 1234)] [("id", .str "usr"), ("subd", .int 1234)] =
      some true ∧
    keysEqual [("id", .str "usr"), ("subd", .int 1234)] [("id", .str "usr"), ("subd", .int 1)] =
      some false :=
  ⟨keysEqual_iff [("id", .str "usr"), ("subd", .int 1234)] [("id", .str "usr")]
    (fun e he => by
      simp only [List.mem_cons, List.mem_singleton, List.not_mem_nil, or_false] at he
      rcases he with h | h <;> subst h <;> rfl), rfl, rfl⟩

/-- Counterexample to C15 as stated: a key whose value is a slice is present
and equal to itself field by field, yet comparing it with itself panics, so
`keysEqual` does not return true. -/
theorem keysEqual_slice_panics :
    keysEqual sliceKey sliceKey = none ∧ sliceKey.length = sliceKey.length ∧
      mapLookup sliceKey "id" = some (.strs ["x"]) :=
  ⟨rfl, rfl, rfl⟩

/-! ## The cache -/

theorem float64Eq_congr (a b w : Nat) (h : float64Eq a b = true) :
    float64Eq a w = float64Eq b w := by
  unfold float64Eq at h ⊢
  cases ha : float64IsNaN a
  · cases hb : float64IsNaN b
    · rw [ha, hb] at h
      simp only [Bool.or_self, Bool.false_eq_true, if_false] at h
      simp only [Bool.false_or]
      by_cases hw : float64IsNaN w = true
      · rw [if_pos hw, if_pos hw]
      · rw [if_neg hw, if_neg hw]
        by_cases hz : (a % 2 ^ 63 == 0 && b % 2 ^ 63 == 0) = true
        · rw [Bool.and_eq_true] at hz
          rw [hz.1, hz.2]
          simp only [Bool.true_and]
          by_cases hwz : (w % 2 ^ 63 == 0) = true
          · rw [if_pos hwz, if_pos hwz]
          · rw [if_neg hwz, if_neg hwz]
            have h1 : a % 2 ^ 63 = 0 := by simpa using hz.1
            have h2 : b % 2 ^ 63 = 0 := by simpa using hz.2
            have h3 : ¬ (w % 2 ^ 63 = 0) := by simpa using hwz
            have e1 : (a == w) = false := by
              rw [beq_eq_false_iff_ne]
              intro hh
              rw [hh] at h1
              exact h3 h1
            have e2 : (b == w) = false := by
              rw [beq_eq_false_iff_ne]
              intro hh
              rw [hh] at h2
              exact h3 h2
            rw [e1, e2]
        · rw [if_neg hz] at h
          have hab : a = b := by simpa using h
          rw [hab]
    · rw [ha, hb] at h
      simp at h
  · rw [ha] at h
    simp at h

/-- Two values that Go finds equal compare alike with every third value. -/
theorem goEq_congr (x v : Value) (h : goEq x v = some true) :
    x.isNil = v.isNil ∧ ∀ w, goEq x w = goEq v w := by
  cases x <;> cases v <;> simp only [goEq, Option.some.injEq, Bool.false_eq_true] at h
  · exact ⟨rfl, fun _ => rfl⟩
  · have hn : _ = _ := of_decide_eq_true h
    rw [hn]
    exact ⟨rfl, fun _ => rfl⟩
  · refine ⟨rfl, fun w => ?_⟩
    cases w <;> simp only [goEq]
    rw [float64Eq_congr _ _ _ h]
  · have hn : _ = _ := of_decide_eq_true h
    rw [hn]
    exact ⟨rfl, fun _ => rfl⟩
  · have hn : _ = _ := of_decide_eq_true h
    rw [hn]
    exact ⟨rfl, fun _ => rfl⟩
  all_goals cases h

theorem mapLookup_none_iff {α : Type} (m : GoMap α) (k : String) :
    mapLookup m k = none ↔ k ∉ m.map Prod.fst := by
  induction m with
  | nil => simp [mapLookup]
  | cons e rest ih =>
    obtain ⟨k', v⟩ := e
    unfold mapLookup
    by_cases h : k' = k
    · rw [if_pos h]
      simp [h]
    · rw [if_neg h, ih]
      simp only [List.map_cons, List.mem_cons, not_or]
      exact Iff.intro (fun hh => ⟨fun e => h e.symm, hh⟩) (fun hh => hh.2)

theorem mapLookup_mem {α : Type} (m : GoMap α) (k : String) (v : α)
    (h : mapLookup m k = some v) : (k, v) ∈ m := by
  induction m with
  | nil => cases h
  | cons e rest ih =>
    obtain ⟨k', v'⟩ := e
    unfold mapLookup at h
    by_cases hk : k' = k
    · rw [if_pos hk] at h
      cases h
      rw [hk]
      exact List.mem_cons_self _ _
    · rw [if_neg hk] at h
      exact List.mem_cons_of_mem _ (ih h)

/-- When the loop of `keysEqual` returns true, every entry of the first key
found a present and equal value in the second. -/
theorem keysEqualLoop_true (k2 : GoMap Value) :
    ∀ k1 : GoMap Value, keysEqualLoop k1 k2 = some true →
      ∀ e ∈ k1, (mapIndex k2 e.1).isNil = false ∧ goEq (mapIndex k2 e.1) e.2 = some true := by
  intro k1
  induction k1 with
  | nil => intro _ e he; cases he
  | cons e rest ih =>
    intro h q hq
    obtain ⟨i, v⟩ := e
    unfold keysEqualLoop at h
    by_cases hn : (mapIndex k2 i).isNil = true
    · rw [if_pos hn] at h
      cases h
    · rw [if_neg hn] at h
      cases hg : goEq (mapIndex k2 i) v with
      | none => rw [hg] at h; cases h
      | some b =>
        rw [hg] at h
        cases b with
        | false => cases h
        | true =>
          dsimp only at h
          rcases List.mem_cons.mp hq with h1 | h1
          · subst h1
            exact ⟨by simpa using hn, hg⟩
          · exact ih h q h1

/-- Two keys that `keysEqual` finds equal, the first having distinct fields,
hold at every field values that are nil together and compare alike. -/
theorem keysEqual_pointwise (k1 k2 : GoMap Value) (h : keysEqual k1 k2 = some true)
    (hnd : (k1.map Prod.fst).Nodup) :
    k1.length = k2.length ∧
      ∀ i, (mapIndex k1 i).isNil = (mapIndex k2 i).isNil ∧
        ∀ w, goEq (mapIndex k1 i) w = goEq (mapIndex k2 i) w := by
  unfold keysEqual at h
  by_cases hl : k1.length = k2.length
  · rw [if_neg (fun hh => hh hl)] at h
    have hent := keysEqualLoop_true k2 k1 h
    refine ⟨hl, fun i => ?_⟩
    cases h1 : mapLookup k1 i with
    | some v =>
      obtain ⟨_, hg⟩ := hent (i, v) (mapLookup_mem k1 i v h1)
      dsimp only at hg
      obtain ⟨hc1, hc2⟩ := goEq_congr _ _ hg
      rw [mapIndex_eq_of_lookup k1 i v h1]
      exact ⟨hc1.symm, fun w => (hc2 w).symm⟩
    | none =>
      have hsub : k1.map Prod.fst ⊆ k2.map Prod.fst := by
        intro j hj
        obtain ⟨e, he, hje⟩ := List.mem_map.mp hj
        obtain ⟨hn, _⟩ := hent e he
        have := mapLookup_mem k2 e.1 _ (mapIndex_not_nil k2 e.1 hn)
        rw [← hje]
        exact List.mem_map.mpr ⟨_, this, rfl⟩
      have hperm : List.Perm (k1.map Prod.fst) (k2.map Prod.fst) :=
        (List.subperm_of_subset hnd hsub).perm_of_length_le (by simp [hl])
      have hi1 : i ∉ k1.map Prod.fst := (mapLookup_none_iff k1 i).mp h1
      have hi2 : i ∉ k2.map Prod.fst := fun hh => hi1 (hperm.symm.subset hh)
      have h2 : mapLookup k2 i = none := (mapLookup_none_iff k2 i).mpr hi2
      unfold mapIndex
      rw [h1, h2]
      exact ⟨rfl, fun _ => rfl⟩
  · rw [if_pos hl] at h
    cases h

theorem keysEqualLoop_congr (k1 k2 : GoMap Value)
    (hp : ∀ i, (mapIndex k1 i).isNil = (mapIndex k2 i).isNil ∧
      ∀ w, goEq (mapIndex k1 i) w = goEq (mapIndex k2 i) w) :
    ∀ a : GoMap Value, keysEqualLoop a k1 = keysEqualLoop a k2 := by
  intro a
  induction a with
  | nil => rfl
  | cons e rest ih =>
    obtain ⟨i, v⟩ := e
    unfold keysEqualLoop
    rw [(hp i).1, (hp i).2 v, ih]

/-- Two keys that `keysEqual` finds equal are found equal to the same cached keys. -/
theorem keysEqual_congr (k1 k2 : GoMap Value) (h : keysEqual k1 k2 = some true)
    (hnd : (k1.map Prod.fst).Nodup) (a : GoMap Value) :
    keysEqual a k1 = keysEqual a k2 := by
  obtain ⟨hl, hp⟩ := keysEqual_pointwise k1 k2 h hnd
  unfold keysEqual
  rw [keysEqualLoop_congr k1 k2 hp a, hl]

theorem cacheScan_congr (k1 k2 : GoMap Value) (h : keysEqual k1 k2 = some true)
    (hnd : (k1.map Prod.fst).Nodup) :
    ∀ cache : List op, cacheScan cache k1 = cacheScan cache k2 := by
  intro cache
  induction cache with
  | nil => rfl
  | cons o rest ih =>
    unfold cacheScan
    rw [keysEqual_congr k1 k2 h hnd o.request.Key, ih]

theorem cacheScan_append_miss (k : GoMap Value) (o : op) :
    ∀ cache : List op, cacheScan cache k = some none →
      cacheScan (cache ++ [o]) k =
        match keysEqual o.request.Key k with
        | none => none
        | some true => some (some o)
        | some false => some none := by
  intro cache
  induction cache with
  | nil =>
    intro _
    rw [List.nil_append]
    unfold cacheScan
    cases hk : keysEqual o.request.Key k with
    | none => rfl
    | some b =>
      cases b with
      | true => rfl
      | false => dsimp only; unfold cacheScan; rfl
  | cons e rest ih =>
    intro h
    rw [List.cons_append]
    unfold cacheScan at h ⊢
    cases he : keysEqual e.request.Key k with
    | none => rw [he] at h; cases h
    | some b =>
      rw [he] at h
      cases b with
      | true => cases h
      | false =>
        dsimp only at h ⊢
        exact ih h

theorem runFinish_cache {σ : Type} (c : DynamoDBDatastore) (request : Request)
    (r : Option dynamodbResult) (e : Option String) (s : σ) :
    (runFinish c request r e s).c.cache = c.cache := by
  unfold runFinish
  split_ifs <;> rfl

theorem runFinish_cacheDisabled {σ : Type} (c : DynamoDBDatastore) (request : Request)
    (r : Option dynamodbResult) (e : Option String) (s : σ) :
    (runFinish c request r e s).c.cacheDisabled = c.cacheDisabled := by
  unfold runFinish
  split_ifs <;> rfl

theorem runFinish_tablePrefix {σ : Type} (c : DynamoDBDatastore) (request : Request)
    (r : Option dynamodbResult) (e : Option String) (s : σ) :
    (runFinish c request r e s).c.tablePrefix = c.tablePrefix := by
  unfold runFinish
  split_ifs <;> rfl

/-- The Get case of `Run`. -/
theorem Run_get {σ : Type} (cd : Codec) (db : DBer σ) (c : DynamoDBDatastore)
    (request : Request) (s : σ) (h : request.Action = Action.Get) :
    Run cd db c request s =
      match (if (!request.LiveData && !c.cacheDisabled) = true then
               cacheScan c.cache request.Key
             else some none) with
      | none => none
      | some (some o) => some { c := c, s := s, r := o.result, e := none }
      | some none =>
        match get cd db { request with Table := c.tablePrefix ++ request.Table } s with
        | (.ok r, s') =>
          some (runFinish
            { c with cache := c.cache ++
                [{ request := { request with Table := c.tablePrefix ++ request.Table },
                   result := some r }] }
            { request with Table := c.tablePrefix ++ request.Table } (some r) none s')
        | (.error e, s') =>
          some (runFinish c { request with Table := c.tablePrefix ++ request.Table } none
            (some e) s') := by
  unfold Run
  dsimp only
  rw [if_neg (by rw [h]; exact Action.get_ne_put), if_neg (by rw [h]; exact Action.get_ne_delete),
    if_pos h]

/-- A Get that is not answered from the cache and whose key can be marshalled
makes exactly one backend call, the `GetItem` with the marshalled key. -/
theorem Run_get_miss_traced {σ : Type} (cd : Codec) (db : DBer σ) (c : DynamoDBDatastore)
    (request : Request) (st : σ × List Call) (inp : GetItemInput)
    (h : request.Action = Action.Get)
    (hscan : request.LiveData = false → c.cacheDisabled = false →
      cacheScan c.cache request.Key = some none)
    (hin : getInput cd { request with Table := c.tablePrefix ++ request.Table } = .ok inp) :
    ∃ out, Run cd (traced db) c request st = some out ∧ out.s.2 = st.2 ++ [Call.GetItem inp] := by
  rw [Run_get cd (traced db) c request st h]
  have hsc : (if (!request.LiveData && !c.cacheDisabled) = true then
      cacheScan c.cache request.Key else some none) = some none := by
    by_cases hc : (!request.LiveData && !c.cacheDisabled) = true
    · rw [if_pos hc]
      have hc' : request.LiveData = false ∧ c.cacheDisabled = false := by simpa using hc
      exact hscan hc'.1 hc'.2
    · rw [if_neg hc]
  rw [hsc]
  dsimp only
  unfold get
  rw [hin]
  dsimp only [traced]
  cases hb : (db.GetItem inp st.1).1 with
  | error e => exact ⟨_, rfl, by rw [runFinish_s]⟩
  | ok o => exact ⟨_, rfl, by rw [runFinish_s]⟩

/-- C14, amended: for every handle with caching enabled and every Get request
without LiveData whose key has distinct fields: if `Run` succeeds on it and is
called again with a Get without LiveData whose Key `keysEqual` finds equal,
the second call makes no backend call and returns the result of the first
call; a following Get whose Key equals the key of no cached entry, and can be
marshalled, makes one backend call, the `GetItem` of that key. -/
theorem Run_get_twice {σ : Type} (cd : Codec) (db : DBer σ) (c : DynamoDBDatastore)
    (r1 r2 r3 : Request) (st : σ × List Call) (o1 : RunOut (σ × List Call))
    (inp3 : GetItemInput)
    (hc : c.cacheDisabled = false)
    (h1 : r1.Action = Action.Get) (hl1 : r1.LiveData = false)
    (hnd : (r1.Key.map Prod.fst).Nodup)
    (hrun1 : Run cd (traced db) c r1 st = some o1) (he1 : o1.e = none)
    (h2 : r2.Action = Action.Get) (hl2 : r2.LiveData = false)
    (heq : keysEqual r1.Key r2.Key = some true)
    (h3 : r3.Action = Action.Get)
    (hscan3 : r3.LiveData = false → cacheScan o1.c.cache r3.Key = some none)
    (hin3 : getInput cd { r3 with Table := c.tablePrefix ++ r3.Table } = .ok inp3) :
    Run cd (traced db) o1.c r2 o1.s = some { c := o1.c, s := o1.s, r := o1.r, e := none } ∧
      ∃ o3, Run cd (traced db) o1.c r3 o1.s = some o3 ∧
        o3.s.2 = o1.s.2 ++ [Call.GetItem inp3] := by
  have hcond : ∀ (c' : DynamoDBDatastore) (r : Request), c'.cacheDisabled = false →
      r.LiveData = false → ((!r.LiveData && !c'.cacheDisabled) = true) := by
    intro c' r hc' hr
    rw [hc', hr]
    rfl
  rw [Run_get cd (traced db) c r1 st h1, if_pos (hcond c r1 hc hl1)] at hrun1
  cases hs : cacheScan c.cache r1.Key with
  | none => rw [hs] at hrun1; cases hrun1
  | some found =>
    rw [hs] at hrun1
    cases found with
    | some e =>
      dsimp only at hrun1
      cases hrun1
      dsimp only at hscan3 ⊢
      constructor
      · rw [Run_get cd (traced db) c r2 st h2, if_pos (hcond c r2 hc hl2),
          ← cacheScan_congr r1.Key r2.Key heq hnd c.cache, hs]
      · exact Run_get_miss_traced cd db c r3 st inp3 h3 (fun hl _ => hscan3 hl) hin3
    | none =>
      dsimp only at hrun1
      cases hg : get cd (traced db) { r1 with Table := c.tablePrefix ++ r1.Table } st with
      | mk res s' =>
        rw [hg] at hrun1
        cases res with
        | error e =>
          dsimp only at hrun1
          cases hrun1
          rw [runFinish_e] at he1
          cases he1
        | ok r =>
          dsimp only at hrun1
          cases hrun1
          have hcd := runFinish_cacheDisabled
            { c with cache := c.cache ++
                [{ request := { r1 with Table := c.tablePrefix ++ r1.Table }, result := some r }] }
            { r1 with Table := c.tablePrefix ++ r1.Table } (some r) none s'
          have hca := runFinish_cache
            { c with cache := c.cache ++
                [{ request := { r1 with Table := c.tablePrefix ++ r1.Table }, result := some r }] }
            { r1 with Table := c.tablePrefix ++ r1.Table } (some r) none s'
          have htp := runFinish_tablePrefix
            { c with cache := c.cache ++
                [{ request := { r1 with Table := c.tablePrefix ++ r1.Table }, result := some r }] }
            { r1 with Table := c.tablePrefix ++ r1.Table } (some r) none s'
          have hr1 := runFinish_r
            { c with cache := c.cache ++
                [{ request := { r1 with Table := c.tablePrefix ++ r1.Table }, result := some r }] }
            { r1 with Table := c.tablePrefix ++ r1.Table } (some r) none s'
          dsimp only at hcd hca htp
          generalize runFinish
            { c with cache := c.cache ++
                [{ request := { r1 with Table := c.tablePrefix ++ r1.Table }, result := some r }] }
            { r1 with Table := c.tablePrefix ++ r1.Table } (some r) none s' = o1 at *
          constructor
          · rw [Run_get cd (traced db) o1.c r2 o1.s h2, if_pos (hcond o1.c r2 (hcd.trans hc) hl2),
              hca, cacheScan_append_miss r2.Key _ c.cache
                (by rw [← cacheScan_congr r1.Key r2.Key heq hnd c.cache]; exact hs)]
            dsimp only
            rw [heq]
            dsimp only
            rw [hr1]
          · exact Run_get_miss_traced cd db o1.c r3 o1.s inp3 h3 (fun hl _ => hscan3 hl)
              (by rw [htp]; exact hin3)

/-- Witness of C14: the three Gets of `TestCacheHit` on a fresh handle. -/
theorem Run_get_twice_witness :
    ∃ o1, Run exampleCodec (traced (itemBackend (itemOf "1"))) {} testGet ((), []) = some o1 ∧
      o1.e = none ∧
      (Run exampleCodec (traced (itemBackend (itemOf "1"))) o1.c testGet o1.s =
          some { c := o1.c, s := o1.s, r := o1.r, e := none } ∧
        ∃ o3, Run exampleCodec (traced (itemBackend (itemOf "1"))) o1.c testGetShortKey o1.s =
            some o3 ∧
          o3.s.2 = o1.s.2 ++ [Call.GetItem
            { TableName := "test", Key := [("id", AttributeValue.ofS "usr")],
              ConsistentRead := false }]) :=
  ⟨_, rfl, rfl,
    Run_get_twice exampleCodec (itemBackend (itemOf "1")) {} testGet testGet testGetShortKey
      ((), []) _ _ rfl rfl rfl (by decide) rfl rfl rfl rfl rfl rfl (fun _ => rfl) rfl⟩

/-- C14, counterexample: on a handle whose cache already holds the result of a
Get of the one-field key, the two Gets of the two-field key are followed by a
Get of the one-field key, whose key is not equal to theirs, and this third Get
makes no backend call: the trace has one call after each of the three runs.
On a fresh handle the third Get makes the second call. -/
theorem Run_get_other_key_cached :
    threeGets warmHandle [] = some ([1, 1, 1], true) ∧
      threeGets {} [] = some ([1, 1, 2], true) ∧
      keysEqual testGet.Key testGetShortKey.Key = some false ∧
      warmHandle.cacheDisabled = false :=
  ⟨rfl, rfl, rfl, rfl⟩

/-! ## buildConditionExpression -/

theorem typeCorrect_cases (c : RequestCondition) (h : c.typeCorrect = true) :
    c.Kind = Condition.Exist ∨ c.Kind = Condition.NotExist ∨
      (c.Kind = Condition.GreaterThan ∧ ∃ n, c.Value = .int n) ∨
      (c.Kind = Condition.LessThan ∧ ∃ n, c.Value = .int n) ∨
      (c.Kind = Condition.Equal ∧ ∃ n, c.Value = .int n) ∨
      (c.Kind = Condition.Equal ∧ ∃ s, c.Value = .str s) ∨
      (c.Kind = Condition.BeginsWith ∧ ∃ s, c.Value = .str s) := by
  obtain ⟨f, k, r, v⟩ := c
  unfold RequestCondition.typeCorrect at h
  dsimp only at h ⊢
  split_ifs at h with h1 h2 h3 h4
  · rcases h1 with h1 | h1
    · exact Or.inl h1
    · exact Or.inr (Or.inl h1)
  · cases v <;> simp at h
    rcases h2 with h2 | h2
    · exact Or.inr (Or.inr (Or.inl ⟨h2, _, rfl⟩))
    · exact Or.inr (Or.inr (Or.inr (Or.inl ⟨h2, _, rfl⟩)))
  · cases v <;> simp at h
    · exact Or.inr (Or.inr (Or.inr (Or.inr (Or.inl ⟨h3, _, rfl⟩))))
    · exact Or.inr (Or.inr (Or.inr (Or.inr (Or.inr (Or.inl ⟨h3, _, rfl⟩)))))
  · cases v <;> simp at h
    exact Or.inr (Or.inr (Or.inr (Or.inr (Or.inr (Or.inr ⟨h4, _, rfl⟩)))))

/-- One round of the loop on a type-correct condition. -/
theorem condLoop_step (c : RequestCondition) (rest : List RequestCondition) (i : Nat)
    (exp : String) (valI valN : Int) (vals : ExprValues) (names : GoMap String)
    (h : c.typeCorrect = true) :
    condLoop (c :: rest) i exp valI valN vals names =
      condLoop rest (i + 1)
        ((if 0 < i ∧ c.Relationship ≠ -1 then
            (if exp ≠ "" then exp ++ " " else exp) ++ c.RelationshipString ++ " "
          else (if exp ≠ "" then exp ++ " " else exp)) ++ termOf c valN valI)
        (if c.carriesValue then valI + 1 else valI) (valN + 1)
        (if c.carriesValue then mapAssign vals (valueAlias valI) (boundValue c.Value) else vals)
        (mapAssign names (nameAlias valN) c.Field) := by
  obtain ⟨f, k, r, v⟩ := c
  rcases typeCorrect_cases _ h with hk | hk | ⟨hk, n, hv⟩ | ⟨hk, n, hv⟩ | ⟨hk, n, hv⟩ |
    ⟨hk, s, hv⟩ | ⟨hk, s, hv⟩
  all_goals dsimp only at hk
  all_goals subst hk
  all_goals try (dsimp only at hv; subst hv)
  all_goals simp [condLoop, termOf, RequestCondition.carriesValue, boundValue, nameAlias,
    valueAlias, String.append_assoc, Condition.Exist, Condition.NotExist, Condition.GreaterThan,
    Condition.LessThan, Condition.Equal, Condition.BeginsWith]

theorem exist_typeCorrect (c : RequestCondition)
    (h : c.Kind = Condition.Exist ∨ c.Kind = Condition.NotExist) :
    c.typeCorrect = true ∧ c.carriesValue = false := by
  rcases h with h | h <;>
    simp [RequestCondition.typeCorrect, RequestCondition.carriesValue, h, Condition.Exist,
      Condition.NotExist, Condition.GreaterThan, Condition.LessThan, Condition.Equal,
      Condition.BeginsWith]

theorem condLoop_exists (conds : List RequestCondition)
    (h : ∀ c ∈ conds, c.Kind = Condition.Exist ∨ c.Kind = Condition.NotExist) :
    ∀ (i : Nat) (exp : String) (valI valN : Int) (vals : ExprValues) (names : GoMap String),
      ∃ e names', condLoop conds i exp valI valN vals names = some ⟨.ok e, vals, names'⟩ := by
  induction conds with
  | nil => exact fun i exp valI valN vals names => ⟨exp, names, rfl⟩
  | cons c rest ih =>
    intro i exp valI valN vals names
    have hc := exist_typeCorrect c (h c (List.mem_cons_self _ _))
    rw [condLoop_step c rest i exp valI valN vals names hc.1, hc.2]
    exact ih (fun d hd => h d (List.mem_cons_of_mem _ hd)) _ _ _ _ _ _

/-- C17: for every condition list whose kinds are all Exist or NotExist,
`buildConditionExpression` returns an expression and no error and leaves the
table of value aliases as it was; a single Exist condition compiled with an
empty table of name aliases gives the expression `attribute_exists(#ename0)`
and binds the alias `#ename0` to the field of the condition. -/
theorem buildConditionExpression_exists (conds : List RequestCondition) (vals : ExprValues)
    (names : GoMap String) (c : RequestCondition)
    (h : ∀ d ∈ conds, d.Kind = Condition.Exist ∨ d.Kind = Condition.NotExist)
    (hc : c.Kind = Condition.Exist) :
    (∃ e names', buildConditionExpression conds vals names = some ⟨.ok e, vals, names'⟩) ∧
      buildConditionExpression [c] vals [] =
        some ⟨.ok "attribute_exists(#ename0)", vals, [("#ename0", c.Field)]⟩ := by
  refine ⟨condLoop_exists conds h _ _ _ _ _ _, ?_⟩
  obtain ⟨f, k, r, v⟩ := c
  dsimp only at hc
  subst hc
  rfl

/-- Witness of C17: the Exist and NotExist conditions of the test leave the
value aliases empty, and the Exist condition alone compiles to
`attribute_exists(#ename0)` over the field `test2`. -/
theorem buildConditionExpression_exists_witness :
    (∃ e names', buildConditionExpression testExistConditions [] [] =
        some ⟨.ok e, [], names'⟩) ∧
      buildConditionExpression [{ Field := "test2", Kind := Condition.Exist }] [] [] =
        some ⟨.ok "attribute_exists(#ename0)", [], [("#ename0", "test2")]⟩ ∧
      buildConditionExpression testExistConditions [] [] =
        some ⟨.ok "attribute_exists(#ename0) AND attribute_not_exists(#ename1)", [],
          [("#ename0", "test2"), ("#ename1", "test3")]⟩ :=
  ⟨(buildConditionExpression_exists testExistConditions [] []
      { Field := "test2", Kind := Condition.Exist } (by decide) rfl).1,
    (buildConditionExpression_exists testExistConditions [] []
      { Field := "test2", Kind := Condition.Exist } (by decide) rfl).2, rfl⟩

theorem termOf_ne_empty (c : RequestCondition) (n v : Int) : termOf c n v ≠ "" := by
  have h : 0 < (termOf c n v).length := by
    unfold termOf nameAlias valueAlias
    split_ifs <;> simp only [String.length_append] <;>
      simp only [String.length, List.length_cons, List.length_nil] <;> omega
  intro h2
  rw [h2] at h
  exact absurd h (by decide)

theorem append_ne_empty (s t : String) (h : t ≠ "") : s ++ t ≠ "" := by
  intro h2
  apply h
  have hl : (s ++ t).length = 0 := by rw [h2]; rfl
  rw [String.length_append] at hl
  have ht : t.length = 0 := by omega
  exact String.ext (List.length_eq_zero.mp ht)

theorem keywordOf_eq (c : RequestCondition)
    (h : c.Relationship = Relationship.And ∨ c.Relationship = Relationship.Or) :
    c.RelationshipString = keywordOf c ∧ c.Relationship ≠ -1 := by
  rcases h with h | h <;>
    simp [RequestCondition.RelationshipString, keywordOf, h, Relationship.And, Relationship.Or]

theorem condLoop_expr (conds : List RequestCondition)
    (h : ∀ c ∈ conds, c.typeCorrect = true ∧
      (c.Relationship = Relationship.And ∨ c.Relationship = Relationship.Or)) :
    ∀ (i : Nat) (exp : String) (valI valN : Int) (vals : ExprValues) (names : GoMap String),
      0 < i → exp ≠ "" →
      condLoop conds i exp valI valN vals names =
        some ⟨.ok (exp ++ exprTail conds valN valI), bindValues conds valI vals,
          bindNames conds valN names⟩ := by
  induction conds with
  | nil =>
    intro i exp valI valN vals names _ _
    unfold condLoop exprTail bindValues bindNames
    rw [String.append_empty]
  | cons c rest ih =>
    intro i exp valI valN vals names hi hexp
    have hc := h c (List.mem_cons_self _ _)
    have hk := keywordOf_eq c hc.2
    rw [condLoop_step c rest i exp valI valN vals names hc.1, if_pos ⟨hi, hk.2⟩, if_pos hexp,
      hk.1, ih (fun d hd => h d (List.mem_cons_of_mem _ hd)) _ _ _ _ _ _ (Nat.succ_pos i)
        (append_ne_empty _ _ (termOf_ne_empty c valN valI))]
    cases hcv : c.carriesValue <;>
      simp [exprTail, bindValues, bindNames, hcv, String.append_assoc]

theorem buildConditionExpression_first_relationship (c0 : RequestCondition)
    (rest : List RequestCondition) (r : Relationship) (vals : ExprValues)
    (names : GoMap String) :
    buildConditionExpression ({ c0 with Relationship := r } :: rest) vals names =
      buildConditionExpression (c0 :: rest) vals names := by
  unfold buildConditionExpression
  simp only [condLoop, lt_irrefl, false_and, if_false]

/-- C18: for every list of one or more type-correct conditions, those after
the first with the Relationship And or Or, compiled from empty tables, the
expression is the term of the first condition followed, for each further
condition, by one space, its keyword `AND` or `OR`, one space and its term;
the term of condition `i` is the form of its kind over the name alias
`#ename<i>` and the next unused value alias, and the aliases are bound to the
fields and to the values in this order.  The Relationship of the first
condition has no effect on what is returned. -/
theorem buildConditionExpression_expr (c0 : RequestCondition) (rest : List RequestCondition)
    (h0 : c0.typeCorrect = true)
    (h : ∀ c ∈ rest, c.typeCorrect = true ∧
      (c.Relationship = Relationship.And ∨ c.Relationship = Relationship.Or)) :
    buildConditionExpression (c0 :: rest) [] [] =
        some ⟨.ok (exprOf (c0 :: rest)), bindValues (c0 :: rest) 0 [],
          bindNames (c0 :: rest) 0 []⟩ ∧
      ∀ r, buildConditionExpression ({ c0 with Relationship := r } :: rest) [] [] =
        buildConditionExpression (c0 :: rest) [] [] := by
  refine ⟨?_, fun r => buildConditionExpression_first_relationship c0 rest r [] []⟩
  unfold buildConditionExpression
  rw [condLoop_step c0 rest 0 "" _ _ [] [] h0,
    if_neg (fun hh : 0 < 0 ∧ c0.Relationship ≠ -1 => absurd hh.1 (lt_irrefl 0)),
    if_neg (fun hh : "" ≠ "" => hh rfl), String.empty_append,
    condLoop_expr rest h _ _ _ _ _ _ (Nat.succ_pos 0) (termOf_ne_empty c0 _ _)]
  cases hcv : c0.carriesValue <;>
    simp [exprOf, bindValues, bindNames, hcv]

/-- Witness of C18: the GreaterThan and BeginsWith conditions of the test
compile to `#ename0 > :val0 AND begins_with(#ename1, :val1)`, with `:val0`
bound to the number 42 and `:val1` to the string `amd`. -/
theorem buildConditionExpression_expr_witness :
    buildConditionExpression testConditions [] [] =
        some ⟨.ok "#ename0 > :val0 AND begins_with(#ename1, :val1)",
          [(":val0", some (AttributeValue.ofN "42")), (":val1", some (AttributeValue.ofS "amd"))],
          [("#ename0", "test4"), ("#ename1", "test5")]⟩ ∧
      ∀ r, buildConditionExpression
          ({ Field := "test4", Kind := Condition.GreaterThan, Value := .int 42,
             Relationship := r } ::
            [{ Field := "test5", Kind := Condition.BeginsWith, Value := .str "amd",
               Relationship := Relationship.And }]) [] [] =
        buildConditionExpression testConditions [] [] :=
  buildConditionExpression_expr
    { Field := "test4", Kind := Condition.GreaterThan, Value := .int 42 }
    [{ Field := "test5", Kind := Condition.BeginsWith, Value := .str "amd",
       Relationship := Relationship.And }] rfl
    (by intro c hc; rw [List.mem_singleton] at hc; subst hc; exact ⟨rfl, Or.inl rfl⟩)

/-- C19, amended: a GreaterThan or LessThan condition compiles if and only if
its Value is a Go `int`: for every `int` the expression is the comparison of
the name alias with the value alias, and the value alias is bound to that
number; for every other Value, a `float64` or a string among them,
`buildConditionExpression` returns no expression and the error
`Invalid request condition` of the kind, and binds no value alias. -/
theorem buildConditionExpression_int_only (c : RequestCondition) (vals : ExprValues)
    (names : GoMap String)
    (hk : c.Kind = Condition.GreaterThan ∨ c.Kind = Condition.LessThan) :
    ((∃ b e, buildConditionExpression [c] vals names = some b ∧ b.exp = .ok e) ↔
        ∃ n, c.Value = .int n) ∧
      (∀ n, c.Value = .int n →
        buildConditionExpression [c] vals names =
          some ⟨.ok (termOf c names.length vals.length),
            mapAssign vals (valueAlias vals.length) (some (AttributeValue.ofN (Itoa n))),
            mapAssign names (nameAlias names.length) c.Field⟩) ∧
      ((∀ n, c.Value ≠ .int n) →
        buildConditionExpression [c] vals names =
          some ⟨.error ("Invalid request condition: " ++
              (if c.Kind = Condition.GreaterThan then "GreaterThan" else "LessThan") ++
              " condition value must be an int"), vals,
            mapAssign names (nameAlias names.length) c.Field⟩) := by
  obtain ⟨f, k, r, v⟩ := c
  dsimp only at hk ⊢
  have hok : ∀ n, v = .int n →
      buildConditionExpression [⟨f, k, r, v⟩] vals names =
        some ⟨.ok (termOf ⟨f, k, r, v⟩ names.length vals.length),
          mapAssign vals (valueAlias vals.length) (some (AttributeValue.ofN (Itoa n))),
          mapAssign names (nameAlias names.length) f⟩ := by
    intro n hv
    subst hv
    rcases hk with hk | hk <;> subst hk <;>
      simp [buildConditionExpression, condLoop, termOf, nameAlias, valueAlias,
        Condition.Exist, Condition.NotExist, Condition.GreaterThan, Condition.LessThan,
        Condition.Equal, Condition.BeginsWith]
  have herr : (∀ n, v ≠ .int n) →
      buildConditionExpression [⟨f, k, r, v⟩] vals names =
        some ⟨.error ("Invalid request condition: " ++
            (if k = Condition.GreaterThan then "GreaterThan" else "LessThan") ++
            " condition value must be an int"), vals,
          mapAssign names (nameAlias names.length) f⟩ := by
    intro hv
    rcases hk with hk | hk <;> subst hk <;> cases v <;>
      first
      | exact absurd rfl (hv _)
      | rfl
  refine ⟨Iff.intro (fun hb => ?_) (fun hn => ?_), hok, herr⟩
  · by_contra hne
    obtain ⟨b, e, hb, he⟩ := hb
    rw [herr (fun n hn => hne ⟨n, hn⟩)] at hb
    cases hb
    cases he
  · obtain ⟨n, hn⟩ := hn
    exact ⟨_, _, hok n hn, rfl⟩

/-- Witness of C19: the GreaterThan condition with the `int` 42 of the test
compiles, and binds `:val0` to the number 42. -/
theorem buildConditionExpression_int_only_witness :
    ((∃ b e, buildConditionExpression
          [{ Field := "test4", Kind := Condition.GreaterThan, Value := .int 42 }] [] [] = some b ∧
        b.exp = .ok e) ↔
        ∃ n, Value.int 42 = .int n) ∧
      buildConditionExpression
          [{ Field := "test4", Kind := Condition.GreaterThan, Value := .int 42 }] [] [] =
        some ⟨.ok "#ename0 > :val0", [(":val0", some (AttributeValue.ofN "42"))],
          [("#ename0", "test4")]⟩ :=
  ⟨(buildConditionExpression_int_only
      { Field := "test4", Kind := Condition.GreaterThan, Value := .int 42 } [] []
      (Or.inl rfl)).1,
    (buildConditionExpression_int_only
      { Field := "test4", Kind := Condition.GreaterThan, Value := .int 42 } [] []
      (Or.inl rfl)).2.1 42 rfl⟩

/-- C19, counterexample: a GreaterThan condition whose Value is numeric, the
`float64` 1.5, does not compile: the error of a value that is not an `int` is
returned and no value alias is bound. -/
theorem buildConditionExpression_float_rejected :
    buildConditionExpression [floatCondition] [] [] =
      some ⟨.error "Invalid request condition: GreaterThan condition value must be an int", [],
        [("#ename0", "f")]⟩ :=
  rfl

/-- C20: an Equal condition whose Value is absent makes
`buildConditionExpression` panic, where an Equal condition with a boolean
Value and a GreaterThan condition with an absent Value return the error of an
invalid request condition and bind no value alias. -/
theorem buildConditionExpression_equal_nil_panics :
    buildConditionExpression [equalNilCondition] [] [] = none ∧
      buildConditionExpression [{ equalNilCondition with Value := .bool true }] [] [] =
        some ⟨.error "Invalid request condition: Equal condition value must be int or string",
          [], [("#ename0", "f")]⟩ ∧
      buildConditionExpression [{ equalNilCondition with Kind := Condition.GreaterThan }] [] [] =
        some ⟨.error "Invalid request condition: GreaterThan condition value must be an int",
          [], [("#ename0", "f")]⟩ :=
  ⟨rfl, rfl, rfl⟩

/-! ## Decimals -/

theorem digitChar_spec (d : Nat) (h : d < 10) :
    (Nat.digitChar d).toNat - 48 = d ∧ (Nat.digitChar d).isDigit = true := by
  interval_cases d <;> exact ⟨rfl, rfl⟩

theorem digitsValue_snoc (p : List Char) (c : Char) :
    digitsValue (p ++ [c]) = digitsValue p * 10 + (c.toNat - 48) := by
  unfold digitsValue
  rw [List.foldl_append]
  rfl

theorem toDigitsCore_spec : ∀ (fuel n : Nat) (ds : List Char), n < fuel →
    ∃ p, Nat.toDigitsCore 10 fuel n ds = p ++ ds ∧ digitsValue p = n ∧ p ≠ [] ∧
      ∀ c ∈ p, c.isDigit = true := by
  intro fuel
  induction fuel with
  | zero => intro n ds h; omega
  | succ fuel ih =>
    intro n ds h
    have hd := digitChar_spec (n % 10) (Nat.mod_lt _ (by decide))
    unfold Nat.toDigitsCore
    by_cases h0 : n / 10 = 0
    · simp only [h0, if_true]
      refine ⟨[Nat.digitChar (n % 10)], rfl, ?_, by simp, ?_⟩
      · have : digitsValue [Nat.digitChar (n % 10)] = (Nat.digitChar (n % 10)).toNat - 48 := by
          simp [digitsValue]
        rw [this, hd.1]
        omega
      · intro c hc
        rw [List.mem_singleton] at hc
        rw [hc]
        exact hd.2
    · simp only [h0, if_false]
      obtain ⟨p, hp, hv, hne, hdig⟩ := ih (n / 10) (Nat.digitChar (n % 10) :: ds) (by omega)
      refine ⟨p ++ [Nat.digitChar (n % 10)], ?_, ?_, by simp, ?_⟩
      · rw [hp]; simp
      · rw [digitsValue_snoc, hv, hd.1]; omega
      · intro c hc
        rw [List.mem_append, List.mem_singleton] at hc
        rcases hc with hc | hc
        · exact hdig c hc
        · rw [hc]; exact hd.2

theorem repr_spec (n : Nat) :
    digitsValue (Nat.repr n).data = n ∧ (Nat.repr n).data ≠ [] ∧
      ∀ c ∈ (Nat.repr n).data, c.isDigit = true := by
  obtain ⟨p, hp, hv, hne, hdig⟩ := toDigitsCore_spec (n + 1) n [] (Nat.lt_succ_self n)
  have h : (Nat.repr n).data = p := by
    unfold Nat.repr Nat.toDigits
    rw [hp, List.append_nil]
    rfl
  rw [h]
  exact ⟨hv, hne, hdig⟩

theorem Itoa_ofNat (n : Nat) : Itoa (n : Int) = Nat.repr n := rfl

theorem Itoa_negSucc (n : Nat) : Itoa (Int.negSucc n) = "-" ++ Nat.repr (n + 1) := rfl

theorem Itoa_injective (a b : Int) (h : Itoa a = Itoa b) : a = b := by
  have hd : (Itoa a).data = (Itoa b).data := by rw [h]
  cases a with
  | ofNat m =>
    cases b with
    | ofNat k =>
      rw [Int.ofNat_eq_coe, Int.ofNat_eq_coe, Itoa_ofNat, Itoa_ofNat] at hd
      have := (repr_spec m).1
      rw [hd, (repr_spec k).1] at this
      rw [this]
    | negSucc k =>
      exfalso
      rw [Int.ofNat_eq_coe, Itoa_ofNat, Itoa_negSucc, String.data_append] at hd
      obtain ⟨_, hne, hdig⟩ := repr_spec m
      rw [hd] at hdig
      have := hdig '-' (by simp)
      exact absurd this (by decide)
  | negSucc m =>
    cases b with
    | ofNat k =>
      exfalso
      rw [Int.ofNat_eq_coe, Itoa_ofNat, Itoa_negSucc, String.data_append] at hd
      obtain ⟨_, hne, hdig⟩ := repr_spec k
      rw [← hd] at hdig
      have := hdig '-' (by simp)
      exact absurd this (by decide)
    | negSucc k =>
      rw [Itoa_negSucc, Itoa_negSucc, String.data_append, String.data_append] at hd
      have hd2 := List.append_cancel_left hd
      have := (repr_spec (m + 1)).1
      rw [hd2, (repr_spec (k + 1)).1] at this
      have hmk : m = k := by omega
      rw [hmk]

/-- The characters of a decimal are digits or the sign. -/
theorem Itoa_chars (a : Int) : ∀ c ∈ (Itoa a).data, c.isDigit = true ∨ c = '-' := by
  cases a with
  | ofNat m =>
    intro c hc
    rw [Int.ofNat_eq_coe, Itoa_ofNat] at hc
    exact Or.inl ((repr_spec m).2.2 c hc)
  | negSucc m =>
    intro c hc
    rw [Itoa_negSucc, String.data_append] at hc
    rw [List.mem_append] at hc
    rcases hc with hc | hc
    · right
      simpa using hc
    · exact Or.inl ((repr_spec (m + 1)).2.2 c hc)

theorem Itoa_ne_empty (a : Int) : (Itoa a).data ≠ [] := by
  cases a with
  | ofNat m =>
    rw [Int.ofNat_eq_coe, Itoa_ofNat]
    exact (repr_spec m).2.1
  | negSucc m =>
    rw [Itoa_negSucc, String.data_append]
    simp

/-! ## Conditions that fail -/

theorem condLoop_past (pre tail : List RequestCondition)
    (h : ∀ c ∈ pre, c.typeCorrect = true) :
    ∀ (i : Nat) (exp : String) (valI valN : Int) (vals : ExprValues) (names : GoMap String),
      ∃ exp' valI' vals', condLoop (pre ++ tail) i exp valI valN vals names =
        condLoop tail (i + pre.length) exp' valI' (valN + pre.length) vals'
          (bindNames pre valN names) := by
  induction pre with
  | nil => exact fun i exp valI valN vals names => ⟨exp, valI, vals, by simp [bindNames]⟩
  | cons c rest ih =>
    intro i exp valI valN vals names
    rw [List.cons_append, condLoop_step c (rest ++ tail) i exp valI valN vals names
      (h c (List.mem_cons_self _ _))]
    obtain ⟨exp', valI', vals', hh⟩ := ih (fun d hd => h d (List.mem_cons_of_mem _ hd)) (i + 1)
      ((if 0 < i ∧ c.Relationship ≠ -1 then
          (if exp ≠ "" then exp ++ " " else exp) ++ c.RelationshipString ++ " "
        else (if exp ≠ "" then exp ++ " " else exp)) ++ termOf c valN valI)
      (if c.carriesValue then valI + 1 else valI) (valN + 1)
      (if c.carriesValue then mapAssign vals (valueAlias valI) (boundValue c.Value) else vals)
      (mapAssign names (nameAlias valN) c.Field)
    refine ⟨exp', valI', vals', ?_⟩
    rw [hh]
    simp only [List.length_cons, Nat.cast_add, Nat.cast_one, bindNames]
    have e1 : i + 1 + rest.length = i + (rest.length + 1) := by omega
    have e2 : valN + 1 + (rest.length : Int) = valN + ((rest.length : Int) + 1) := by omega
    rw [e1, e2]

theorem condLoop_unknown (c : RequestCondition) (rest : List RequestCondition) (i : Nat)
    (exp : String) (valI valN : Int) (vals : ExprValues) (names : GoMap String)
    (hk : c.Kind < Condition.Exist ∨ Condition.BeginsWith < c.Kind) :
    condLoop (c :: rest) i exp valI valN vals names =
      some ⟨.error "Unknown request condition", vals,
        mapAssign names (nameAlias valN) c.Field⟩ := by
  obtain ⟨f, k, r, v⟩ := c
  dsimp only at hk ⊢
  have h0 : ¬ k = Condition.Exist := fun e => by rw [e] at hk; exact absurd hk (by decide)
  have h1 : ¬ k = Condition.NotExist := fun e => by rw [e] at hk; exact absurd hk (by decide)
  have h2 : ¬ k = Condition.GreaterThan := fun e => by rw [e] at hk; exact absurd hk (by decide)
  have h3 : ¬ k = Condition.LessThan := fun e => by rw [e] at hk; exact absurd hk (by decide)
  have h4 : ¬ k = Condition.Equal := fun e => by rw [e] at hk; exact absurd hk (by decide)
  have h5 : ¬ k = Condition.BeginsWith := fun e => by rw [e] at hk; exact absurd hk (by decide)
  unfold condLoop
  simp only [if_neg h0, if_neg h1, if_neg h2, if_neg h3, if_neg h4, if_neg h5, nameAlias]

/-- C21: for every condition list in which a condition of a kind outside the
six defined kinds comes after type-correct conditions only,
`buildConditionExpression` returns no expression and the error
`Unknown request condition`, whatever was compiled for the conditions before
it and whatever follows it. -/
theorem buildConditionExpression_unknown (pre : List RequestCondition) (c : RequestCondition)
    (rest : List RequestCondition) (vals : ExprValues) (names : GoMap String)
    (hpre : ∀ d ∈ pre, d.typeCorrect = true)
    (hk : c.Kind < Condition.Exist ∨ Condition.BeginsWith < c.Kind) :
    ∃ vals' names', buildConditionExpression (pre ++ c :: rest) vals names =
      some ⟨.error "Unknown request condition", vals', names'⟩ := by
  unfold buildConditionExpression
  obtain ⟨exp', valI', vals', hh⟩ := condLoop_past pre (c :: rest) hpre 0 "" vals.length
    names.length vals names
  rw [hh, condLoop_unknown c rest _ _ _ _ _ _ hk]
  exact ⟨_, _, rfl⟩

/-- Witness of C21: the condition of kind -1 of the test, alone and after the
two conditions that compile. -/
theorem buildConditionExpression_unknown_witness :
    (∃ vals' names', buildConditionExpression
        (testConditions ++ { Field := "test1", Kind := -1 } :: testExistConditions) [] [] =
      some ⟨.error "Unknown request condition", vals', names'⟩) ∧
      buildConditionExpression [{ Field := "test1", Kind := -1 }] [] [] =
        some ⟨.error "Unknown request condition", [], [("#ename0", "test1")]⟩ :=
  ⟨buildConditionExpression_unknown testConditions { Field := "test1", Kind := -1 }
      testExistConditions [] [] (by decide) (Or.inl (by decide)), rfl⟩

/-! ## Alias tables -/

theorem string_append_left_cancel (a b c : String) (h : a ++ b = a ++ c) : b = c := by
  have hd : (a ++ b).data = (a ++ c).data := by rw [h]
  rw [String.data_append, String.data_append] at hd
  exact String.ext (List.append_cancel_left hd)

theorem nameAlias_injective (a b : Int) (h : nameAlias a = nameAlias b) : a = b :=
  Itoa_injective a b (string_append_left_cancel _ _ _ h)

theorem valueAlias_injective (a b : Int) (h : valueAlias a = valueAlias b) : a = b :=
  Itoa_injective a b (string_append_left_cancel _ _ _ h)

theorem aliased_length {α : Type} (al : Int → String) (xs : List α) :
    ∀ n, (aliased al xs n).length = xs.length := by
  induction xs with
  | nil => exact fun _ => rfl
  | cons x xs ih => exact fun n => by simp [aliased, ih]

theorem aliased_keysIn {α : Type} (al : Int → String) (xs : List α) :
    ∀ n, KeysIn al n (n + xs.length) (aliased al xs n) := by
  induction xs with
  | nil => exact fun n k hk => by simp [aliased] at hk
  | cons x xs ih =>
    intro n k hk
    simp only [aliased, List.map_cons, List.mem_cons] at hk
    rcases hk with hk | hk
    · exact ⟨n, le_refl n, by simp only [List.length_cons, Nat.cast_add, Nat.cast_one]; omega, hk⟩
    · obtain ⟨j, h1, h2, h3⟩ := ih (n + 1) k hk
      exact ⟨j, by omega, by simp only [List.length_cons, Nat.cast_add, Nat.cast_one]; omega, h3⟩

theorem keysIn_not_mem {α : Type} (al : Int → String)
    (hal : ∀ a b, al a = al b → a = b) (lo hi n : Int) (m : GoMap α)
    (hm : KeysIn al lo hi m) (hn : hi ≤ n) : al n ∉ m.map Prod.fst := by
  intro hk
  obtain ⟨j, _, h2, h3⟩ := hm _ hk
  have := hal _ _ h3
  omega

theorem aliased_nodup {α : Type} (al : Int → String)
    (hal : ∀ a b, al a = al b → a = b) (xs : List α) :
    ∀ n, ((aliased al xs n).map Prod.fst).Nodup := by
  induction xs with
  | nil => exact fun _ => List.nodup_nil
  | cons x xs ih =>
    intro n
    simp only [aliased, List.map_cons, List.nodup_cons]
    refine ⟨fun hk => ?_, ih (n + 1)⟩
    obtain ⟨j, h1, _, h3⟩ := aliased_keysIn al xs (n + 1) _ hk
    have := hal _ _ h3
    omega

theorem keysIn_append {α : Type} (al : Int → String) (lo mid hi : Int) (m l : GoMap α)
    (hm : KeysIn al lo mid m) (hl : KeysIn al mid hi l) (h1 : lo ≤ mid) (h2 : mid ≤ hi) :
    KeysIn al lo hi (m ++ l) := by
  intro k hk
  rw [List.map_append, List.mem_append] at hk
  rcases hk with hk | hk
  · obtain ⟨j, a, b, c⟩ := hm k hk
    exact ⟨j, a, by omega, c⟩
  · obtain ⟨j, a, b, c⟩ := hl k hk
    exact ⟨j, by omega, b, c⟩

/-- Writing aliases of numbers from `n` on into a table whose keys are aliases
of smaller numbers adds them at the end. -/
theorem fold_aliased {α : Type} (al : Int → String)
    (hal : ∀ a b, al a = al b → a = b) (xs : List α) :
    ∀ (lo n : Int) (m : GoMap α), KeysIn al lo n m → lo ≤ n →
      (aliased al xs n).foldl (fun m e => mapAssign m e.1 e.2) m = m ++ aliased al xs n := by
  induction xs with
  | nil => exact fun lo n m _ _ => by simp [aliased]
  | cons x xs ih =>
    intro lo n m hm hlo
    simp only [aliased, List.foldl_cons]
    rw [mapAssign_new m (al n) x (keysIn_not_mem al hal lo n n m hm (le_refl n)),
      ih lo (n + 1) (m ++ [(al n, x)])
        (keysIn_append al lo n (n + 1) m [(al n, x)] hm
          (fun k hk => ⟨n, le_refl n, by omega, by simpa using hk⟩) hlo (by omega)) (by omega)]
    simp

theorem nodup_append_aliased {α : Type} (al : Int → String)
    (hal : ∀ a b, al a = al b → a = b) (xs : List α) (lo n : Int) (m : GoMap α)
    (hm : KeysIn al lo n m) (hnd : (m.map Prod.fst).Nodup) :
    ((m ++ aliased al xs n).map Prod.fst).Nodup := by
  rw [List.map_append]
  refine List.Nodup.append hnd (aliased_nodup al hal xs n) ?_
  intro k hk1 hk2
  obtain ⟨j, _, h2, h3⟩ := hm k hk1
  obtain ⟨j', h1', _, h3'⟩ := aliased_keysIn al xs n k hk2
  have := hal _ _ (h3.symm.trans h3')
  omega

theorem bindNames_eq_fold (conds : List RequestCondition) :
    ∀ (n : Int) (names : GoMap String),
      bindNames conds n names =
        (namesFrom conds n).foldl (fun m e => mapAssign m e.1 e.2) names := by
  induction conds with
  | nil => exact fun _ _ => rfl
  | cons c rest ih =>
    intro n names
    simp only [bindNames, namesFrom, List.map_cons, aliased, List.foldl_cons]
    exact ih (n + 1) _

theorem bindValues_eq_fold (conds : List RequestCondition) :
    ∀ (v : Int) (vals : ExprValues),
      bindValues conds v vals =
        (valuesFrom conds v).foldl (fun m e => mapAssign m e.1 e.2) vals := by
  induction conds with
  | nil => exact fun _ _ => rfl
  | cons c rest ih =>
    intro v vals
    cases hcv : c.carriesValue
    · simp only [bindValues, valuesFrom, hcv, List.filter_cons, Bool.false_eq_true, if_false]
      exact ih v vals
    · simp only [bindValues, valuesFrom, hcv, List.filter_cons, if_true, List.map_cons, aliased,
        List.foldl_cons]
      exact ih (v + 1) _

theorem condLoop_exprFrom (conds : List RequestCondition)
    (h : ∀ c ∈ conds, c.typeCorrect = true) :
    ∀ (i : Nat) (exp : String) (valI valN : Int) (vals : ExprValues) (names : GoMap String),
      0 < i → exp ≠ "" →
      condLoop conds i exp valI valN vals names =
        some ⟨.ok (exp ++ exprTailFrom conds valN valI), bindValues conds valI vals,
          bindNames conds valN names⟩ := by
  induction conds with
  | nil =>
    intro i exp valI valN vals names _ _
    unfold condLoop exprTailFrom bindValues bindNames
    rw [String.append_empty]
  | cons c rest ih =>
    intro i exp valI valN vals names hi hexp
    have hc := h c (List.mem_cons_self _ _)
    rw [condLoop_step c rest i exp valI valN vals names hc, if_pos hexp,
      ih (fun d hd => h d (List.mem_cons_of_mem _ hd)) _ _ _ _ _ _ (Nat.succ_pos i)
        (append_ne_empty _ _ (termOf_ne_empty c valN valI))]
    by_cases hr : c.Relationship ≠ -1
    · rw [if_pos ⟨hi, hr⟩]
      cases hcv : c.carriesValue <;>
        simp [exprTailFrom, joinerOf, bindValues, bindNames, hcv, hr, String.append_assoc]
    · rw [if_neg (fun hh : 0 < i ∧ c.Relationship ≠ -1 => hr hh.2)]
      cases hcv : c.carriesValue <;>
        simp [exprTailFrom, joinerOf, bindValues, bindNames, hcv, hr, String.append_assoc]

/-- The compile of a type-correct list, from any tables. -/
theorem buildConditionExpression_typeCorrect (conds : List RequestCondition)
    (vals : ExprValues) (names : GoMap String) (h : ∀ c ∈ conds, c.typeCorrect = true) :
    buildConditionExpression conds vals names =
      some ⟨.ok (exprFrom conds names.length vals.length),
        bindValues conds vals.length vals, bindNames conds names.length names⟩ := by
  unfold buildConditionExpression
  cases conds with
  | nil => rfl
  | cons c0 rest =>
    rw [condLoop_step c0 rest 0 "" _ _ vals names (h c0 (List.mem_cons_self _ _)),
      if_neg (fun hh : 0 < 0 ∧ c0.Relationship ≠ -1 => absurd hh.1 (lt_irrefl 0)),
      if_neg (fun hh : "" ≠ "" => hh rfl), String.empty_append,
      condLoop_exprFrom rest (fun d hd => h d (List.mem_cons_of_mem _ hd)) _ _ _ _ _ _
        (Nat.succ_pos 0) (termOf_ne_empty c0 _ _)]
    cases hcv : c0.carriesValue <;>
      simp [exprFrom, bindValues, bindNames, hcv]

theorem keysIn_nil {α : Type} (al : Int → String) (lo hi : Int) :
    KeysIn al lo hi ([] : GoMap α) :=
  fun k hk => by simp at hk

/-- C22: for all type-correct condition lists `A` and `B`, compiling `A` from
empty alias tables and then `B` into the tables the first compile left, as
`queryPages` does, both compiles return an expression, and the second one
overwrites no alias of the first: the tables of the first compile are kept as
the front of the tables afterwards and all keys are distinct.  Afterwards the
name table has `|A| + |B|` entries and the value table one entry per
value-carrying condition of `A` and `B`, and the expression of `B` is written
over the aliases minted by the second compile: the name aliases from number
`|A|` on and the value aliases from the number of values of `A` on. -/
theorem buildConditionExpression_disjoint (A B : List RequestCondition)
    (hA : ∀ c ∈ A, c.typeCorrect = true) (hB : ∀ c ∈ B, c.typeCorrect = true) :
    buildConditionExpression A [] [] =
        some ⟨.ok (exprFrom A 0 0), valuesFrom A 0, namesFrom A 0⟩ ∧
      buildConditionExpression B (valuesFrom A 0) (namesFrom A 0) =
        some ⟨.ok (exprFrom B A.length (valueCount A)),
          valuesFrom A 0 ++ valuesFrom B (valueCount A),
          namesFrom A 0 ++ namesFrom B A.length⟩ ∧
      ((namesFrom A 0 ++ namesFrom B A.length).map Prod.fst).Nodup ∧
      ((valuesFrom A 0 ++ valuesFrom B (valueCount A)).map Prod.fst).Nodup ∧
      (namesFrom A 0 ++ namesFrom B A.length).length = A.length + B.length ∧
      (valuesFrom A 0 ++ valuesFrom B (valueCount A)).length = valueCount A + valueCount B := by
  have hnA : (namesFrom A 0).length = A.length := by
    unfold namesFrom
    rw [aliased_length, List.length_map]
  have hvA : (valuesFrom A 0).length = valueCount A := by
    unfold valuesFrom valueCount
    rw [aliased_length, List.length_map]
  have hnB : (namesFrom B A.length).length = B.length := by
    unfold namesFrom
    rw [aliased_length, List.length_map]
  have hvB : (valuesFrom B (valueCount A)).length = valueCount B := by
    unfold valuesFrom valueCount
    rw [aliased_length, List.length_map]
  have kA : KeysIn nameAlias 0 A.length (namesFrom A 0) := by
    have := aliased_keysIn nameAlias (A.map (fun c => c.Field)) 0
    rw [List.length_map, zero_add] at this
    exact this
  have kV : KeysIn valueAlias 0 (valueCount A) (valuesFrom A 0) := by
    have := aliased_keysIn valueAlias
      ((A.filter (fun c => c.carriesValue)).map (fun c => boundValue c.Value)) 0
    rw [List.length_map, zero_add] at this
    exact this
  refine ⟨?_, ?_, ?_, ?_, ?_, ?_⟩
  · rw [buildConditionExpression_typeCorrect A [] [] hA, bindNames_eq_fold, bindValues_eq_fold]
    simp only [List.length_nil, Nat.cast_zero]
    rw [namesFrom, valuesFrom,
      fold_aliased nameAlias nameAlias_injective _ 0 0 [] (keysIn_nil _ _ _) (le_refl 0),
      fold_aliased valueAlias valueAlias_injective _ 0 0 [] (keysIn_nil _ _ _) (le_refl 0)]
    rfl
  · rw [buildConditionExpression_typeCorrect B _ _ hB, bindNames_eq_fold, bindValues_eq_fold,
      hnA, hvA]
    unfold namesFrom at kA
    unfold valuesFrom at kV
    unfold namesFrom valuesFrom
    rw [fold_aliased nameAlias nameAlias_injective _ 0 A.length _ kA (by omega),
      fold_aliased valueAlias valueAlias_injective _ 0 (valueCount A) _ kV (by omega)]
  · exact nodup_append_aliased nameAlias nameAlias_injective _ 0 A.length _ kA
      (aliased_nodup nameAlias nameAlias_injective _ 0)
  · exact nodup_append_aliased valueAlias valueAlias_injective _ 0 (valueCount A) _ kV
      (aliased_nodup valueAlias valueAlias_injective _ 0)
  · rw [List.length_append, hnA, hnB]
  · rw [List.length_append, hvA, hvB]

/-- Witness of C22: the key conditions of the test followed by a filter of two
conditions: the filter is written over `#ename2`, `#ename3` and `:val2`. -/
theorem buildConditionExpression_disjoint_witness :
    buildConditionExpression testConditions [] [] =
        some ⟨.ok "#ename0 > :val0 AND begins_with(#ename1, :val1)",
          [(":val0", some (AttributeValue.ofN "42")), (":val1", some (AttributeValue.ofS "amd"))],
          [("#ename0", "test4"), ("#ename1", "test5")]⟩ ∧
      buildConditionExpression testFilter
          [(":val0", some (AttributeValue.ofN "42")), (":val1", some (AttributeValue.ofS "amd"))]
          [("#ename0", "test4"), ("#ename1", "test5")] =
        some ⟨.ok "#ename2 = :val2 OR attribute_exists(#ename3)",
          [(":val0", some (AttributeValue.ofN "42")), (":val1", some (AttributeValue.ofS "amd")),
           (":val2", some (AttributeValue.ofS "open"))],
          [("#ename0", "test4"), ("#ename1", "test5"), ("#ename2", "status"),
           ("#ename3", "owner")]⟩ :=
  ⟨(buildConditionExpression_disjoint testConditions testFilter (by decide) (by decide)).1,
    (buildConditionExpression_disjoint testConditions testFilter (by decide) (by decide)).2.1⟩

theorem condLoop_other (c : RequestCondition) (rest : List RequestCondition) (i : Nat)
    (exp : String) (valI valN : Int) (vals : ExprValues) (names : GoMap String)
    (h0 : ¬ c.Kind = Condition.Exist) (h1 : ¬ c.Kind = Condition.NotExist)
    (h2 : ¬ c.Kind = Condition.GreaterThan) (h3 : ¬ c.Kind = Condition.LessThan)
    (h4 : ¬ c.Kind = Condition.Equal) (h5 : ¬ c.Kind = Condition.BeginsWith) :
    condLoop (c :: rest) i exp valI valN vals names =
      some ⟨.error "Unknown request condition", vals,
        mapAssign names (nameAlias valN) c.Field⟩ := by
  unfold condLoop
  simp only [if_neg h0, if_neg h1, if_neg h2, if_neg h3, if_neg h4, if_neg h5, nameAlias]

/-- A condition that fails the type check of its kind, an Equal condition
without a value apart, ends the compile with an error. -/
theorem condLoop_typeError (c : RequestCondition) (rest : List RequestCondition) (i : Nat)
    (exp : String) (valI valN : Int) (vals : ExprValues) (names : GoMap String)
    (hc : c.typeCorrect = false)
    (hn : ¬ (c.Kind = Condition.Equal ∧ c.Value.isNil = true)) :
    ∃ err, condLoop (c :: rest) i exp valI valN vals names =
      some ⟨.error err, vals, mapAssign names (nameAlias valN) c.Field⟩ := by
  by_cases h0 : c.Kind = Condition.Exist
  · simp [RequestCondition.typeCorrect, h0] at hc
  by_cases h1 : c.Kind = Condition.NotExist
  · simp [RequestCondition.typeCorrect, h1] at hc
  by_cases h2 : c.Kind = Condition.GreaterThan
  · obtain ⟨f, k, r, v⟩ := c
    dsimp only at h2
    subst h2
    cases v <;>
      simp [RequestCondition.typeCorrect, Condition.Exist, Condition.NotExist,
        Condition.GreaterThan, Condition.LessThan, Condition.Equal, Condition.BeginsWith] at hc <;>
      exact ⟨_, rfl⟩
  by_cases h3 : c.Kind = Condition.LessThan
  · obtain ⟨f, k, r, v⟩ := c
    dsimp only at h3
    subst h3
    cases v <;>
      simp [RequestCondition.typeCorrect, Condition.Exist, Condition.NotExist,
        Condition.GreaterThan, Condition.LessThan, Condition.Equal, Condition.BeginsWith] at hc <;>
      exact ⟨_, rfl⟩
  by_cases h4 : c.Kind = Condition.Equal
  · obtain ⟨f, k, r, v⟩ := c
    dsimp only at h4 hn
    subst h4
    cases v <;>
      simp [RequestCondition.typeCorrect, Value.isNil, Condition.Exist, Condition.NotExist,
        Condition.GreaterThan, Condition.LessThan, Condition.Equal, Condition.BeginsWith]
        at hc hn <;>
      exact ⟨_, rfl⟩
  by_cases h5 : c.Kind = Condition.BeginsWith
  · obtain ⟨f, k, r, v⟩ := c
    dsimp only at h5
    subst h5
    cases v <;>
      simp [RequestCondition.typeCorrect, Condition.Exist, Condition.NotExist,
        Condition.GreaterThan, Condition.LessThan, Condition.Equal, Condition.BeginsWith] at hc <;>
      exact ⟨_, rfl⟩
  exact ⟨_, condLoop_other c rest i exp valI valN vals names h0 h1 h2 h3 h4 h5⟩

theorem buildConditionExpression_typeError (pre : List RequestCondition) (c : RequestCondition)
    (rest : List RequestCondition) (vals : ExprValues) (names : GoMap String)
    (hpre : ∀ d ∈ pre, d.typeCorrect = true) (hc : c.typeCorrect = false)
    (hn : ¬ (c.Kind = Condition.Equal ∧ c.Value.isNil = true)) :
    ∃ err vals' names', buildConditionExpression (pre ++ c :: rest) vals names =
      some ⟨.error err, vals', names'⟩ := by
  unfold buildConditionExpression
  obtain ⟨exp', valI', vals', hh⟩ := condLoop_past pre (c :: rest) hpre 0 "" vals.length
    names.length vals names
  obtain ⟨err, he⟩ := condLoop_typeError c rest (0 + pre.length) exp' valI'
    (names.length + pre.length) vals' (bindNames pre names.length names) hc hn
  rw [hh, he]
  exact ⟨_, _, _, rfl⟩

/-- A Put whose conditions do not compile returns an error before any
backend call, when the key can be merged into the item. -/
theorem put_condition_error {σ : Type} (cd : Codec) (db : DBer σ) (r : Request) (s : σ)
    (item : Option (GoMap Value)) (err : String) (vals : ExprValues) (names : GoMap String)
    (hm : mergeKey r.Key r.Item = some item)
    (hb : buildConditionExpression r.RequestConditions [] [] = some ⟨.error err, vals, names⟩) :
    ∃ e, put cd db r s = some (item, .error e, s) := by
  unfold put putInput
  rw [hm]
  dsimp only
  cases hmi : marshalItems cd (nilMapEntries item) with
  | error e => exact ⟨_, rfl⟩
  | ok av =>
    dsimp only
    rw [hb]
    exact ⟨_, rfl⟩

/-- A Query whose key conditions do not compile returns an error before any
backend call. -/
theorem query_condition_error {σ : Type} (cd : Codec) (db : DBer σ) (r : Request) (s : σ)
    (err : String) (vals : ExprValues) (names : GoMap String)
    (hb : buildConditionExpression r.RequestConditions [] [] = some ⟨.error err, vals, names⟩) :
    ∃ e, query cd db r s = some (.error e, s) := by
  unfold query queryInput
  rw [hb]
  exact ⟨_, rfl⟩

/-- C23 at the failing input: a Put and a Query whose only condition is an
Equal condition without a value panic in the condition compiler, so they
return neither a result nor an error.  The Put whose condition is a
GreaterThan with a string returns an error and the backend sees no call, and
so does every Put (whose key can be merged into its item) and every Query in
whose conditions the first one that fails its type check is not an Equal
condition without a value. -/
theorem put_query_equal_nil_panics :
    put exampleCodec (traced (pagedBackend [])) equalNilPut ((), []) = none ∧
      query exampleCodec (traced (pagedBackend [])) equalNilQuery ((), []) = none ∧
      put exampleCodec (traced (pagedBackend [])) badConditionPut ((), []) =
        some (some [("field1", .str "value1"), ("id", .str "1")],
          .error ("Could not put item in the db [Invalid request condition: " ++
            "GreaterThan condition value must be an int]"), ((), [])) ∧
      ∀ (σ : Type) (cd : Codec) (db : DBer σ) (r : Request) (s : σ) (tr : List Call)
        (pre : List RequestCondition) (c : RequestCondition) (rest : List RequestCondition),
        r.RequestConditions = pre ++ c :: rest → (∀ d ∈ pre, d.typeCorrect = true) →
        c.typeCorrect = false → ¬ (c.Kind = Condition.Equal ∧ c.Value.isNil = true) →
        (∀ item, mergeKey r.Key r.Item = some item →
          ∃ e, put cd (traced db) r (s, tr) = some (item, .error e, (s, tr))) ∧
        ∃ e, query cd (traced db) r (s, tr) = some (.error e, (s, tr)) := by
  refine ⟨rfl, rfl, rfl, ?_⟩
  intro σ cd db r s tr pre c rest hr hpre hc hn
  obtain ⟨err, vals', names', hb⟩ := buildConditionExpression_typeError pre c rest [] [] hpre hc hn
  rw [← hr] at hb
  exact ⟨fun item hm => put_condition_error cd (traced db) r (s, tr) item err vals' names' hm hb,
    query_condition_error cd (traced db) r (s, tr) err vals' names' hb⟩

/-! ## parseUpdateKey -/

theorem string_append_eq_empty (s t : String) (h : s ++ t = "") : s = "" ∧ t = "" := by
  have hl : (s ++ t).length = 0 := by rw [h]; rfl
  rw [String.length_append] at hl
  have hs : s.length = 0 := by omega
  have ht : t.length = 0 := by omega
  exact ⟨String.ext (List.length_eq_zero.mp hs), String.ext (List.length_eq_zero.mp ht)⟩

theorem segmentAlias_injective (x a b : Int) (h : segmentAlias x a = segmentAlias x b) :
    a = b :=
  Itoa_injective a b (string_append_left_cancel _ _ _ h)

theorem keysIn_mono {α : Type} (al : Int → String) (lo hi hi' : Int) (m : GoMap α)
    (hm : KeysIn al lo hi m) (h : hi ≤ hi') : KeysIn al lo hi' m := by
  intro k hk
  obtain ⟨j, a, b, c⟩ := hm k hk
  exact ⟨j, a, by omega, c⟩

theorem segmentAliases_keysIn (x : Int) (segs : List String) :
    ∀ i : Nat, KeysIn (segmentAlias x) i (i + segs.length) (segmentAliases x segs i) := by
  induction segs with
  | nil => exact fun i k hk => by simp [segmentAliases] at hk
  | cons seg rest ih =>
    intro i k hk
    have hrest : ∀ k ∈ (segmentAliases x rest (i + 1)).map Prod.fst,
        ∃ j, (i : Int) ≤ j ∧ j < i + ((seg :: rest).length : Nat) ∧ k = segmentAlias x j := by
      intro k hk
      obtain ⟨j, h1, h2, h3⟩ := ih (i + 1) k hk
      refine ⟨j, ?_, ?_, h3⟩
      · push_cast at h1; omega
      · simp only [List.length_cons]; push_cast at h2 ⊢; omega
    unfold segmentAliases at hk
    by_cases hn : isNamed seg = true
    · rw [if_pos hn] at hk
      simp only [List.map_cons, List.mem_cons] at hk
      rcases hk with hk | hk
      · exact ⟨i, le_refl _, by simp only [List.length_cons]; push_cast; omega, hk⟩
      · exact hrest k hk
    · rw [if_neg hn] at hk
      exact hrest k hk

theorem segmentAliases_nodup (x : Int) (segs : List String) :
    ∀ i : Nat, ((segmentAliases x segs i).map Prod.fst).Nodup := by
  induction segs with
  | nil => exact fun _ => List.nodup_nil
  | cons seg rest ih =>
    intro i
    unfold segmentAliases
    by_cases hn : isNamed seg = true
    · rw [if_pos hn]
      simp only [List.map_cons, List.nodup_cons]
      refine ⟨fun hk => ?_, ih (i + 1)⟩
      obtain ⟨j, h1, _, h3⟩ := segmentAliases_keysIn x rest (i + 1) _ hk
      have := segmentAlias_injective x _ _ h3
      push_cast at h1
      omega
    · rw [if_neg hn]
      exact ih (i + 1)

theorem segmentAliases_length (x : Int) (segs : List String) :
    ∀ i : Nat, (segmentAliases x segs i).length = segs.countP isNamed := by
  induction segs with
  | nil => exact fun _ => rfl
  | cons seg rest ih =>
    intro i
    unfold segmentAliases
    by_cases hn : isNamed seg = true
    · rw [if_pos hn, List.countP_cons_of_pos _ _ hn, List.length_cons, ih]
    · rw [if_neg hn, List.countP_cons_of_neg _ _ hn, ih]

theorem segmentAliases_values (x : Int) (segs : List String) :
    ∀ i : Nat, (segmentAliases x segs i).map Prod.snd = segs.filter isNamed := by
  induction segs with
  | nil => exact fun _ => rfl
  | cons seg rest ih =>
    intro i
    unfold segmentAliases
    by_cases hn : isNamed seg = true
    · rw [if_pos hn, List.filter_cons_of_pos hn, List.map_cons, ih]
    · rw [if_neg hn, List.filter_cons_of_neg hn, ih]

theorem parseLoop_spec (x : Int) (segs : List String) :
    ∀ (i : Nat) (final : String) (names : GoMap String),
      (final = "" ↔ i = 0) → KeysIn (segmentAlias x) 0 i names →
      parseLoop (Itoa x) segs i final names =
        (final ++ piecesFrom x segs i, names ++ segmentAliases x segs i) := by
  induction segs with
  | nil =>
    intro i final names _ _
    unfold parseLoop piecesFrom segmentAliases
    rw [String.append_empty, List.append_nil]
  | cons seg rest ih =>
    intro i final names hfi hk
    have hk' : KeysIn (segmentAlias x) 0 ((i + 1 : Nat) : Int) names :=
      keysIn_mono _ 0 i _ names hk (by push_cast; omega)
    have hi1 : ¬ (i + 1 = 0) := Nat.succ_ne_zero i
    unfold parseLoop piecesFrom segmentAliases pieceOf isNamed
    by_cases ha : atoiOk seg = true
    · rw [if_pos ha, if_pos ha]
      simp only [ha, Bool.not_true, Bool.false_and, Bool.false_eq_true, if_false]
      rw [ih (i + 1) _ names
        (Iff.intro (fun h => absurd (string_append_eq_empty _ _ h).2 (by decide))
          (fun h => absurd h hi1)) hk']
      simp only [String.append_assoc]
    · rw [if_neg ha, if_neg ha]
      have ha' : atoiOk seg = false := by simpa using ha
      by_cases hm : seg = "-"
      · subst hm
        simp only [ha', Bool.not_false, Bool.true_and, decide_True, Bool.not_true,
          Bool.false_eq_true, if_false, if_true]
        by_cases hf : final = ""
        · have h0 : i = 0 := hfi.mp hf
          subst h0
          subst hf
          rw [if_pos rfl, if_pos rfl]
          rw [ih 1 _ names
            (Iff.intro (fun h => absurd (string_append_eq_empty _ _ h).2 (by decide))
              (fun h => absurd h (by decide))) hk']
          simp only [String.append_assoc, String.empty_append, zero_add]
        · have h0 : ¬ i = 0 := fun h => hf (hfi.mpr h)
          rw [if_neg hf, if_neg h0]
          rw [ih (i + 1) _ names
            (Iff.intro (fun h => absurd (string_append_eq_empty _ _ h).2 (by decide))
              (fun h => absurd h hi1)) hk']
          simp only [String.append_assoc, String.empty_append, zero_add]
      · simp only [ha', hm, Bool.not_false, Bool.true_and, decide_False, if_true, if_false]
        have hnew : mapAssign names ("#" ++ Itoa x ++ "ename" ++ Itoa i) seg =
            names ++ [(segmentAlias x i, seg)] :=
          mapAssign_new names _ seg
            (keysIn_not_mem (segmentAlias x) (segmentAlias_injective x) 0 i i names hk
              (le_refl _))
        have hk2 : KeysIn (segmentAlias x) 0 ((i + 1 : Nat) : Int)
            (names ++ [(segmentAlias x i, seg)]) :=
          keysIn_append _ 0 i _ names _ hk
            (fun k hk => ⟨i, le_refl _, by push_cast; omega, by simpa using hk⟩)
            (by omega) (by push_cast; omega)
        have hne : segmentAlias x i ≠ "" := fun h =>
          absurd (string_append_eq_empty _ _ (string_append_eq_empty _ _ h).1).2 (by decide)
        rw [hnew, show ("#" ++ Itoa x ++ "ename" ++ Itoa (i : Int)) = segmentAlias x i from rfl]
        by_cases hf : final = ""
        · have h0 : i = 0 := hfi.mp hf
          subst h0
          subst hf
          rw [if_pos rfl, if_pos rfl]
          rw [ih 1 _ _
            (Iff.intro (fun h => absurd (string_append_eq_empty _ _ h).2 hne)
              (fun h => absurd h (by decide))) hk2]
          simp only [String.append_assoc, List.append_assoc, List.singleton_append,
            String.empty_append, zero_add]
        · have h0 : ¬ i = 0 := fun h => hf (hfi.mpr h)
          rw [if_neg hf, if_neg h0]
          rw [ih (i + 1) _ _
            (Iff.intro (fun h => absurd (string_append_eq_empty _ _ h).2 hne)
              (fun h => absurd h hi1)) hk2]
          simp only [String.append_assoc, List.append_assoc, List.singleton_append]

theorem parseUpdateKey_eq (key : String) (x : Int) :
    parseUpdateKey key x =
      (piecesFrom x (segmentsOf key) 0, segmentAliases x (segmentsOf key) 0) := by
  unfold parseUpdateKey segmentsOf
  rw [parseLoop_spec x _ 0 "" [] (Iff.intro (fun _ => rfl) (fun _ => rfl)) (keysIn_nil _ _ _),
    String.empty_append, List.nil_append]

/-- C24: for every path and every index `x`, `parseUpdateKey` walks the
segments after the first from left to right: a segment that parses as an
integer is appended as `[segment]` directly to the text so far; every other
segment except the marker `-` is written as the alias `#<x>ename<i>` of its
position `i`, and it and the marker follow a dot unless they come first.  The
alias table has exactly one entry per segment that is neither an integer nor
the marker, binding its alias to its text, all aliases being distinct.  The
path `/path/0/in/another/3/list` with `x = 1` gives
`#1ename0[0].#1ename2.#1ename3[3].#1ename5` and four aliases. -/
theorem parseUpdateKey_spec :
    (∀ (key : String) (x : Int),
      parseUpdateKey key x =
          (piecesFrom x (segmentsOf key) 0, segmentAliases x (segmentsOf key) 0) ∧
        ((parseUpdateKey key x).2.map Prod.fst).Nodup ∧
        (parseUpdateKey key x).2.length = (segmentsOf key).countP isNamed ∧
        (parseUpdateKey key x).2.map Prod.snd = (segmentsOf key).filter isNamed) ∧
      parseUpdateKey "/path/0/in/another/3/list" 1 =
        ("#1ename0[0].#1ename2.#1ename3[3].#1ename5",
          [("#1ename0", "path"), ("#1ename2", "in"), ("#1ename3", "another"),
           ("#1ename5", "list")]) ∧
      parseUpdateKey "/list/-" 0 = ("#0ename0.-", [("#0ename0", "list")]) := by
  refine ⟨fun key x => ?_, by decide, by decide⟩
  rw [parseUpdateKey_eq]
  exact ⟨rfl, segmentAliases_nodup x _ 0, segmentAliases_length x _ 0,
    segmentAliases_values x _ 0⟩

/-! ## buildUpdateExpression -/

theorem piecesFrom_append (x : Int) (a b : List String) :
    ∀ i : Nat, piecesFrom x (a ++ b) i = piecesFrom x a i ++ piecesFrom x b (i + a.length) := by
  induction a with
  | nil => exact fun i => by simp [piecesFrom]
  | cons s a ih =>
    intro i
    have e : i + 1 + a.length = i + (a.length + 1) := by omega
    show pieceOf x i s ++ piecesFrom x (a ++ b) (i + 1) =
      (pieceOf x i s ++ piecesFrom x a (i + 1)) ++ piecesFrom x b (i + (a.length + 1))
    rw [ih, String.append_assoc, e]

theorem piecesFrom_snoc (x : Int) (init : List String) (l : String) :
    piecesFrom x (init ++ [l]) 0 = piecesFrom x init 0 ++ pieceOf x init.length l := by
  rw [piecesFrom_append, zero_add]
  simp [piecesFrom]

theorem pieceOf_marker (x : Int) (i : Nat) :
    pieceOf x i "-" = (if i = 0 then "" else ".") ++ "-" := by
  unfold pieceOf
  rw [if_neg (by decide), if_pos rfl]

theorem digit_ne_marker (d : Char) (h : d.isDigit = true) : d ≠ '-' := by
  intro e
  rw [e] at h
  exact absurd h (by decide)

/-- The piece of a segment other than the marker does not end with `-`. -/
theorem pieceOf_last (x : Int) (i : Nat) (l : String) (h : l ≠ "-") :
    ∃ d, (pieceOf x i l).data.getLast? = some d ∧ d ≠ '-' := by
  unfold pieceOf
  by_cases ha : atoiOk l = true
  · rw [if_pos ha]
    refine ⟨']', ?_, by decide⟩
    rw [String.data_append]
    exact List.getLast?_concat _
  · rw [if_neg ha, if_neg h]
    have hne := Itoa_ne_empty (i : Int)
    have hd : ((if i = 0 then "" else ".") ++ segmentAlias x i).data =
        ((if i = 0 then "" else ".") ++ ("#" ++ Itoa x ++ "ename")).data ++ (Itoa (i : Int)).data := by
      unfold segmentAlias
      simp only [String.data_append, List.append_assoc]
    rw [hd, List.getLast?_append_of_ne_nil _ hne, List.getLast?_eq_getLast _ hne]
    refine ⟨_, rfl, digit_ne_marker _ ?_⟩
    have hmem := List.getLast_mem hne
    exact (repr_spec i).2.2 _ hmem

theorem piece_data_ne_nil (x : Int) (i : Nat) (l : String) : (pieceOf x i l).data ≠ [] := by
  by_cases h : l = "-"
  · subst h
    rw [pieceOf_marker, String.data_append]
    simp
  · obtain ⟨d, hd, _⟩ := pieceOf_last x i l h
    intro e
    rw [e] at hd
    cases hd

/-- The translated path of segments that end with the marker after at least
one other segment: the translated parent path followed by `.-`. -/
theorem pieces_marker (x : Int) (segs : List String) (h : segs.getLast? = some "-")
    (h1 : segs ≠ ["-"]) :
    (piecesFrom x segs 0).data = (piecesFrom x segs.dropLast 0).data ++ ['.', '-'] := by
  rcases List.eq_nil_or_concat segs with hnil | ⟨init, l, hl⟩
  · rw [hnil] at h
    cases h
  · rw [List.concat_eq_append] at hl
    subst hl
    rw [List.getLast?_concat] at h
    cases h
    have hne : init ≠ [] := fun e => h1 (by rw [e]; rfl)
    have hlen : ¬ init.length = 0 := fun e => hne (List.length_eq_zero.mp e)
    rw [List.dropLast_concat, piecesFrom_snoc, pieceOf_marker, if_neg hlen, String.data_append]
    rfl

theorem pieces_not_marker (x : Int) (segs : List String) (h0 : segs ≠ [])
    (h : segs.getLast? ≠ some "-") :
    ∃ d, (piecesFrom x segs 0).data.getLast? = some d ∧ d ≠ '-' := by
  rcases List.eq_nil_or_concat segs with hnil | ⟨init, l, hl⟩
  · exact absurd hnil h0
  · rw [List.concat_eq_append] at hl
    subst hl
    rw [List.getLast?_concat] at h
    have hl : l ≠ "-" := fun e => h (by rw [e])
    obtain ⟨d, hd, hne⟩ := pieceOf_last x init.length l hl
    refine ⟨d, ?_, hne⟩
    rw [piecesFrom_snoc, String.data_append,
      List.getLast?_append_of_ne_nil _ (piece_data_ne_nil x init.length l), hd]

/-- A Put or Update item whose value cannot be marshalled ends the loop with
an error. -/
theorem updLoop_set_error (cd : Codec) (v : UpdateValue) (rest : List UpdateValue)
    (SET REMOVE : String) (i n : Int) (vals : ExprValues) (names : GoMap String) (err : String)
    (hact : v.Action = Action.Put ∨ v.Action = Action.Update)
    (hm : marshalItems cd [((parseUpdateKey v.Path n).1, v.Value)] = .error err) :
    updLoop cd (v :: rest) SET REMOVE i n vals names =
      some ⟨.error ("Unable to marshal item: " ++ err), vals,
        (parseUpdateKey v.Path n).2.foldl (fun m e => mapAssign m e.1 e.2) names⟩ := by
  have hnd : ¬ v.Action = Action.Delete := by
    rcases hact with h | h <;> rw [h]
    · exact Action.put_ne_delete
    · exact Action.update_ne_delete
  rw [updLoop]
  simp only [if_neg hnd, if_pos hact, hm]

/-- A Put or Update item whose path has no segment after the first, or the
marker alone, makes the loop panic. -/
theorem updLoop_set_panic (cd : Codec) (v : UpdateValue) (rest : List UpdateValue)
    (SET REMOVE : String) (i n : Int) (vals : ExprValues) (names : GoMap String)
    (val : GoMap AttributeValue)
    (hact : v.Action = Action.Put ∨ v.Action = Action.Update)
    (hm : marshalItems cd [((parseUpdateKey v.Path n).1, v.Value)] = .ok val)
    (hs : segmentsOf v.Path = [] ∨ segmentsOf v.Path = ["-"]) :
    updLoop cd (v :: rest) SET REMOVE i n vals names = none := by
  have hnd : ¬ v.Action = Action.Delete := by
    rcases hact with h | h <;> rw [h]
    · exact Action.put_ne_delete
    · exact Action.update_ne_delete
  have hk : (parseUpdateKey v.Path n).1 = "" ∨ (parseUpdateKey v.Path n).1 = "-" := by
    rw [parseUpdateKey_eq]
    rcases hs with h | h <;> rw [h]
    · exact Or.inl rfl
    · exact Or.inr (by simp only [piecesFrom, pieceOf_marker]; rfl)
  rw [updLoop]
  simp only [if_neg hnd, if_pos hact, hm]
  rcases hk with h | h <;> rw [h] <;> rfl

/-- A Put or Update item that is marshalled and has a path of at least one
segment, not the marker alone, adds its assignment to the SET clause and
binds its value alias. -/
theorem updLoop_set_step (cd : Codec) (v : UpdateValue) (rest : List UpdateValue)
    (SET REMOVE : String) (i n : Int) (vals : ExprValues) (names : GoMap String)
    (val : GoMap AttributeValue)
    (hact : v.Action = Action.Put ∨ v.Action = Action.Update)
    (hm : marshalItems cd [((parseUpdateKey v.Path n).1, v.Value)] = .ok val)
    (h0 : segmentsOf v.Path ≠ []) (h1 : segmentsOf v.Path ≠ ["-"]) :
    updLoop cd (v :: rest) SET REMOVE i n vals names =
      updLoop cd rest
        ((if SET ≠ "" then SET ++ ", " else SET) ++ destinationOf n (segmentsOf v.Path) ++
          " = " ++ valueAlias i)
        REMOVE (i + 1) (n + 1)
        (mapAssign vals (valueAlias i) (mapLookup val (parseUpdateKey v.Path n).1))
        ((parseUpdateKey v.Path n).2.foldl (fun m e => mapAssign m e.1 e.2) names) := by
  have hnd : ¬ v.Action = Action.Delete := by
    rcases hact with h | h <;> rw [h]
    · exact Action.put_ne_delete
    · exact Action.update_ne_delete
  have hk : (parseUpdateKey v.Path n).1 = piecesFrom n (segmentsOf v.Path) 0 := by
    rw [parseUpdateKey_eq]
  rw [updLoop]
  simp only [if_neg hnd, if_pos hact, hm]
  unfold destinationOf valueAlias
  by_cases hl : (segmentsOf v.Path).getLast? = some "-"
  · have hd := pieces_marker n _ hl h1
    rw [← hk] at hd
    have hlast : (parseUpdateKey v.Path n).1.data.getLast? = some '-' := by
      rw [hd, List.getLast?_append_of_ne_nil _ (by simp)]
      rfl
    have hlen : ¬ (parseUpdateKey v.Path n).1.data.length < 2 := by
      rw [hd, List.length_append]
      simp
    have htake : (parseUpdateKey v.Path n).1.data.take
        ((parseUpdateKey v.Path n).1.data.length - 2) =
        (piecesFrom n (segmentsOf v.Path).dropLast 0).data := by
      rw [hd, List.length_append]
      exact List.take_left' (by simp)
    rw [if_pos hl, hlast]
    simp only [if_true, if_neg hlen, htake, String.append_assoc]
  · obtain ⟨d, hd, hne⟩ := pieces_not_marker n _ h0 hl
    rw [← hk] at hd
    rw [if_neg hl, hd]
    simp only [if_neg hne, String.append_assoc, hk]

/-- A Delete item adds its translated path to the REMOVE clause. -/
theorem updLoop_remove_step (cd : Codec) (v : UpdateValue) (rest : List UpdateValue)
    (SET REMOVE : String) (i n : Int) (vals : ExprValues) (names : GoMap String)
    (hact : v.Action = Action.Delete) :
    updLoop cd (v :: rest) SET REMOVE i n vals names =
      updLoop cd rest SET
        ((if REMOVE ≠ "" then REMOVE ++ ", " else REMOVE) ++ piecesFrom n (segmentsOf v.Path) 0)
        (i + 1) (n + 1) vals
        ((parseUpdateKey v.Path n).2.foldl (fun m e => mapAssign m e.1 e.2) names) := by
  have hk : (parseUpdateKey v.Path n).1 = piecesFrom n (segmentsOf v.Path) 0 := by
    rw [parseUpdateKey_eq]
  rw [updLoop]
  simp only [if_pos hact, hk]

/-- An item that is neither a Put, an Update nor a Delete adds nothing to the
expression. -/
theorem updLoop_skip_step (cd : Codec) (v : UpdateValue) (rest : List UpdateValue)
    (SET REMOVE : String) (i n : Int) (vals : ExprValues) (names : GoMap String)
    (h1 : ¬ v.Action = Action.Delete)
    (h2 : ¬ (v.Action = Action.Put ∨ v.Action = Action.Update)) :
    updLoop cd (v :: rest) SET REMOVE i n vals names =
      updLoop cd rest SET REMOVE (i + 1) (n + 1) vals
        ((parseUpdateKey v.Path n).2.foldl (fun m e => mapAssign m e.1 e.2) names) := by
  rw [updLoop]
  simp only [if_neg h1, if_neg h2]

theorem commaJoin_snoc (l : List String) (a : String) (hl : l ≠ []) :
    commaJoin (l ++ [a]) = commaJoin l ++ ", " ++ a := by
  induction l with
  | nil => exact absurd rfl hl
  | cons b rest ih =>
    cases rest with
    | nil => rfl
    | cons c rest =>
      show b ++ ", " ++ commaJoin (c :: rest ++ [a]) =
        b ++ ", " ++ commaJoin (c :: rest) ++ ", " ++ a
      rw [ih (List.cons_ne_nil c rest)]
      simp only [String.append_assoc]

theorem commaJoin_eq_empty (l : List String) (h : ∀ a ∈ l, a ≠ "") :
    commaJoin l = "" ↔ l = [] := by
  constructor
  · intro hj
    cases l with
    | nil => rfl
    | cons b rest =>
      exfalso
      cases rest with
      | nil => exact h b (List.mem_cons_self _ _) hj
      | cons c rest =>
        simp only [commaJoin] at hj
        exact h b (List.mem_cons_self _ _)
          (string_append_eq_empty _ _ (string_append_eq_empty _ _ hj).1).1
  · intro hl
    rw [hl]
    rfl

/-- The step of a clause: a comma and a space after a clause that is not
empty, then the new part. -/
theorem commaJoin_push (l : List String) (a : String) (h : ∀ x ∈ l, x ≠ "") :
    (if commaJoin l ≠ "" then commaJoin l ++ ", " else commaJoin l) ++ a =
      commaJoin (l ++ [a]) := by
  by_cases hl : l = []
  · subst hl
    rw [if_neg (fun hh => hh rfl)]
    exact String.empty_append a
  · rw [if_pos (fun hj => hl ((commaJoin_eq_empty l h).mp hj)), commaJoin_snoc l a hl]

theorem joinClauses_eq (sets rems : List String) (hs : ∀ x ∈ sets, x ≠ "")
    (hr : ∀ x ∈ rems, x ≠ "") :
    joinClauses (commaJoin sets) (commaJoin rems) = halvesOf sets rems := by
  unfold joinClauses halvesOf
  cases sets with
  | nil =>
    cases rems with
    | nil => rfl
    | cons b rest =>
      have hne : commaJoin (b :: rest) ≠ "" := fun hj =>
        List.cons_ne_nil b rest ((commaJoin_eq_empty _ hr).mp hj)
      have he : commaJoin ([] : List String) = "" := rfl
      rw [he]
      simp only [if_pos hne, if_neg (fun hh : "" ≠ "" => hh rfl), String.empty_append]
  | cons a as =>
    have hna : commaJoin (a :: as) ≠ "" := fun hj =>
      List.cons_ne_nil a as ((commaJoin_eq_empty _ hs).mp hj)
    have hset : "SET " ++ commaJoin (a :: as) ≠ "" := fun hj =>
      absurd (string_append_eq_empty _ _ hj).1 (by decide)
    cases rems with
    | nil =>
      have he : commaJoin ([] : List String) = "" := rfl
      rw [he]
      simp only [if_pos hna, if_neg (fun hh : "" ≠ "" => hh rfl)]
    | cons b rest =>
      have hne : commaJoin (b :: rest) ≠ "" := fun hj =>
        List.cons_ne_nil b rest ((commaJoin_eq_empty _ hr).mp hj)
      simp only [if_pos hna, if_pos hne, if_pos hset, String.append_assoc]

theorem piecesFrom_ne_empty (x : Int) (segs : List String) (h : segs ≠ []) :
    piecesFrom x segs 0 ≠ "" := by
  cases segs with
  | nil => exact absurd rfl h
  | cons s rest =>
    intro hj
    unfold piecesFrom at hj
    have := (string_append_eq_empty _ _ hj).1
    exact piece_data_ne_nil x 0 s (by rw [this])

/-- The expression of a call that succeeds, from any state of the loop. -/
theorem updLoop_expr (cd : Codec) (items : List UpdateValue)
    (hdel : ∀ v ∈ items, v.Action = Action.Delete → segmentsOf v.Path ≠ []) :
    ∀ (sAcc rAcc : List String) (i n : Int) (vals : ExprValues) (names : GoMap String)
      (b : Built) (e : String),
      (∀ a ∈ sAcc, a ≠ "") → (∀ a ∈ rAcc, a ≠ "") →
      updLoop cd items (commaJoin sAcc) (commaJoin rAcc) i n vals names = some b →
      b.exp = .ok e →
      e = halvesOf (sAcc ++ assignmentsOf items i n) (rAcc ++ removalsOf items n) := by
  induction items with
  | nil =>
    intro sAcc rAcc i n vals names b e hs hr hrun he
    rw [updLoop] at hrun
    cases hrun
    dsimp only at he
    cases he
    simp only [assignmentsOf, removalsOf, List.append_nil]
    exact joinClauses_eq sAcc rAcc hs hr
  | cons v rest ih =>
    intro sAcc rAcc i n vals names b e hs hr hrun he
    have hdel' : ∀ w ∈ rest, w.Action = Action.Delete → segmentsOf w.Path ≠ [] :=
      fun w hw => hdel w (List.mem_cons_of_mem _ hw)
    by_cases h1 : v.Action = Action.Delete
    · have hnp : ¬ (v.Action = Action.Put ∨ v.Action = Action.Update) := by
        rw [h1]
        decide
      rw [updLoop_remove_step cd v rest _ _ i n vals names h1, commaJoin_push rAcc _ hr] at hrun
      have hk := piecesFrom_ne_empty n _ (hdel v (List.mem_cons_self _ _) h1)
      have := ih hdel' sAcc (rAcc ++ [piecesFrom n (segmentsOf v.Path) 0]) (i + 1) (n + 1) vals _
        b e hs
        (fun a ha => by
          rw [List.mem_append, List.mem_singleton] at ha
          rcases ha with ha | ha
          · exact hr a ha
          · rw [ha]; exact hk) hrun he
      rw [this]
      simp only [assignmentsOf, removalsOf, if_pos h1, if_neg hnp, List.append_assoc,
        List.singleton_append]
    · by_cases h2 : v.Action = Action.Put ∨ v.Action = Action.Update
      · cases hm : marshalItems cd [((parseUpdateKey v.Path n).1, v.Value)] with
        | error err =>
          rw [updLoop_set_error cd v rest _ _ i n vals names err h2 hm] at hrun
          cases hrun
          cases he
        | ok val =>
          by_cases hp : segmentsOf v.Path = [] ∨ segmentsOf v.Path = ["-"]
          · rw [updLoop_set_panic cd v rest _ _ i n vals names val h2 hm hp] at hrun
            cases hrun
          · have h0 : segmentsOf v.Path ≠ [] := fun h => hp (Or.inl h)
            have h1' : segmentsOf v.Path ≠ ["-"] := fun h => hp (Or.inr h)
            rw [updLoop_set_step cd v rest _ _ i n vals names val h2 hm h0 h1'] at hrun
            have hassoc : (if commaJoin sAcc ≠ "" then commaJoin sAcc ++ ", " else commaJoin sAcc) ++
                destinationOf n (segmentsOf v.Path) ++ " = " ++ valueAlias i =
                (if commaJoin sAcc ≠ "" then commaJoin sAcc ++ ", " else commaJoin sAcc) ++
                  (destinationOf n (segmentsOf v.Path) ++ " = " ++ valueAlias i) := by
              simp only [String.append_assoc]
            rw [hassoc, commaJoin_push sAcc _ hs] at hrun
            have hne : destinationOf n (segmentsOf v.Path) ++ " = " ++ valueAlias i ≠ "" :=
              fun hj => absurd (string_append_eq_empty _ _ (string_append_eq_empty _ _ hj).1).2
                (by decide)
            have := ih hdel'
              (sAcc ++ [destinationOf n (segmentsOf v.Path) ++ " = " ++ valueAlias i]) rAcc
              (i + 1) (n + 1) _ _ b e
              (fun a ha => by
                rw [List.mem_append, List.mem_singleton] at ha
                rcases ha with ha | ha
                · exact hs a ha
                · rw [ha]; exact hne) hr hrun he
            rw [this]
            simp only [assignmentsOf, removalsOf, if_pos h2, if_neg h1, List.append_assoc,
              List.singleton_append]
      · rw [updLoop_skip_step cd v rest _ _ i n vals names h1 h2] at hrun
        have := ih hdel' sAcc rAcc (i + 1) (n + 1) vals _ b e hs hr hrun he
        rw [this]
        simp only [assignmentsOf, removalsOf, if_neg h1, if_neg h2]

/-- C25, amended: for every update list on which `buildUpdateExpression`
succeeds and in which the path of every Delete item has a segment after the
first, the expression is `SET ` followed by one assignment
`destination = :valN` per Put or Update item, Put and Update alike,
comma-joined in input order, then `REMOVE ` followed by the translated paths
of the Delete items, comma-joined in input order; the halves are joined by one
space, SET first, and a half without items is left out.  The destination is
the translated path, or for a path that ends with the append marker the list
index described for the marker. -/
theorem buildUpdateExpression_expr (cd : Codec) (items : List UpdateValue) (vals : ExprValues)
    (names : GoMap String) (b : Built) (e : String)
    (hdel : ∀ v ∈ items, v.Action = Action.Delete → segmentsOf v.Path ≠ [])
    (hrun : buildUpdateExpression cd items vals names = some b) (he : b.exp = .ok e) :
    e = halvesOf (assignmentsOf items vals.length names.length)
      (removalsOf items names.length) := by
  unfold buildUpdateExpression at hrun
  have := updLoop_expr cd items hdel [] [] vals.length names.length vals names b e
    (fun a ha => by cases ha) (fun a ha => by cases ha) hrun he
  rw [this, List.nil_append, List.nil_append]

/-- Witness of C25: the single Update of `/name` of the test gives
`SET #0ename0 = :val0`, and the Delete, Put and Update of the other test give
both halves. -/
theorem buildUpdateExpression_expr_witness :
    buildUpdateExpression exampleCodec testUpdates [] [] =
        some ⟨.ok "SET #0ename0 = :val0", [(":val0", some (AttributeValue.ofS "Test"))],
          [("#0ename0", "name")]⟩ ∧
      "SET #0ename0 = :val0" =
        halvesOf (assignmentsOf testUpdates 0 0) (removalsOf testUpdates 0) ∧
      "SET #1ename0 = :val1, #2ename0.#2ename1 = :val2 REMOVE #0ename0[2]" =
        halvesOf (assignmentsOf testUpdateList 0 0) (removalsOf testUpdateList 0) :=
  ⟨rfl,
    buildUpdateExpression_expr exampleCodec testUpdates [] [] _ _ (by decide) rfl rfl,
    buildUpdateExpression_expr exampleCodec testUpdateList [] [] _ _ (by decide) rfl rfl⟩

/-- C25, counterexample: on the single Delete without a path the call succeeds
with the empty expression, where the REMOVE half of one item is `REMOVE `
followed by its (empty) translated path; and a Delete without a path before
another Delete leaves no comma between the two. -/
theorem buildUpdateExpression_empty_delete :
    buildUpdateExpression exampleCodec emptyPathDelete [] [] = some ⟨.ok "", [], []⟩ ∧
      halvesOf (assignmentsOf emptyPathDelete 0 0) (removalsOf emptyPathDelete 0) = "REMOVE " ∧
      buildUpdateExpression exampleCodec
          (emptyPathDelete ++ [{ Action := Action.Delete, Path := "/b" }]) [] [] =
        some ⟨.ok "REMOVE #1ename0", [], [("#1ename0", "b")]⟩ :=
  ⟨rfl, rfl, rfl⟩

/-! ## The aliases of an update list -/

theorem append_cons_unique {α : Type} (c : α) :
    ∀ (A A' r r' : List α), c ∉ A → c ∉ A' → A ++ c :: r = A' ++ c :: r' → A = A' ∧ r = r' := by
  intro A
  induction A with
  | nil =>
    intro A' r r' _ h' h
    cases A' with
    | nil => exact ⟨rfl, by simpa using h⟩
    | cons a' As' =>
      exfalso
      simp only [List.nil_append, List.cons_append, List.cons.injEq] at h
      exact h' (by rw [h.1]; exact List.mem_cons_self _ _)
  | cons a As ih =>
    intro A' r r' hA h' h
    cases A' with
    | nil =>
      exfalso
      simp only [List.nil_append, List.cons_append, List.cons.injEq] at h
      exact hA (by rw [← h.1]; exact List.mem_cons_self _ _)
    | cons a' As' =>
      simp only [List.cons_append, List.cons.injEq] at h
      obtain ⟨h1, h2⟩ := ih As' r r' (fun hm => hA (List.mem_cons_of_mem _ hm))
        (fun hm => h' (List.mem_cons_of_mem _ hm)) h.2
      exact ⟨by rw [h.1, h1], h2⟩

theorem Itoa_no_e (a : Int) : 'e' ∉ (Itoa a).data := by
  intro h
  rcases Itoa_chars a 'e' h with h1 | h1
  · exact absurd h1 (by decide)
  · exact absurd h1 (by decide)

/-- The alias tells the index of the item and the position of the segment. -/
theorem segmentAlias_injective2 (x x' i i' : Int)
    (h : segmentAlias x i = segmentAlias x' i') : x = x' ∧ i = i' := by
  have hd : (segmentAlias x i).data = (segmentAlias x' i').data := by rw [h]
  unfold segmentAlias at hd
  simp only [String.data_append] at hd
  have hd2 : (Itoa x).data ++ 'e' :: ("name".data ++ (Itoa i).data) =
      (Itoa x').data ++ 'e' :: ("name".data ++ (Itoa i').data) := by
    have h3 : "#".data ++ ((Itoa x).data ++ ("ename".data ++ (Itoa i).data)) =
        "#".data ++ ((Itoa x').data ++ ("ename".data ++ (Itoa i').data)) := by
      simpa [List.append_assoc] using hd
    have := List.append_cancel_left h3
    simpa using this
  obtain ⟨h1, h2⟩ := append_cons_unique 'e' _ _ _ _ (Itoa_no_e x) (Itoa_no_e x') hd2
  exact ⟨Itoa_injective _ _ (String.ext h1),
    Itoa_injective _ _ (String.ext (List.append_cancel_left h2))⟩

theorem fold_mapAssign_new {α : Type} (l : GoMap α) :
    ∀ m : GoMap α, (l.map Prod.fst).Nodup → (∀ k ∈ l.map Prod.fst, k ∉ m.map Prod.fst) →
      l.foldl (fun m e => mapAssign m e.1 e.2) m = m ++ l := by
  induction l with
  | nil => exact fun m _ _ => by simp
  | cons kv l ih =>
    intro m hnd hdis
    obtain ⟨k, v⟩ := kv
    simp only [List.map_cons, List.nodup_cons] at hnd
    rw [List.foldl_cons, mapAssign_new m k v (hdis k (by simp)),
      ih (m ++ [(k, v)]) hnd.2 (fun k' hk' hm => by
        rw [List.map_append, List.mem_append] at hm
        rcases hm with hm | hm
        · exact hdis k' (by simp [hk']) hm
        · simp only [List.map_cons, List.map_nil, List.mem_singleton] at hm
          rw [hm] at hk'
          exact hnd.1 hk')]
    simp

theorem segmentAliases_itemKeys (x : Int) (segs : List String) (i : Nat) :
    ItemKeysIn x (x + 1) (segmentAliases x segs i) := by
  intro k hk
  obtain ⟨j, _, _, h⟩ := segmentAliases_keysIn x segs i k hk
  exact ⟨x, j, le_refl x, by omega, h⟩

/-- The aliases of one item are added at the end of a table that holds
aliases of earlier items only. -/
theorem parse_names_fold (path : String) (n lo : Int) (names : GoMap String)
    (hk : ItemKeysIn lo n names) :
    (parseUpdateKey path n).2.foldl (fun m e => mapAssign m e.1 e.2) names =
      names ++ segmentAliases n (segmentsOf path) 0 := by
  rw [parseUpdateKey_eq]
  refine fold_mapAssign_new _ names (segmentAliases_nodup n _ 0) (fun k hk1 hk2 => ?_)
  obtain ⟨j, _, _, h⟩ := segmentAliases_keysIn n (segmentsOf path) 0 k hk1
  obtain ⟨x, i, _, hx, h'⟩ := hk k hk2
  have := (segmentAlias_injective2 _ _ _ _ (h.symm.trans h')).1
  omega

theorem itemKeysIn_append (lo mid hi : Int) (m l : GoMap String) (hm : ItemKeysIn lo mid m)
    (hl : ItemKeysIn mid hi l) (h1 : lo ≤ mid) (h2 : mid ≤ hi) : ItemKeysIn lo hi (m ++ l) := by
  intro k hk
  rw [List.map_append, List.mem_append] at hk
  rcases hk with hk | hk
  · obtain ⟨x, i, a, b, c⟩ := hm k hk
    exact ⟨x, i, a, by omega, c⟩
  · obtain ⟨x, i, a, b, c⟩ := hl k hk
    exact ⟨x, i, by omega, b, c⟩

theorem allAliases_itemKeys (items : List UpdateValue) :
    ∀ n : Int, ItemKeysIn n (n + items.length) (allAliases items n) := by
  induction items with
  | nil => exact fun n k hk => by simp [allAliases] at hk
  | cons v rest ih =>
    intro n
    unfold allAliases
    have h2 := ih (n + 1)
    have e : n + ((v :: rest).length : Nat) = n + 1 + (rest.length : Nat) := by
      simp only [List.length_cons]
      push_cast
      omega
    rw [e]
    exact itemKeysIn_append n (n + 1) _ _ _ (segmentAliases_itemKeys n _ 0) h2 (by omega)
      (by omega)

theorem allAliases_nodup (items : List UpdateValue) :
    ∀ n : Int, ((allAliases items n).map Prod.fst).Nodup := by
  induction items with
  | nil => exact fun _ => List.nodup_nil
  | cons v rest ih =>
    intro n
    unfold allAliases
    rw [List.map_append]
    refine List.Nodup.append (segmentAliases_nodup n _ 0) (ih (n + 1)) ?_
    intro k hk1 hk2
    obtain ⟨j, _, _, h⟩ := segmentAliases_keysIn n (segmentsOf v.Path) 0 k hk1
    obtain ⟨x, i, hx, _, h'⟩ := allAliases_itemKeys rest (n + 1) k hk2
    have := (segmentAlias_injective2 _ _ _ _ (h.symm.trans h')).1
    omega

theorem allAliases_values (items : List UpdateValue) :
    ∀ n : Int, (allAliases items n).map Prod.snd = namedSegments items := by
  induction items with
  | nil => exact fun _ => rfl
  | cons v rest ih =>
    intro n
    unfold allAliases namedSegments
    rw [List.map_append, segmentAliases_values, ih]

/-- One round of the loop of a call that succeeds: the loop goes on with the
next item, the indexes one up, the aliases of the item in the name table and
at most the value alias of the round written to the value table. -/
theorem updLoop_step_ok (cd : Codec) (v : UpdateValue) (rest : List UpdateValue)
    (SET REMOVE : String) (i n : Int) (vals : ExprValues) (names : GoMap String) (b : Built)
    (e : String) (hrun : updLoop cd (v :: rest) SET REMOVE i n vals names = some b)
    (he : b.exp = .ok e) :
    ∃ SET' REMOVE' vals',
      (vals' = vals ∨ ∃ y, vals' = mapAssign vals (valueAlias i) y) ∧
      updLoop cd rest SET' REMOVE' (i + 1) (n + 1) vals'
        ((parseUpdateKey v.Path n).2.foldl (fun m e => mapAssign m e.1 e.2) names) = some b := by
  by_cases h1 : v.Action = Action.Delete
  · rw [updLoop_remove_step cd v rest _ _ i n vals names h1] at hrun
    exact ⟨_, _, _, Or.inl rfl, hrun⟩
  · by_cases h2 : v.Action = Action.Put ∨ v.Action = Action.Update
    · cases hm : marshalItems cd [((parseUpdateKey v.Path n).1, v.Value)] with
      | error err =>
        rw [updLoop_set_error cd v rest _ _ i n vals names err h2 hm] at hrun
        cases hrun
        cases he
      | ok val =>
        by_cases hp : segmentsOf v.Path = [] ∨ segmentsOf v.Path = ["-"]
        · rw [updLoop_set_panic cd v rest _ _ i n vals names val h2 hm hp] at hrun
          cases hrun
        · rw [updLoop_set_step cd v rest _ _ i n vals names val h2 hm (fun h => hp (Or.inl h))
            (fun h => hp (Or.inr h))] at hrun
          exact ⟨_, _, _, Or.inr ⟨_, rfl⟩, hrun⟩
    · rw [updLoop_skip_step cd v rest _ _ i n vals names h1 h2] at hrun
      exact ⟨_, _, _, Or.inl rfl, hrun⟩

theorem updLoop_names (cd : Codec) (items : List UpdateValue) :
    ∀ (SET REMOVE : String) (i n lo : Int) (vals : ExprValues) (names : GoMap String)
      (b : Built) (e : String), ItemKeysIn lo n names → lo ≤ n →
      updLoop cd items SET REMOVE i n vals names = some b → b.exp = .ok e →
      b.names = names ++ allAliases items n := by
  induction items with
  | nil =>
    intro SET REMOVE i n lo vals names b e _ _ hrun _
    rw [updLoop] at hrun
    cases hrun
    simp [allAliases]
  | cons v rest ih =>
    intro SET REMOVE i n lo vals names b e hk hlo hrun he
    obtain ⟨S', R', vals', _, hrun'⟩ :=
      updLoop_step_ok cd v rest SET REMOVE i n vals names b e hrun he
    rw [parse_names_fold v.Path n lo names hk] at hrun'
    rw [ih S' R' (i + 1) (n + 1) lo vals' _ b e
      (itemKeysIn_append lo n (n + 1) _ _ hk (segmentAliases_itemKeys n _ 0) hlo (by omega))
      (by omega) hrun' he]
    simp [allAliases]

/-- C26: within one call of `buildUpdateExpression` that starts with an empty
name table and succeeds, every path segment of every item that is neither an
integer nor the marker mints its own alias `#<item>ename<segment>`: the name
table at the end holds these aliases in order, no two of them equal, so it has
exactly as many entries as there are such segments in the whole list, each
bound to the text of its own segment.  The alias tells the item and the
position of the segment, whatever the call does. -/
theorem buildUpdateExpression_names (cd : Codec) (items : List UpdateValue) (vals : ExprValues)
    (b : Built) (e : String)
    (hrun : buildUpdateExpression cd items vals [] = some b) (he : b.exp = .ok e) :
    b.names = allAliases items 0 ∧ (b.names.map Prod.fst).Nodup ∧
      b.names.length = (namedSegments items).length ∧
      b.names.map Prod.snd = namedSegments items ∧
      ∀ x x' i i' : Int, segmentAlias x i = segmentAlias x' i' → x = x' ∧ i = i' := by
  unfold buildUpdateExpression at hrun
  have hn : b.names = allAliases items 0 := by
    have := updLoop_names cd items "" "" vals.length 0 0 vals [] b e
      (fun k hk => by simp at hk) (le_refl 0) hrun he
    rw [this, List.nil_append]
  rw [hn]
  refine ⟨rfl, allAliases_nodup items 0, ?_, allAliases_values items 0,
    segmentAlias_injective2⟩
  rw [← allAliases_values items 0, List.length_map]

/-- Witness of C26: the Delete, Put and Update of the test mint four aliases;
the text `test2` of two segments is bound under two aliases. -/
theorem buildUpdateExpression_names_witness :
    (buildUpdateExpression exampleCodec testUpdateList [] []).map (fun b => b.names) =
        some [("#0ename0", "test"), ("#1ename0", "test1"), ("#2ename0", "test2"),
          ("#2ename1", "test2")] ∧
      [("#0ename0", "test"), ("#1ename0", "test1"), ("#2ename0", "test2"),
          ("#2ename1", "test2")] = allAliases testUpdateList 0 ∧
      namedSegments testUpdateList = ["test", "test1", "test2", "test2"] :=
  ⟨rfl, (buildUpdateExpression_names exampleCodec testUpdateList [] _ _ rfl rfl).1, by decide⟩

/-! ## The append marker -/

theorem mapLookup_mapAssign_self {α : Type} (m : GoMap α) (k : String) (v : α) :
    mapLookup (mapAssign m k v) k = some v := by
  induction m with
  | nil => simp [mapAssign, mapLookup]
  | cons e rest ih =>
    obtain ⟨k', v'⟩ := e
    unfold mapAssign
    by_cases h : k' = k
    · rw [if_pos h]
      simp [mapLookup]
    · rw [if_neg h]
      unfold mapLookup
      rw [if_neg h]
      exact ih

theorem mapLookup_mapAssign_ne {α : Type} (m : GoMap α) (k k2 : String) (v : α)
    (hne : k ≠ k2) : mapLookup (mapAssign m k v) k2 = mapLookup m k2 := by
  induction m with
  | nil => simp [mapAssign, mapLookup, hne]
  | cons e rest ih =>
    obtain ⟨k', v'⟩ := e
    unfold mapAssign
    by_cases h : k' = k
    · rw [if_pos h]
      unfold mapLookup
      rw [if_neg hne, if_neg (fun h2 : k' = k2 => hne (h.symm.trans h2))]
    · rw [if_neg h]
      unfold mapLookup
      by_cases h2 : k' = k2
      · rw [if_pos h2, if_pos h2]
      · rw [if_neg h2, if_neg h2]
        exact ih

theorem marshalItems_single (cd : Codec) (k : String) (v : Value) (av : AttributeValue)
    (hne : isEmptyString v = false) (henc : cd.Encode v = .ok av) :
    marshalItems cd [(k, v)] = .ok [(k, av)] := by
  unfold marshalItems marshalLoop
  rw [hne]
  simp only [Bool.false_eq_true, if_false, henc]
  rfl

/-- A value alias bound before a round of the loop keeps its binding to the
end of a call that succeeds. -/
theorem updLoop_vals_keep (cd : Codec) (items : List UpdateValue) :
    ∀ (SET REMOVE : String) (i n : Int) (vals : ExprValues) (names : GoMap String)
      (b : Built) (e : String) (j : Int) (x : Option AttributeValue), j < i →
      mapLookup vals (valueAlias j) = some x →
      updLoop cd items SET REMOVE i n vals names = some b → b.exp = .ok e →
      mapLookup b.vals (valueAlias j) = some x := by
  induction items with
  | nil =>
    intro SET REMOVE i n vals names b e j x _ hx hrun _
    rw [updLoop] at hrun
    cases hrun
    exact hx
  | cons v rest ih =>
    intro SET REMOVE i n vals names b e j x hj hx hrun he
    obtain ⟨S', R', vals', hv, hrun'⟩ :=
      updLoop_step_ok cd v rest SET REMOVE i n vals names b e hrun he
    refine ih S' R' (i + 1) (n + 1) vals' _ b e j x (by omega) ?_ hrun' he
    rcases hv with hv | ⟨y, hv⟩
    · rw [hv]
      exact hx
    · rw [hv, mapLookup_mapAssign_ne _ _ _ _ (fun h => by
        have := valueAlias_injective _ _ h
        omega)]
      exact hx

/-- The loop of a call that succeeds, after the items `pre`. -/
theorem updLoop_prefix_ok (cd : Codec) (pre tail : List UpdateValue) :
    ∀ (SET REMOVE : String) (i n : Int) (vals : ExprValues) (names : GoMap String)
      (b : Built) (e : String),
      updLoop cd (pre ++ tail) SET REMOVE i n vals names = some b → b.exp = .ok e →
      ∃ SET' REMOVE' vals' names',
        updLoop cd tail SET' REMOVE' (i + pre.length) (n + pre.length) vals' names' = some b := by
  induction pre with
  | nil =>
    intro SET REMOVE i n vals names b e hrun _
    exact ⟨SET, REMOVE, vals, names, by simpa using hrun⟩
  | cons v rest ih =>
    intro SET REMOVE i n vals names b e hrun he
    rw [List.cons_append] at hrun
    obtain ⟨S', R', vals', _, hrun'⟩ :=
      updLoop_step_ok cd v (rest ++ tail) SET REMOVE i n vals names b e hrun he
    obtain ⟨S2, R2, vals2, names2, h2⟩ := ih S' R' (i + 1) (n + 1) vals' _ b e hrun' he
    refine ⟨S2, R2, vals2, names2, ?_⟩
    have e1 : i + ((v :: rest).length : Nat) = i + 1 + (rest.length : Nat) := by
      simp only [List.length_cons]; push_cast; omega
    have e2 : n + ((v :: rest).length : Nat) = n + 1 + (rest.length : Nat) := by
      simp only [List.length_cons]; push_cast; omega
    rw [e1, e2]
    exact h2

/-- C27, amended: for every Put or Update item, at any position of a list on
which `buildUpdateExpression` succeeds, whose path has at least two segments
and ends with the append marker, and whose value is encoded and is not the
empty string: the assignment added to the SET clause has as destination the
translated parent path immediately followed by the list index `[999<d>]`,
`d` being the decimal of the size of the name table at the start plus the
position of the item plus one, the final marker not being written; and at the
end of the call the value alias of the assignment is bound to the encoded
value of the item. -/
theorem buildUpdateExpression_append_marker (cd : Codec) (pre post : List UpdateValue)
    (v : UpdateValue) (vals : ExprValues) (names : GoMap String) (b : Built) (e : String)
    (av : AttributeValue)
    (hact : v.Action = Action.Put ∨ v.Action = Action.Update)
    (hl : (segmentsOf v.Path).getLast? = some "-") (h2 : 2 ≤ (segmentsOf v.Path).length)
    (hne : isEmptyString v.Value = false) (henc : cd.Encode v.Value = .ok av)
    (hrun : buildUpdateExpression cd (pre ++ v :: post) vals names = some b)
    (he : b.exp = .ok e) :
    (∃ SET REMOVE vals' names',
      updLoop cd post
        ((if SET ≠ "" then SET ++ ", " else SET) ++
          (piecesFrom (names.length + pre.length) (segmentsOf v.Path).dropLast 0 ++ "[999" ++
            Itoa (names.length + pre.length + 1) ++ "]") ++
          " = " ++ valueAlias (vals.length + pre.length))
        REMOVE (vals.length + pre.length + 1) (names.length + pre.length + 1)
        (mapAssign vals' (valueAlias (vals.length + pre.length)) (some av)) names' = some b) ∧
      mapLookup b.vals (valueAlias (vals.length + pre.length)) = some (some av) := by
  unfold buildUpdateExpression at hrun
  obtain ⟨S, R, vals', names', hrun'⟩ :=
    updLoop_prefix_ok cd pre (v :: post) "" "" vals.length names.length vals names b e hrun he
  have h0 : segmentsOf v.Path ≠ [] := fun h => by rw [h] at hl; cases hl
  have h1 : segmentsOf v.Path ≠ ["-"] := fun h => by rw [h] at h2; simp at h2
  have hm := marshalItems_single cd
    (parseUpdateKey v.Path (names.length + pre.length)).1 v.Value av hne henc
  rw [updLoop_set_step cd v post S R _ _ vals' names' _ hact hm h0 h1] at hrun'
  have hlook : mapLookup [((parseUpdateKey v.Path (names.length + pre.length)).1, av)]
      (parseUpdateKey v.Path (names.length + pre.length)).1 = some av := by
    simp [mapLookup]
  rw [hlook] at hrun'
  have hdest : destinationOf (names.length + pre.length) (segmentsOf v.Path) =
      piecesFrom (names.length + pre.length) (segmentsOf v.Path).dropLast 0 ++ "[999" ++
        Itoa (names.length + pre.length + 1) ++ "]" := by
    unfold destinationOf
    rw [if_pos hl]
  rw [hdest] at hrun'
  refine ⟨⟨S, R, vals', _, hrun'⟩, ?_⟩
  exact updLoop_vals_keep cd post _ _ _ _ _ _ b e (vals.length + pre.length) (some av)
    (by omega) (mapLookup_mapAssign_self _ _ _) hrun' he

/-- Witness of C27: a Put that appends to the list at `/list`, second in its
list of updates, gets the destination `#1ename0[9992]`, and `:val1` is bound
to its encoded value. -/
theorem buildUpdateExpression_append_marker_witness :
    buildUpdateExpression exampleCodec appendUpdates [] [] =
        some ⟨.ok "SET #1ename0[9992] = :val1 REMOVE #0ename0",
          [(":val1", some { AttributeValue.zero with
              L := some [AttributeValue.ofS "test1", AttributeValue.ofS "test2"] })],
          [("#0ename0", "old"), ("#1ename0", "list")]⟩ ∧
      mapLookup
          [(":val1", some { AttributeValue.zero with
              L := some [AttributeValue.ofS "test1", AttributeValue.ofS "test2"] })]
          ":val1" =
        some (some { AttributeValue.zero with
          L := some [AttributeValue.ofS "test1", AttributeValue.ofS "test2"] }) :=
  ⟨rfl,
    (buildUpdateExpression_append_marker exampleCodec
      [{ Action := Action.Delete, Path := "/old" }] []
      { Action := Action.Put, Path := "/list/-", Value := .strs ["test1", "test2"] } [] [] _ _ _
      (Or.inl rfl) (by decide) (by decide) rfl rfl rfl rfl).2⟩

/-- C27, counterexample: the Put whose path is `/a` followed by the marker
twice has two segments or more and ends with the marker, and the emitted
expression holds the literal `-` of its parent path; the Put that appends the empty string leaves `:val0` bound to a
nil pointer, not to the value of the item. -/
theorem buildUpdateExpression_marker_kept :
    buildUpdateExpression exampleCodec doubleMarkerUpdates [] [] =
        some ⟨.ok "SET #0ename0.-[9991] = :val0", [(":val0", some (AttributeValue.ofS "x"))],
          [("#0ename0", "a")]⟩ ∧
      buildUpdateExpression exampleCodec emptyStringAppend [] [] =
        some ⟨.ok "SET #0ename0[9991] = :val0", [(":val0", none)], [("#0ename0", "list")]⟩ :=
  ⟨rfl, rfl⟩

/-! ## marshalItems -/

/-- The loop of `marshalItems` over fields with distinct names appends one
encoded attribute per field whose value is not the empty string. -/
theorem marshalLoop_spec (cd : Codec) :
    ∀ (inp : GoMap Value) (acc out : GoMap AttributeValue),
      marshalLoop cd inp acc = .ok out → (inp.map Prod.fst).Nodup →
      (∀ e ∈ inp, e.1 ∉ acc.map Prod.fst) →
      ∃ enc, out = acc ++ enc ∧
        List.Forall₂ (fun e a => a.1 = e.1 ∧ cd.Encode e.2 = .ok a.2) (encodedFields inp) enc := by
  intro inp
  induction inp with
  | nil =>
    intro acc out h _ _
    unfold marshalLoop at h
    cases h
    exact ⟨[], by simp, List.Forall₂.nil⟩
  | cons e rest ih =>
    intro acc out h hnd hdis
    obtain ⟨k, v⟩ := e
    rw [List.map_cons, List.nodup_cons] at hnd
    unfold marshalLoop at h
    by_cases hes : isEmptyString v = true
    · rw [if_pos hes] at h
      obtain ⟨enc, h1, h2⟩ := ih acc out h hnd.2 (fun q hq => hdis q (List.mem_cons_of_mem _ hq))
      refine ⟨enc, h1, ?_⟩
      unfold encodedFields
      rw [List.filter_cons_of_neg (by simp [hes])]
      exact h2
    · rw [if_neg hes] at h
      cases henc : cd.Encode v with
      | error err =>
        rw [henc] at h
        cases h
      | ok av =>
        rw [henc] at h
        dsimp only at h
        have hk : k ∉ acc.map Prod.fst := hdis (k, v) (List.mem_cons_self _ _)
        rw [mapAssign_new acc k av hk] at h
        obtain ⟨enc, h1, h2⟩ := ih (acc ++ [(k, av)]) out h hnd.2
          (fun q hq hmem => by
            rw [List.map_append, List.mem_append] at hmem
            rcases hmem with hm | hm
            · exact hdis q (List.mem_cons_of_mem _ hq) hm
            · simp only [List.map_cons, List.map_nil, List.mem_singleton] at hm
              exact hnd.1 (List.mem_map.mpr ⟨q, hq, hm⟩))
        refine ⟨(k, av) :: enc, by rw [h1, List.append_assoc]; rfl, ?_⟩
        unfold encodedFields
        rw [List.filter_cons_of_pos (by simpa using hes)]
        exact List.Forall₂.cons ⟨rfl, henc⟩ h2

theorem encoded_fields (cd : Codec) (A : GoMap Value) (enc : GoMap AttributeValue)
    (h : List.Forall₂ (fun e a => a.1 = e.1 ∧ cd.Encode e.2 = .ok a.2) A enc) :
    enc.map Prod.fst = A.map Prod.fst := by
  induction h with
  | nil => rfl
  | cons hh _ ih => rw [List.map_cons, List.map_cons, ih, hh.1]

theorem encoded_lookup (cd : Codec) (A : GoMap Value) (enc : GoMap AttributeValue)
    (h : List.Forall₂ (fun e a => a.1 = e.1 ∧ cd.Encode e.2 = .ok a.2) A enc)
    (hnd : (A.map Prod.fst).Nodup) :
    ∀ e ∈ A, ∃ av, cd.Encode e.2 = .ok av ∧ mapLookup enc e.1 = some av := by
  induction h with
  | nil => intro e he; cases he
  | @cons a b l₁ l₂ hh _ ih =>
    intro e he
    rw [List.map_cons, List.nodup_cons] at hnd
    obtain ⟨bk, bv⟩ := b
    dsimp only at hh
    rcases List.mem_cons.mp he with h1 | h1
    · subst h1
      refine ⟨bv, hh.2, ?_⟩
      unfold mapLookup
      rw [if_pos hh.1]
    · obtain ⟨x, hx1, hx2⟩ := ih hnd.2 e h1
      refine ⟨x, hx1, ?_⟩
      have hne : ¬ (bk = e.1) := by
        intro hk
        apply hnd.1
        rw [← hh.1, hk]
        exact List.mem_map_of_mem _ h1
      unfold mapLookup
      rw [if_neg hne]
      exact hx2

/-- C28: for every mapping (its field names being distinct) on which
`marshalItems` succeeds, the fields of the result are exactly the input fields
whose value is not the empty string, in their order: a field holding the empty
string is not in the result, and every other field is in the result under its
own name with the encoding of its value. -/
theorem marshalItems_fields (cd : Codec) (inp : GoMap Value) (out : GoMap AttributeValue)
    (hnd : (inp.map Prod.fst).Nodup) (h : marshalItems cd inp = .ok out) :
    out.map Prod.fst = (encodedFields inp).map Prod.fst ∧
      (∀ e ∈ inp, isEmptyString e.2 = true → mapLookup out e.1 = none) ∧
      (∀ e ∈ inp, isEmptyString e.2 = false →
        ∃ av, cd.Encode e.2 = .ok av ∧ mapLookup out e.1 = some av) := by
  unfold marshalItems at h
  obtain ⟨enc, h1, h2⟩ := marshalLoop_spec cd inp [] out h hnd (fun _ _ hm => by simp at hm)
  rw [List.nil_append] at h1
  subst h1
  have hsub : List.Sublist (encodedFields inp) inp := List.filter_sublist _
  have hnd2 : ((encodedFields inp).map Prod.fst).Nodup :=
    List.Nodup.sublist (List.Sublist.map _ hsub) hnd
  have hkeys := encoded_fields cd _ _ h2
  refine ⟨hkeys, fun e he hes => ?_, fun e he hes => ?_⟩
  · rw [mapLookup_none_iff, hkeys]
    intro hm
    obtain ⟨q, hq, hqe⟩ := List.mem_map.mp hm
    have hq1 : q ∈ inp := hsub.subset hq
    have hq2 : isEmptyString q.2 = false := by
      have := (List.mem_filter.mp hq).2
      simpa using this
    have : q = e := by
      rcases List.mem_iff_get.mp hq1 with ⟨i, hi⟩
      rcases List.mem_iff_get.mp he with ⟨j, hj⟩
      have hij : (inp.map Prod.fst).get ⟨i.1, by simp⟩ = (inp.map Prod.fst).get ⟨j.1, by simp⟩ := by
        simp only [List.get_eq_getElem, List.getElem_map]
        rw [List.get_eq_getElem] at hi hj
        rw [hi, hj, hqe]
      have := (List.Nodup.get_inj_iff hnd).mp hij
      have hij2 : i = j := Fin.ext (by simpa using this)
      rw [← hi, ← hj, hij2]
    rw [this, hes] at hq2
    cases hq2
  · exact encoded_lookup cd _ _ h2 hnd2 e
      (List.mem_filter.mpr ⟨he, by simp [hes]⟩)

/-- Witness of C28: the mapping of the test with an empty-string field added
is encoded without that field. -/
theorem marshalItems_fields_witness :
    marshalItems exampleCodec testMarshalInput =
        .ok [("key1", AttributeValue.ofS "ValueString"), ("Key2", AttributeValue.ofN "2"),
          ("Key3", { AttributeValue.zero with
            L := some [AttributeValue.ofS "three1", AttributeValue.ofS "three2"] })] ∧
      ["key1", "Key2", "Key3"] = (encodedFields testMarshalInput).map Prod.fst :=
  ⟨rfl, (marshalItems_fields exampleCodec testMarshalInput _ (by decide) rfl).1⟩

/-- C29 at the failing input: `marshalItems` hands every value that is not the
empty string to the encoder and stores the answer as it is, so a field whose
value is an empty list or an empty map is encoded as the encoder encodes it:
with an encoder that answers empty collections with NULL, as the comment of
`marshalItems` says of the default marshaler, the field comes out as NULL, not
as an empty list or map. -/
theorem marshalItems_empty_collection_null :
    marshalItems nullingCodec [("tags", .list [])] =
        .ok [("tags", { AttributeValue.zero with NULL := some true })] ∧
      marshalItems nullingCodec [("attrs", .map [])] =
        .ok [("attrs", { AttributeValue.zero with NULL := some true })] ∧
      marshalItems nullingCodec [("names", .strs [])] =
        .ok [("names", { AttributeValue.zero with NULL := some true })] ∧
      ∀ (cd : Codec) (k : String) (v : Value) (av : AttributeValue),
        isEmptyString v = false → cd.Encode v = .ok av →
        marshalItems cd [(k, v)] = .ok [(k, av)] :=
  ⟨rfl, rfl, rfl, fun cd k v av hne henc => marshalItems_single cd k v av hne henc⟩

/-! ## The table prefix -/

theorem putInput_table (cd : Codec) (r : Request) (item : Option (GoMap Value))
    (inp : PutItemInput) (h : putInput cd r item = some (.ok inp)) : inp.TableName = r.Table := by
  unfold putInput at h
  cases hm : marshalItems cd (nilMapEntries item) with
  | error err => rw [hm] at h; cases h
  | ok av =>
    rw [hm] at h
    dsimp only at h
    cases hb : buildConditionExpression r.RequestConditions [] [] with
    | none => rw [hb] at h; cases h
    | some b =>
      rw [hb] at h
      dsimp only at h
      cases he : b.exp with
      | error err => rw [he] at h; cases h
      | ok exp => rw [he] at h; cases h; rfl

theorem getInput_table (cd : Codec) (r : Request) (inp : GetItemInput)
    (h : getInput cd r = .ok inp) : inp.TableName = r.Table := by
  unfold getInput at h
  cases hm : marshalItems cd r.Key with
  | error err => rw [hm] at h; cases h
  | ok key => rw [hm] at h; cases h; rfl

theorem deleteInput_table (cd : Codec) (r : Request) (inp : DeleteItemInput)
    (h : deleteInput cd r = .ok inp) : inp.TableName = r.Table := by
  unfold deleteInput at h
  cases hm : marshalItems cd r.Key with
  | error err => rw [hm] at h; cases h
  | ok key => rw [hm] at h; cases h; rfl

theorem updateInput_table (cd : Codec) (r : Request) (inp : UpdateItemInput)
    (h : updateInput cd r = some (.ok inp)) : inp.TableName = r.Table := by
  unfold updateInput at h
  cases hm : marshalItems cd r.Key with
  | error err => rw [hm] at h; cases h
  | ok key =>
    rw [hm] at h
    dsimp only at h
    cases hb : buildUpdateExpression cd r.Updates [] [] with
    | none => rw [hb] at h; cases h
    | some b =>
      rw [hb] at h
      dsimp only at h
      cases he : b.exp with
      | error err => rw [he] at h; cases h
      | ok exp => rw [he] at h; cases h; rfl

theorem queryInput_table (cd : Codec) (r : Request) (inp : QueryInput)
    (h : queryInput cd r = some (.ok inp)) : inp.TableName = r.Table := by
  unfold queryInput at h
  cases hb : buildConditionExpression r.RequestConditions [] [] with
  | none => rw [hb] at h; cases h
  | some b =>
    rw [hb] at h
    dsimp only at h
    cases he : b.exp with
    | error err => rw [he] at h; cases h
    | ok exp =>
      rw [he] at h
      dsimp only at h
      by_cases hl : r.LastKey.length ≠ 0
      · rw [if_pos hl] at h
        cases hm : marshalItems cd r.LastKey with
        | error err => rw [hm] at h; cases h
        | ok key => rw [hm] at h; cases h; rfl
      · rw [if_neg hl] at h
        cases h
        rfl

theorem queryPagesInput_table (r : Request) (inp : QueryInput)
    (h : queryPagesInput r = some (.ok inp)) : inp.TableName = r.Table := by
  unfold queryPagesInput at h
  cases hb : buildConditionExpression r.RequestConditions [] [] with
  | none => rw [hb] at h; cases h
  | some b =>
    rw [hb] at h
    dsimp only at h
    cases he : b.exp with
    | error err => rw [he] at h; cases h
    | ok exp =>
      rw [he] at h
      dsimp only at h
      cases hb2 : buildConditionExpression r.ResultFitler b.vals b.names with
      | none => rw [hb2] at h; cases h
      | some b2 =>
        rw [hb2] at h
        dsimp only at h
        cases he2 : b2.exp with
        | error err => rw [he2] at h; cases h
        | ok exp2 => rw [he2] at h; cases h; rfl

theorem put_traced {σ : Type} (cd : Codec) (db : DBer σ) (r : Request) (st : σ × List Call)
    (item : Option (GoMap Value)) (res : Except String dynamodbResult) (st' : σ × List Call)
    (h : put cd (traced db) r st = some (item, res, st')) : OneCallOn r.Table st.2 st'.2 := by
  unfold put at h
  cases hm : mergeKey r.Key r.Item with
  | none => rw [hm] at h; cases h
  | some it =>
    rw [hm] at h
    dsimp only at h
    cases hp : putInput cd r it with
    | none => rw [hp] at h; cases h
    | some x =>
      rw [hp] at h
      cases x with
      | error err =>
        dsimp only at h
        cases h
        exact Or.inl rfl
      | ok inp =>
        dsimp only [traced] at h
        cases hb : (db.PutItem inp st.1).1 with
        | none =>
          rw [hb] at h
          dsimp only at h
          cases h
          exact Or.inr ⟨Call.PutItem inp, rfl, putInput_table cd r _ inp hp⟩
        | some e =>
          rw [hb] at h
          dsimp only at h
          cases h
          exact Or.inr ⟨Call.PutItem inp, rfl, putInput_table cd r _ inp hp⟩

theorem get_traced {σ : Type} (cd : Codec) (db : DBer σ) (r : Request) (st : σ × List Call) :
    OneCallOn r.Table st.2 (get cd (traced db) r st).2.2 := by
  unfold get
  cases hg : getInput cd r with
  | error err => exact Or.inl rfl
  | ok inp =>
    dsimp only [traced]
    cases hb : (db.GetItem inp st.1).1 with
    | error e => exact Or.inr ⟨Call.GetItem inp, rfl, getInput_table cd r inp hg⟩
    | ok o => exact Or.inr ⟨Call.GetItem inp, rfl, getInput_table cd r inp hg⟩

theorem dbDelete_traced {σ : Type} (cd : Codec) (db : DBer σ) (r : Request)
    (st : σ × List Call) : OneCallOn r.Table st.2 (dbDelete cd (traced db) r st).2.2 := by
  unfold dbDelete
  cases hg : deleteInput cd r with
  | error err => exact Or.inl rfl
  | ok inp =>
    dsimp only [traced]
    cases hb : (db.DeleteItem inp st.1).1 with
    | error e => exact Or.inr ⟨Call.DeleteItem inp, rfl, deleteInput_table cd r inp hg⟩
    | ok o => exact Or.inr ⟨Call.DeleteItem inp, rfl, deleteInput_table cd r inp hg⟩

theorem update_traced {σ : Type} (cd : Codec) (db : DBer σ) (r : Request) (st : σ × List Call)
    (res : Except String dynamodbResult) (st' : σ × List Call)
    (h : update cd (traced db) r st = some (res, st')) : OneCallOn r.Table st.2 st'.2 := by
  unfold update at h
  cases hu : updateInput cd r with
  | none => rw [hu] at h; cases h
  | some x =>
    rw [hu] at h
    cases x with
    | error err =>
      dsimp only at h
      cases h
      exact Or.inl rfl
    | ok inp =>
      dsimp only [traced] at h
      cases hb : (db.UpdateItem inp st.1).1 with
      | error e =>
        rw [hb] at h
        dsimp only at h
        cases h
        exact Or.inr ⟨Call.UpdateItem inp, rfl, updateInput_table cd r inp hu⟩
      | ok o =>
        rw [hb] at h
        dsimp only at h
        cases h
        exact Or.inr ⟨Call.UpdateItem inp, rfl, updateInput_table cd r inp hu⟩

theorem query_traced {σ : Type} (cd : Codec) (db : DBer σ) (r : Request) (st : σ × List Call)
    (res : Except String dynamodbResult) (st' : σ × List Call)
    (h : query cd (traced db) r st = some (res, st')) : OneCallOn r.Table st.2 st'.2 := by
  unfold query at h
  cases hu : queryInput cd r with
  | none => rw [hu] at h; cases h
  | some x =>
    rw [hu] at h
    cases x with
    | error err =>
      dsimp only at h
      cases h
      exact Or.inl rfl
    | ok inp =>
      dsimp only [traced] at h
      cases hq : queryLoop (db.QueryPages inp st.1).1.1 [] with
      | none => rw [hq] at h; cases h
      | some items =>
        rw [hq] at h
        dsimp only at h
        cases hb : (db.QueryPages inp st.1).1.2 with
        | none =>
          rw [hb] at h
          dsimp only at h
          cases h
          exact Or.inr ⟨Call.QueryPages inp, rfl, queryInput_table cd r inp hu⟩
        | some e =>
          rw [hb] at h
          dsimp only at h
          cases h
          exact Or.inr ⟨Call.QueryPages inp, rfl, queryInput_table cd r inp hu⟩

theorem queryPages_traced {σ : Type} (db : DBer σ) (r : Request) (st : σ × List Call)
    (res : Except String dynamodbResult) (st' : σ × List Call)
    (h : queryPages (traced db) r st = some (res, st')) : OneCallOn r.Table st.2 st'.2 := by
  unfold queryPages at h
  cases hu : queryPagesInput r with
  | none => rw [hu] at h; cases h
  | some x =>
    rw [hu] at h
    cases x with
    | error err =>
      dsimp only at h
      cases h
      exact Or.inl rfl
    | ok inp =>
      dsimp only [traced] at h
      cases hq : pagesLoop (wrapInt (r.PageSize * wrapInt (r.Page - 1)))
          (db.QueryPages inp st.1).1.1 { items := [], count := r.PageSize, resultsSeen := 0 } with
      | none => rw [hq] at h; cases h
      | some pst =>
        rw [hq] at h
        dsimp only at h
        by_cases hz : r.PageSize = 0
        · rw [if_pos hz] at h
          cases h
        · rw [if_neg hz] at h
          cases hb : (db.QueryPages inp st.1).1.2 with
          | none =>
            rw [hb] at h
            dsimp only at h
            cases h
            exact Or.inr ⟨Call.QueryPages inp, rfl, queryPagesInput_table r inp hu⟩
          | some e =>
            rw [hb] at h
            dsimp only at h
            cases h
            exact Or.inr ⟨Call.QueryPages inp, rfl, queryPagesInput_table r inp hu⟩

theorem withReturnValues_table (c : DynamoDBDatastore) (rq : Request) :
    (withReturnValues c rq).Table = rq.Table := by
  unfold withReturnValues
  cases c.transaction <;> rfl

/-- The final step of `Run` adds at most the one logged operation. -/
theorem runFinish_ops_cases {σ : Type} (c : DynamoDBDatastore) (request : Request)
    (r : Option dynamodbResult) (e : Option String) (s : σ) :
    OneOpOn request.Table c.ops (runFinish c request r e s).c.ops := by
  unfold runFinish
  split_ifs
  · exact Or.inr ⟨_, rfl, rfl⟩
  · exact Or.inl rfl

theorem runFinish_frame {σ : Type} (c c' : DynamoDBDatastore) (rq : Request)
    (r : Option dynamodbResult) (e : Option String) (s' : σ × List Call) (table : String)
    (tr : List Call) (hT : rq.Table = table) (hops : c'.ops = c.ops)
    (hcache : OneOpOn table c.cache c'.cache) (hcall : OneCallOn table tr s'.2) :
    OneCallOn table tr (runFinish c' rq r e s').s.2 ∧
      OneOpOn table c.ops (runFinish c' rq r e s').c.ops ∧
      OneOpOn table c.cache (runFinish c' rq r e s').c.cache := by
  refine ⟨by rw [runFinish_s]; exact hcall, ?_, by rw [runFinish_cache]; exact hcache⟩
  have := runFinish_ops_cases c' rq r e s'
  rw [hT, hops] at this
  exact this

/-- C30: for every request, whatever its Action, and every configured prefix
`P`, a call of `Run` that returns has made at most one backend call, on the
table `P ++ request.Table`, and the operation it added to the log or to the
cache, if any, carries the request with that same table name. -/
theorem Run_prefixes_table {σ : Type} (cd : Codec) (db : DBer σ) (c : DynamoDBDatastore)
    (request : Request) (st : σ × List Call) (out : RunOut (σ × List Call))
    (hrun : Run cd (traced db) c request st = some out) :
    OneCallOn (c.tablePrefix ++ request.Table) st.2 out.s.2 ∧
      OneOpOn (c.tablePrefix ++ request.Table) c.ops out.c.ops ∧
      OneOpOn (c.tablePrefix ++ request.Table) c.cache out.c.cache := by
  unfold Run at hrun
  generalize hrq : ({ request with Table := c.tablePrefix ++ request.Table } : Request) = rq
    at hrun
  have hT : rq.Table = c.tablePrefix ++ request.Table := by rw [← hrq]
  rw [← hT]
  dsimp only at hrun
  by_cases h1 : rq.Action = Action.Put
  · rw [if_pos h1] at hrun
    cases hp : put cd (traced db) rq st with
    | none => rw [hp] at hrun; cases hrun
    | some x =>
      obtain ⟨item, res, s'⟩ := x
      rw [hp] at hrun
      dsimp only at hrun
      cases hrun
      exact runFinish_frame c c _ _ _ s' rq.Table st.2 rfl rfl (Or.inl rfl)
        (put_traced cd db rq st item res s' hp)
  rw [if_neg h1] at hrun
  by_cases h2 : rq.Action = Action.Delete
  · rw [if_pos h2] at hrun
    cases hrun
    exact runFinish_frame c c _ _ _ _ rq.Table st.2 (withReturnValues_table c rq) rfl (Or.inl rfl)
      (by
        have := dbDelete_traced cd db (withReturnValues c rq) st
        rw [withReturnValues_table] at this
        exact this)
  rw [if_neg h2] at hrun
  by_cases h3 : rq.Action = Action.Get
  · rw [if_pos h3] at hrun
    cases hs : (if (!rq.LiveData && !c.cacheDisabled) = true then cacheScan c.cache rq.Key
        else some none) with
    | none => rw [hs] at hrun; cases hrun
    | some x =>
      rw [hs] at hrun
      cases x with
      | some o =>
        dsimp only at hrun
        cases hrun
        exact ⟨Or.inl rfl, Or.inl rfl, Or.inl rfl⟩
      | none =>
        dsimp only at hrun
        have htr := get_traced cd db rq st
        cases hg : get cd (traced db) rq st with
        | mk res s' =>
          rw [hg] at hrun htr
          cases res with
          | ok r =>
            dsimp only at hrun
            cases hrun
            exact runFinish_frame c _ _ _ _ s' rq.Table st.2 rfl rfl (Or.inr ⟨_, rfl, rfl⟩) htr
          | error e =>
            dsimp only at hrun
            cases hrun
            exact runFinish_frame c c _ _ _ s' rq.Table st.2 rfl rfl (Or.inl rfl) htr
  rw [if_neg h3] at hrun
  by_cases h4 : rq.Action = Action.Update
  · rw [if_pos h4] at hrun
    cases hp : update cd (traced db) (withReturnValues c rq) st with
    | none => rw [hp] at hrun; cases hrun
    | some x =>
      obtain ⟨res, s'⟩ := x
      rw [hp] at hrun
      dsimp only at hrun
      cases hrun
      exact runFinish_frame c c _ _ _ s' rq.Table st.2 (withReturnValues_table c rq) rfl
        (Or.inl rfl)
        (by
          have := update_traced cd db (withReturnValues c rq) st res s' hp
          rw [withReturnValues_table] at this
          exact this)
  rw [if_neg h4] at hrun
  by_cases h5 : rq.Action = Action.Query
  · rw [if_pos h5] at hrun
    cases hp : query cd (traced db) rq st with
    | none => rw [hp] at hrun; cases hrun
    | some x =>
      obtain ⟨res, s'⟩ := x
      rw [hp] at hrun
      dsimp only at hrun
      cases hrun
      exact runFinish_frame c c _ _ _ s' rq.Table st.2 rfl rfl (Or.inl rfl)
        (query_traced cd db rq st res s' hp)
  rw [if_neg h5] at hrun
  by_cases h6 : rq.Action = Action.QueryPager
  · rw [if_pos h6] at hrun
    cases hp : queryPages (traced db) rq st with
    | none => rw [hp] at hrun; cases hrun
    | some x =>
      obtain ⟨res, s'⟩ := x
      rw [hp] at hrun
      dsimp only at hrun
      cases hrun
      exact runFinish_frame c c _ _ _ s' rq.Table st.2 rfl rfl (Or.inl rfl)
        (queryPages_traced db rq st res s' hp)
  rw [if_neg h6] at hrun
  cases hrun
  exact runFinish_frame c c _ _ _ st rq.Table st.2 rfl rfl (Or.inl rfl) (Or.inl rfl)

/-- Witness of C30: on the handle with the prefix `p_` a Put of table `t` in a
transaction calls `PutItem` on `p_t` and logs the request with the table
`p_t`; a Get of table `t` calls `GetItem` on `p_t` and caches the request with
the table `p_t`. -/
theorem Run_prefixes_table_witness :
    (∃ out, Run exampleCodec (traced (pagedBackend [])) (StartTransaction prefixedHandle)
          examplePut ((), []) = some out ∧
        out.s.2.map Call.table = ["p_t"] ∧
        out.c.ops.map (fun o => o.request.Table) = ["p_t"] ∧
        (OneCallOn ("p_" ++ "t") [] out.s.2 ∧ OneOpOn ("p_" ++ "t") [] out.c.ops ∧
          OneOpOn ("p_" ++ "t") [] out.c.cache)) ∧
      (Run exampleCodec (traced (itemBackend (itemOf "1"))) prefixedHandle exampleGet
          ((), [])).map
        (fun out => (out.s.2.map Call.table, out.c.cache.map (fun o => o.request.Table))) =
        some (["p_t"], ["p_t"]) :=
  ⟨⟨_, rfl, rfl, rfl,
      Run_prefixes_table exampleCodec (pagedBackend []) (StartTransaction prefixedHandle)
        examplePut ((), []) _ rfl⟩, rfl⟩

/-! ## Reads in the log -/

theorem reverseOp_read (cd : Codec) (o : op) (h : isRead o.request.Action = true) :
    reverseOp cd o = some {} := by
  unfold isRead at h
  have h' := of_decide_eq_true h
  unfold reverseOp
  rcases h' with h1 | h1 | h1 <;> rw [h1] <;> rfl

/-- The zero request is a Put of an empty item to the table named by the
prefix alone: `Run` dispatches it. -/
theorem Run_zero_request {σ : Type} (cd : Codec) (db : DBer σ) (c : DynamoDBDatastore) (s : σ)
    (tr : List Call) :
    ∃ out, Run cd (traced db) c {} (s, tr) = some out ∧
      out.s.2 = tr ++ [Call.PutItem
        { TableName := c.tablePrefix ++ "", Item := [], ConditionExpression := none,
          ExpressionAttributeValues := none, ExpressionAttributeNames := none }] := by
  have h0 : ({} : Request).Action = Action.Put := rfl
  unfold Run
  dsimp only at h0 ⊢
  rw [if_pos h0]
  unfold put
  dsimp only [mergeKey, putInput, nilMapEntries, marshalItems, marshalLoop,
    buildConditionExpression, condLoop, traced]
  cases hb : (db.PutItem
      { TableName := c.tablePrefix ++ "", Item := [],
        ConditionExpression := nonEmptyString "",
        ExpressionAttributeValues := nonEmptyMap [],
        ExpressionAttributeNames := nonEmptyMap [] } s).1 with
  | none => exact ⟨_, rfl, by rw [runFinish_s]; rfl⟩
  | some e => exact ⟨_, rfl, by rw [runFinish_s]; rfl⟩

/-- C35 at the failing input: a Get, a Query and a paged query run in a
transaction are logged, and the rollback dispatches a `PutItem` for each of
them, to the table named by the prefix alone: `reverseOp` answers every logged
read with the zero request, whose action is Put, and `Run` dispatches the
zero request as a write of an empty item. -/
theorem Rollback_read_dispatches_put :
    readRollback exampleLiveGet = some (1, ["GetItem", "PutItem"], ["t", ""]) ∧
      readRollback exampleQuery = some (1, ["Query", "PutItem"], ["t", ""]) ∧
      readRollback firstPagerRequest = some (1, ["Query", "PutItem"], ["test", ""]) ∧
      (∀ (cd : Codec) (o : op), isRead o.request.Action = true → reverseOp cd o = some {}) ∧
      ∀ (σ : Type) (cd : Codec) (db : DBer σ) (c : DynamoDBDatastore) (s : σ) (tr : List Call),
        ∃ out call, Run cd (traced db) c {} (s, tr) = some out ∧ out.s.2 = tr ++ [call] ∧
          call.isWrite = true ∧ call.table = c.tablePrefix ++ "" := by
  refine ⟨rfl, rfl, rfl, reverseOp_read, fun σ cd db c s tr => ?_⟩
  obtain ⟨out, h1, h2⟩ := Run_zero_request cd db c s tr
  exact ⟨out, _, h1, h2, rfl, rfl⟩

/-! ## Queries: the filter and the continuation key -/

theorem queryInput_filter (cd : Codec) (r : Request) (inp : QueryInput)
    (h : queryInput cd r = some (.ok inp)) : inp.FilterExpression = none := by
  unfold queryInput at h
  cases hb : buildConditionExpression r.RequestConditions [] [] with
  | none => rw [hb] at h; cases h
  | some b =>
    rw [hb] at h
    dsimp only at h
    cases he : b.exp with
    | error err => rw [he] at h; cases h
    | ok exp =>
      rw [he] at h
      dsimp only at h
      by_cases hl : r.LastKey.length ≠ 0
      · rw [if_pos hl] at h
        cases hm : marshalItems cd r.LastKey with
        | error err => rw [hm] at h; cases h
        | ok key => rw [hm] at h; cases h; rfl
      · rw [if_neg hl] at h
        cases h
        rfl

/-- C32 at the failing input: a Query with a key condition and a result
filter reaches the backend without a filter expression, where the same request
as a paged query carries the filter compiled over its own aliases; and no
input that `query` builds carries a filter expression, whatever the request. -/
theorem query_ignores_filter :
    (Run exampleCodec (traced (pagedBackend [])) {} filteredQuery ((), [])).map
        (fun out => (out.e, out.s.2.map Call.filterExpression)) = some (none, [none]) ∧
      (Run exampleCodec (traced (pagedBackend [])) {} filteredPager ((), [])).map
        (fun out => (out.e, out.s.2.map Call.filterExpression)) =
        some (none, [some "#ename1 = :val1"]) ∧
      ∀ (cd : Codec) (r : Request) (inp : QueryInput),
        queryInput cd r = some (.ok inp) → inp.FilterExpression = none :=
  ⟨rfl, rfl, queryInput_filter⟩

/-- The loop of `query` over counted pages appends the counted items of every
page, in delivery order. -/
theorem queryLoop_counted :
    ∀ (pages : List QueryOutput) (items : List (GoMap AttributeValue)),
      (∀ pg ∈ pages, PageCounted pg) → queryLoop pages items = some (items ++ countedItems pages) := by
  intro pages
  induction pages with
  | nil =>
    intro items _
    simp [queryLoop, countedItems]
  | cons p rest ih =>
    intro items h
    obtain ⟨cn, hc, hle⟩ := h p (List.mem_cons_self _ _)
    have hcb : queryCallback items p = some (items ++ p.Items.take cn) := by
      unfold queryCallback
      rw [hc]
      dsimp only
      rw [Int.toNat_ofNat, if_pos hle]
    have hpc : pageCountNat p = cn := by
      unfold pageCountNat
      rw [hc]
      exact Int.toNat_ofNat cn
    unfold queryLoop
    rw [hcb]
    dsimp only
    rw [ih _ (fun q hq => h q (List.mem_cons_of_mem _ hq))]
    simp only [countedItems, List.flatMap_cons, hpc, List.append_assoc]

/-- The start key of the input of `query` is the encoded `LastKey` of the
request when that is not empty, and absent otherwise. -/
theorem queryInput_startKey (cd : Codec) (r : Request) (inp : QueryInput)
    (h : queryInput cd r = some (.ok inp)) :
    (r.LastKey = [] → inp.ExclusiveStartKey = none) ∧
      (r.LastKey ≠ [] →
        ∃ k, marshalItems cd r.LastKey = .ok k ∧ inp.ExclusiveStartKey = some k) := by
  unfold queryInput at h
  cases hb : buildConditionExpression r.RequestConditions [] [] with
  | none => rw [hb] at h; cases h
  | some b =>
    rw [hb] at h
    dsimp only at h
    cases he : b.exp with
    | error err => rw [he] at h; cases h
    | ok exp =>
      rw [he] at h
      dsimp only at h
      by_cases hl : r.LastKey.length ≠ 0
      · rw [if_pos hl] at h
        have hne : r.LastKey ≠ [] := fun e => hl (by rw [e]; rfl)
        cases hm : marshalItems cd r.LastKey with
        | error err => rw [hm] at h; cases h
        | ok key =>
          rw [hm] at h
          cases h
          exact ⟨fun e => absurd e hne, fun _ => ⟨key, rfl, rfl⟩⟩
      · rw [if_neg hl] at h
        have he0 : r.LastKey = [] := List.length_eq_zero.mp (not_not.mp hl)
        cases h
        exact ⟨fun _ => rfl, fun hne => absurd he0 hne⟩

/-- C33, amended: a Query produces no continuation key.  `query` takes every
page the backend delivers (its callback always asks for the next one): for
every delivery without error whose pages hold the items they count, whether or
not a page carries a last-evaluated key, the returned Result holds the counted
items of all pages in delivery order, and `GetLastEvaluatedKey` on it, as on
every Result, yields nothing.  A `LastKey` of the request that is not empty is
sent encoded as the exclusive start key; no start key is sent otherwise. -/
theorem query_takes_all_pages {σ : Type} (cd : Codec) (db : DBer σ) (r : Request) (s s' : σ)
    (qI : QueryInput) (pages : List QueryOutput)
    (hq : queryInput cd r = some (.ok qI))
    (hdb : db.QueryPages qI s = ((pages, none), s'))
    (hwf : ∀ pg ∈ pages, PageCounted pg) :
    (∃ res, query cd db r s = some (.ok res, s') ∧ res.items = countedItems pages ∧
        res.GetLastEvaluatedKey = none) ∧
      (r.LastKey = [] → qI.ExclusiveStartKey = none) ∧
      (r.LastKey ≠ [] →
        ∃ k, marshalItems cd r.LastKey = .ok k ∧ qI.ExclusiveStartKey = some k) ∧
      ∀ res : dynamodbResult, res.GetLastEvaluatedKey = none := by
  refine ⟨⟨{ items := countedItems pages }, ?_, rfl, rfl⟩, (queryInput_startKey cd r qI hq).1,
    (queryInput_startKey cd r qI hq).2, fun _ => rfl⟩
  simp only [query, hq, hdb, queryLoop_counted pages [] hwf, List.nil_append]

/-- Witness of C33: the limited query resumed after the key `id = 1`, on the
delivery of two pages of which the first carries a last-evaluated key. -/
theorem query_takes_all_pages_witness :
    ((∃ res, query exampleCodec (pagedBackend keyedPages) resumedQuery () = some (.ok res, ()) ∧
          res.items = countedItems keyedPages ∧ res.GetLastEvaluatedKey = none) ∧
      (resumedQuery.LastKey = [] →
        (match queryInput exampleCodec resumedQuery with
          | some (.ok qI) => qI.ExclusiveStartKey
          | _ => none) = none) ∧
      (resumedQuery.LastKey ≠ [] →
        ∃ k, marshalItems exampleCodec resumedQuery.LastKey = .ok k ∧
          (match queryInput exampleCodec resumedQuery with
            | some (.ok qI) => qI.ExclusiveStartKey
            | _ => none) = some k) ∧
      ∀ res : dynamodbResult, res.GetLastEvaluatedKey = none) ∧
    countedItems keyedPages = [itemOf "1", itemOf "2"] ∧
    (match queryInput exampleCodec resumedQuery with
      | some (.ok qI) => (qI.Limit, qI.ExclusiveStartKey)
      | _ => (none, none)) = (some 1, some (itemOf "1")) :=
  ⟨query_takes_all_pages exampleCodec (pagedBackend keyedPages) resumedQuery () () _ keyedPages
      rfl rfl
      (fun pg hpg => ⟨pg.Items.length, by
        simp only [keyedPages, List.mem_cons, List.mem_singleton, List.not_mem_nil,
          or_false] at hpg
        rcases hpg with h | h <;> subst h <;> rfl, le_refl _⟩),
    rfl, rfl⟩

/-- C33, counterexample: the first response to the limited query carries the
last-evaluated key `id = 1`; the query goes on to the next page and returns
the items of both pages, and `GetLastEvaluatedKey` on the returned Result
yields nothing, not the key the backend reported. -/
theorem GetLastEvaluatedKey_nil_after_keyed_page :
    (query exampleCodec (pagedBackend keyedPages) limitedQuery ()).map
        (fun x => (retResult x.1).map (fun r => (r.items, r.GetLastEvaluatedKey))) =
        some (some ([itemOf "1", itemOf "2"], none)) ∧
      keyedPages.map (fun p => p.LastEvaluatedKey) = [itemOf "1", []] :=
  ⟨rfl, rfl⟩

/-! ## The result accessors -/

theorem strings_all (strs : List String) :
    (strs.map AttributeValue.ofS).all (fun s => s.S.isSome) = true ∧
      (strs.map AttributeValue.ofS).filterMap (fun s => s.S) = strs := by
  induction strs with
  | nil => exact ⟨rfl, rfl⟩
  | cons a rest ih =>
    refine ⟨?_, ?_⟩
    · rw [List.map_cons, List.all_cons, ih.1]
      rfl
    · rw [List.map_cons, List.filterMap_cons]
      show a :: _ = a :: rest
      rw [ih.2]

/-- C34 at the failing input: on an item whose field holds a list of two
numbers `GetStringListItem` panics on the nil pointer `s.S` of the first
element.  On the item of the test it returns the two strings of the list with
true, and for a field that is absent or not a list the empty list with false;
in general a list of strings is returned in order with true. -/
theorem GetStringListItem_number_list_panics :
    numberListResult.GetStringListItem 0 "set" = none ∧
      testResult.GetStringListItem 0 "set" = some (["s1", "s2"], true) ∧
      testResult.GetStringListItem 1 "number" = some ([], false) ∧
      testResult.GetStringListItem 1 "missing" = some ([], false) ∧
      ∀ (r : dynamodbResult) (i : Nat) (name : String) (item : GoMap AttributeValue),
        r.items.get? i = some item →
        (mapLookup item name = none → r.GetStringListItem i name = some ([], false)) ∧
        (∀ av, mapLookup item name = some av → av.L = none →
          r.GetStringListItem i name = some ([], false)) ∧
        (∀ av strs, mapLookup item name = some av → av.L = some (strs.map AttributeValue.ofS) →
          r.GetStringListItem i name = some (strs, true)) := by
  refine ⟨rfl, rfl, rfl, rfl, fun r i name item hi => ?_⟩
  have hneg : ¬ ((i : Int) < 0) := by omega
  refine ⟨fun hl => ?_, fun av hl hL => ?_, fun av strs hl hL => ?_⟩
  · unfold dynamodbResult.GetStringListItem
    rw [if_neg hneg, Int.toNat_ofNat, hi]
    dsimp only
    rw [hl]
  · unfold dynamodbResult.GetStringListItem
    rw [if_neg hneg, Int.toNat_ofNat, hi]
    dsimp only
    rw [hl]
    dsimp only
    rw [hL]
  · unfold dynamodbResult.GetStringListItem
    rw [if_neg hneg, Int.toNat_ofNat, hi]
    dsimp only
    rw [hl]
    dsimp only
    rw [hL]
    dsimp only
    rw [(strings_all strs).1, (strings_all strs).2]
    rfl

/-! ## The key in the item of a Put -/

theorem mapAssign_keys {α : Type} (m : GoMap α) (k : String) (v : α) :
    (mapAssign m k v).map Prod.fst =
      if k ∈ m.map Prod.fst then m.map Prod.fst else m.map Prod.fst ++ [k] := by
  induction m with
  | nil => simp [mapAssign]
  | cons e rest ih =>
    obtain ⟨k', v'⟩ := e
    unfold mapAssign
    by_cases h : k' = k
    · rw [if_pos h, if_pos (by simp [h])]
      simp [h]
    · rw [if_neg h, List.map_cons, ih]
      by_cases hm : k ∈ rest.map Prod.fst
      · rw [if_pos hm, if_pos (by simp [hm])]
        rfl
      · rw [if_neg hm, if_neg (by
          simp only [List.map_cons, List.mem_cons, not_or]
          exact ⟨fun e => h e.symm, hm⟩)]
        rfl

theorem mapAssign_nodup {α : Type} (m : GoMap α) (k : String) (v : α)
    (h : (m.map Prod.fst).Nodup) : ((mapAssign m k v).map Prod.fst).Nodup := by
  rw [mapAssign_keys]
  by_cases hm : k ∈ m.map Prod.fst
  · rw [if_pos hm]
    exact h
  · rw [if_neg hm]
    exact List.Nodup.append h (List.nodup_singleton k) (fun x hx hx' => by
      rw [List.mem_singleton] at hx'
      exact hm (hx' ▸ hx))

theorem foldAssign_nodup {α : Type} (l : GoMap α) :
    ∀ m : GoMap α, (m.map Prod.fst).Nodup →
      ((l.foldl (fun m e => mapAssign m e.1 e.2) m).map Prod.fst).Nodup := by
  induction l with
  | nil => exact fun m h => h
  | cons e rest ih => exact fun m h => ih _ (mapAssign_nodup m e.1 e.2 h)

theorem foldAssign_keys {α : Type} (l : GoMap α) :
    ∀ m : GoMap α, ∀ k ∈ (l.foldl (fun m e => mapAssign m e.1 e.2) m).map Prod.fst,
      k ∈ l.map Prod.fst ∨ k ∈ m.map Prod.fst := by
  induction l with
  | nil => exact fun m k hk => Or.inr hk
  | cons e rest ih =>
    intro m k hk
    rcases ih _ k hk with h | h
    · exact Or.inl (List.mem_cons_of_mem _ h)
    · rw [mapAssign_keys] at h
      by_cases hm : e.1 ∈ m.map Prod.fst
      · rw [if_pos hm] at h
        exact Or.inr h
      · rw [if_neg hm, List.mem_append, List.mem_singleton] at h
        rcases h with h | h
        · exact Or.inr h
        · exact Or.inl (by rw [h]; exact List.mem_cons_self _ _)

theorem foldAssign_lookup_other {α : Type} (l : GoMap α) (k : String)
    (hk : k ∉ l.map Prod.fst) :
    ∀ m : GoMap α, mapLookup (l.foldl (fun m e => mapAssign m e.1 e.2) m) k = mapLookup m k := by
  induction l with
  | nil => exact fun _ => rfl
  | cons e rest ih =>
    intro m
    simp only [List.map_cons, List.mem_cons, not_or] at hk
    rw [List.foldl_cons, ih hk.2, mapLookup_mapAssign_ne _ _ _ _ (fun h => hk.1 h.symm)]

/-- The value written for a field is the value read afterwards, the fields
written being distinct. -/
theorem foldAssign_lookup {α : Type} (l : GoMap α) (hnd : (l.map Prod.fst).Nodup) :
    ∀ m : GoMap α, ∀ e ∈ l,
      mapLookup (l.foldl (fun m e => mapAssign m e.1 e.2) m) e.1 = some e.2 := by
  induction l with
  | nil => exact fun _ e he => by cases he
  | cons a rest ih =>
    intro m e he
    rw [List.map_cons, List.nodup_cons] at hnd
    rw [List.foldl_cons]
    rcases List.mem_cons.mp he with h | h
    · rw [h, foldAssign_lookup_other rest a.1 hnd.1, mapLookup_mapAssign_self]
    · exact ih hnd.2 _ e h

theorem marshalItems_lookup (cd : Codec) (inp : GoMap Value) (out : GoMap AttributeValue)
    (hnd : (inp.map Prod.fst).Nodup) (h : marshalItems cd inp = .ok out) :
    (∀ e ∈ inp, isEmptyString e.2 = false →
        ∃ av, cd.Encode e.2 = .ok av ∧ mapLookup out e.1 = some av) ∧
      ∀ k ∈ out.map Prod.fst, k ∈ inp.map Prod.fst := by
  unfold marshalItems at h
  obtain ⟨enc, h1, h2⟩ := marshalLoop_spec cd inp [] out h hnd (fun _ _ hm => by simp at hm)
  rw [List.nil_append] at h1
  subst h1
  have hsub : List.Sublist (encodedFields inp) inp := List.filter_sublist _
  have hnd2 : ((encodedFields inp).map Prod.fst).Nodup :=
    List.Nodup.sublist (List.Sublist.map _ hsub) hnd
  refine ⟨fun e he hes => encoded_lookup cd _ _ h2 hnd2 e
    (List.mem_filter.mpr ⟨he, by simp [hes]⟩), fun k hk => ?_⟩
  rw [encoded_fields cd _ _ h2] at hk
  exact (List.Sublist.map _ hsub).subset hk

theorem putInput_item (cd : Codec) (r : Request) (item : Option (GoMap Value))
    (inp : PutItemInput) (h : putInput cd r item = some (.ok inp)) :
    marshalItems cd (nilMapEntries item) = .ok inp.Item := by
  unfold putInput at h
  cases hm : marshalItems cd (nilMapEntries item) with
  | error err => rw [hm] at h; cases h
  | ok av =>
    rw [hm] at h
    dsimp only at h
    cases hb : buildConditionExpression r.RequestConditions [] [] with
    | none => rw [hb] at h; cases h
    | some b =>
      rw [hb] at h
      dsimp only at h
      cases he : b.exp with
      | error err => rw [he] at h; cases h
      | ok exp => rw [he] at h; cases h; rfl

/-- A Put with an item map that returns made no call or the one `PutItem`
whose item is the marshalled map with the key written into it. -/
theorem put_call {σ : Type} (cd : Codec) (db : DBer σ) (r : Request) (st : σ × List Call)
    (it : GoMap Value) (item : Option (GoMap Value)) (res : Except String dynamodbResult)
    (st' : σ × List Call) (hI : r.Item = some it)
    (h : put cd (traced db) r st = some (item, res, st')) :
    (st'.2 = st.2 ∧ ∃ err, res = .error err) ∨
      ∃ inp, st'.2 = st.2 ++ [Call.PutItem inp] ∧
        marshalItems cd (r.Key.foldl (fun m e => mapAssign m e.1 e.2) it) = .ok inp.Item := by
  have hm : mergeKey r.Key r.Item =
      some (some (r.Key.foldl (fun m e => mapAssign m e.1 e.2) it)) := by
    rw [hI]
    unfold mergeKey
    cases r.Key with
    | nil => rfl
    | cons a rest => rfl
  unfold put at h
  rw [hm] at h
  dsimp only at h
  cases hp : putInput cd r (some (r.Key.foldl (fun m e => mapAssign m e.1 e.2) it)) with
  | none => rw [hp] at h; cases h
  | some x =>
    rw [hp] at h
    cases x with
    | error err =>
      dsimp only at h
      cases h
      exact Or.inl ⟨rfl, _, rfl⟩
    | ok inp =>
      have hitem := putInput_item cd r _ inp hp
      dsimp only [traced] at h
      cases hb : (db.PutItem inp st.1).1 with
      | none =>
        rw [hb] at h
        dsimp only at h
        cases h
        exact Or.inr ⟨inp, rfl, hitem⟩
      | some e =>
        rw [hb] at h
        dsimp only at h
        cases h
        exact Or.inr ⟨inp, rfl, hitem⟩

/-- C31, amended: for every Put request whose Item is a map (not nil), a call
of `put` that returns has either returned an error before any backend call, or
made the one `PutItem` call whose item contains every field of the Key whose
value is not the empty string, holding the encoding of the Key's value (which
wins over an Item field of the same name), together with the remaining Item
fields whose value is not the empty string, and no field that is in neither
the Key nor the Item. -/
theorem put_merges_key {σ : Type} (cd : Codec) (db : DBer σ) (r : Request)
    (st : σ × List Call) (it : GoMap Value) (item : Option (GoMap Value))
    (res : Except String dynamodbResult) (st' : σ × List Call) (hI : r.Item = some it)
    (hk : (r.Key.map Prod.fst).Nodup) (hit : (it.map Prod.fst).Nodup)
    (h : put cd (traced db) r st = some (item, res, st')) :
    (st'.2 = st.2 ∧ ∃ err, res = .error err) ∨
      ∃ inp, st'.2 = st.2 ++ [Call.PutItem inp] ∧
        (∀ e ∈ r.Key, isEmptyString e.2 = false →
          ∃ av, cd.Encode e.2 = .ok av ∧ mapLookup inp.Item e.1 = some av) ∧
        (∀ e ∈ it, e.1 ∉ r.Key.map Prod.fst → isEmptyString e.2 = false →
          ∃ av, cd.Encode e.2 = .ok av ∧ mapLookup inp.Item e.1 = some av) ∧
        ∀ k ∈ inp.Item.map Prod.fst, k ∈ r.Key.map Prod.fst ∨ k ∈ it.map Prod.fst := by
  rcases put_call cd db r st it item res st' hI h with h1 | ⟨inp, h1, h2⟩
  · exact Or.inl h1
  · refine Or.inr ⟨inp, h1, ?_, ?_, ?_⟩
    · intro e he hes
      have hl := foldAssign_lookup r.Key hk it e he
      exact (marshalItems_lookup cd _ _ (foldAssign_nodup r.Key it hit) h2).1 e
        (mapLookup_mem _ _ _ hl) hes
    · intro e he hne hes
      have hl : mapLookup (r.Key.foldl (fun m e => mapAssign m e.1 e.2) it) e.1 = some e.2 := by
        rw [foldAssign_lookup_other r.Key e.1 hne it]
        have := foldAssign_lookup it hit [] e he
        rw [fold_mapAssign_new it [] hit (fun _ _ hm => by simp at hm), List.nil_append] at this
        exact this
      exact (marshalItems_lookup cd _ _ (foldAssign_nodup r.Key it hit) h2).1 e
        (mapLookup_mem _ _ _ hl) hes
    · intro k hk'
      exact foldAssign_keys r.Key it k
        ((marshalItems_lookup cd _ _ (foldAssign_nodup r.Key it hit) h2).2 k hk')

/-- Witness of C31: the Put of the test sends the two fields of its item and
the field `id` of its key; a Put whose item has a field `id` of its own sends
the value of the key under `id`. -/
theorem put_merges_key_witness :
    ((put exampleCodec (traced (pagedBackend [])) testPut ((), [])).map
        (fun x => x.2.2.2.map Call.item) =
        some [[("field1", AttributeValue.ofS "value1"), ("field2", AttributeValue.ofN "1"),
          ("id", AttributeValue.ofS "1")]]) ∧
      ((put exampleCodec (traced (pagedBackend [])) shadowedPut ((), [])).map
        (fun x => x.2.2.2.map Call.item) =
        some [[("id", AttributeValue.ofS "1"), ("field1", AttributeValue.ofS "value1")]]) ∧
      ∃ item res st', put exampleCodec (traced (pagedBackend [])) testPut ((), []) =
          some (item, res, st') ∧
        ((st'.2 = [] ∧ ∃ err, res = .error err) ∨
          ∃ inp, st'.2 = [] ++ [Call.PutItem inp] ∧
            (∀ e ∈ testPut.Key, isEmptyString e.2 = false →
              ∃ av, exampleCodec.Encode e.2 = .ok av ∧ mapLookup inp.Item e.1 = some av) ∧
            (∀ e ∈ [("field1", Value.str "value1"), ("field2", Value.int 1)],
              e.1 ∉ testPut.Key.map Prod.fst → isEmptyString e.2 = false →
              ∃ av, exampleCodec.Encode e.2 = .ok av ∧ mapLookup inp.Item e.1 = some av) ∧
            ∀ k ∈ inp.Item.map Prod.fst, k ∈ testPut.Key.map Prod.fst ∨
              k ∈ [("field1", Value.str "value1"), ("field2", Value.int 1)].map Prod.fst) :=
  ⟨rfl, rfl, _, _, _, rfl,
    put_merges_key exampleCodec (pagedBackend []) testPut ((), []) _ _ _ _ rfl
      (by decide) (by decide) rfl⟩

/-- C31, counterexample: a Put whose Key field holds the empty string sends an
item without that field; and a Put built with a Key but no Item panics on the
write to the nil item map, so nothing is sent. -/
theorem put_drops_empty_key :
    (put exampleCodec (traced (pagedBackend [])) emptyKeyPut ((), [])).map
        (fun x => x.2.2.2.map Call.item) =
        some [[("field1", AttributeValue.ofS "value1")]] ∧
      put exampleCodec (traced (pagedBackend [])) keyOnlyPut ((), []) = none :=
  ⟨rfl, rfl⟩

/-! ## Update lists built with AddUpdateValue -/

theorem splitSlashChars_ne_nil (cs : List Char) : splitSlashChars cs ≠ [] := by
  cases cs with
  | nil => exact List.cons_ne_nil _ _
  | cons c rest =>
    unfold splitSlashChars
    by_cases h : c = '/'
    · rw [if_pos h]
      exact List.cons_ne_nil _ _
    · rw [if_neg h]
      cases splitSlashChars rest with
      | nil => exact List.cons_ne_nil _ _
      | cons seg more => exact List.cons_ne_nil _ _

theorem splitSlashChars_eq_empty (cs : List Char) (h : splitSlashChars cs = [[]]) : cs = [] := by
  cases cs with
  | nil => rfl
  | cons c rest =>
    exfalso
    unfold splitSlashChars at h
    by_cases hc : c = '/'
    · rw [if_pos hc] at h
      simp only [List.cons.injEq, true_and] at h
      exact splitSlashChars_ne_nil rest h
    · rw [if_neg hc] at h
      cases hs : splitSlashChars rest with
      | nil => rw [hs] at h; simp at h
      | cons seg more => rw [hs] at h; simp at h

theorem splitSlashChars_eq_marker (cs : List Char) (h : splitSlashChars cs = [['-']]) :
    cs = ['-'] := by
  cases cs with
  | nil => simp [splitSlashChars] at h
  | cons c rest =>
    unfold splitSlashChars at h
    by_cases hc : c = '/'
    · rw [if_pos hc] at h
      simp at h
    · rw [if_neg hc] at h
      cases hs : splitSlashChars rest with
      | nil => exact absurd hs (splitSlashChars_ne_nil rest)
      | cons seg more =>
        rw [hs] at h
        simp only [List.cons.injEq] at h
        obtain ⟨⟨h1, h2⟩, h3⟩ := h
        rw [h2, h3] at hs
        rw [h1, splitSlashChars_eq_empty rest hs]

/-- The segments of a path that starts with a slash: there is one at least,
and the marker alone only for the path of the slash and the marker. -/
theorem segmentsOf_slash (rest : List Char) :
    segmentsOf (String.mk ('/' :: rest)) ≠ [] ∧
      (segmentsOf (String.mk ('/' :: rest)) = ["-"] → rest = ['-']) := by
  have hs : segmentsOf (String.mk ('/' :: rest)) = (splitSlashChars rest).map String.mk := by
    have hc : splitSlashChars ('/' :: rest) = [] :: splitSlashChars rest := by
      rw [splitSlashChars, if_pos rfl]
    unfold segmentsOf splitSlash
    show (List.map String.mk (splitSlashChars ('/' :: rest))).tail = _
    rw [hc]
    rfl
  rw [hs]
  refine ⟨fun h => splitSlashChars_ne_nil rest (List.map_eq_nil_iff.mp h), fun h => ?_⟩
  apply splitSlashChars_eq_marker
  cases hsp : splitSlashChars rest with
  | nil => rw [hsp] at h; simp at h
  | cons seg more =>
    rw [hsp] at h
    simp only [List.map_cons, List.cons.injEq, List.map_eq_nil_iff] at h
    obtain ⟨h1, h2⟩ := h
    rw [h2]
    have : seg = ['-'] := by
      have hd : (String.mk seg).data = "-".data := by rw [h1]
      exact hd
    rw [this]

/-- The loop returns when every Put or Update item has a path of at least one
segment, not the marker alone. -/
theorem updLoop_returns (cd : Codec) (items : List UpdateValue)
    (h : ∀ v ∈ items, v.Action = Action.Put ∨ v.Action = Action.Update →
      segmentsOf v.Path ≠ [] ∧ segmentsOf v.Path ≠ ["-"]) :
    ∀ (SET REMOVE : String) (i n : Int) (vals : ExprValues) (names : GoMap String),
      ∃ b, updLoop cd items SET REMOVE i n vals names = some b := by
  induction items with
  | nil => exact fun SET REMOVE i n vals names => ⟨_, by rw [updLoop]⟩
  | cons v rest ih =>
    intro SET REMOVE i n vals names
    have ih' := ih (fun w hw => h w (List.mem_cons_of_mem _ hw))
    by_cases h1 : v.Action = Action.Delete
    · rw [updLoop_remove_step cd v rest _ _ i n vals names h1]
      exact ih' _ _ _ _ _ _
    · by_cases h2 : v.Action = Action.Put ∨ v.Action = Action.Update
      · cases hm : marshalItems cd [((parseUpdateKey v.Path n).1, v.Value)] with
        | error err =>
          rw [updLoop_set_error cd v rest _ _ i n vals names err h2 hm]
          exact ⟨_, rfl⟩
        | ok val =>
          obtain ⟨h0, h0'⟩ := h v (List.mem_cons_self _ _) h2
          rw [updLoop_set_step cd v rest _ _ i n vals names val h2 hm h0 h0']
          exact ih' _ _ _ _ _ _
      · rw [updLoop_skip_step cd v rest _ _ i n vals names h1 h2]
        exact ih' _ _ _ _ _ _

/-- The item is a Put or Update only with a path of at least one segment, not
the marker alone. -/
theorem AddUpdateValue_spec (r : Request) (path : String) (action : Action) (value : Value)
    (hne : path ≠ "") :
    ∃ stored, r.AddUpdateValue path action value =
        some { r with Updates := r.Updates ++
          [{ Action := action, Path := stored, Value := value }] } ∧
      segmentsOf stored ≠ [] ∧ (segmentsOf stored = ["-"] → isBareMarker path = true) := by
  unfold Request.AddUpdateValue
  cases hd : path.data with
  | nil => exact absurd (String.ext hd) hne
  | cons c tl =>
    dsimp only
    by_cases hc : c = '/'
    · refine ⟨path, by rw [if_neg (fun h => h hc)], ?_⟩
      have hp : path = String.mk ('/' :: tl) := String.ext (by rw [hd, hc])
      rw [hp]
      refine ⟨(segmentsOf_slash tl).1, fun h => ?_⟩
      rw [(segmentsOf_slash tl).2 h]
      rfl
    · refine ⟨"/" ++ path, by rw [if_pos hc], ?_⟩
      have hp : "/" ++ path = String.mk ('/' :: (c :: tl)) :=
        String.ext (by rw [String.data_append, hd]; rfl)
      rw [hp]
      refine ⟨(segmentsOf_slash (c :: tl)).1, fun h => ?_⟩
      have h2 := (segmentsOf_slash (c :: tl)).2 h
      have hp2 : path = "-" := String.ext (by rw [hd, h2])
      rw [hp2]
      rfl

theorem addUpdateValues_spec (args : List (String × Action × Value))
    (hs : sliceSafe args = true) :
    ∀ r : Request,
      (∀ v ∈ r.Updates, v.Action = Action.Put ∨ v.Action = Action.Update →
        segmentsOf v.Path ≠ [] ∧ segmentsOf v.Path ≠ ["-"]) →
      ∃ r', addUpdateValues r args = some r' ∧
        ∀ v ∈ r'.Updates, v.Action = Action.Put ∨ v.Action = Action.Update →
          segmentsOf v.Path ≠ [] ∧ segmentsOf v.Path ≠ ["-"] := by
  induction args with
  | nil => exact fun r h => ⟨r, rfl, h⟩
  | cons a rest ih =>
    intro r h
    obtain ⟨path, action, value⟩ := a
    unfold sliceSafe at hs
    rw [List.all_cons, Bool.and_eq_true, Bool.and_eq_true] at hs
    obtain ⟨⟨hne, hm⟩, hrest⟩ := hs
    have hne' : path ≠ "" := of_decide_eq_true hne
    obtain ⟨stored, h1, h2, h3⟩ := AddUpdateValue_spec r path action value hne'
    unfold addUpdateValues
    rw [h1]
    dsimp only
    apply ih hrest
    intro v hv hact
    dsimp only at hv
    rw [List.mem_append, List.mem_singleton] at hv
    rcases hv with hv | hv
    · exact h v hv hact
    · rw [hv] at hact ⊢
      dsimp only at hact ⊢
      refine ⟨h2, fun hseg => ?_⟩
      have hb := h3 hseg
      rw [Bool.or_eq_true] at hm
      rcases hm with hm | hm
      · rw [Bool.not_eq_true', decide_eq_false_iff_not] at hm
        exact hm hact
      · rw [hb] at hm
        cases hm

/-- The translated path of a path with a segment, not the marker alone, can be
sliced as the loop slices it. -/
theorem translated_sliceable (path : String) (n : Int) (h0 : segmentsOf path ≠ [])
    (h1 : segmentsOf path ≠ ["-"]) :
    (parseUpdateKey path n).1 ≠ "" ∧
      ((parseUpdateKey path n).1.data.getLast? = some '-' →
        2 ≤ (parseUpdateKey path n).1.data.length) := by
  rw [parseUpdateKey_eq]
  refine ⟨piecesFrom_ne_empty n _ h0, fun hl => ?_⟩
  by_cases hm : (segmentsOf path).getLast? = some "-"
  · rw [pieces_marker n _ hm h1, List.length_append]
    simp
  · obtain ⟨d, hd, hne⟩ := pieces_not_marker n _ h0 hm
    rw [hd] at hl
    cases hl
    exact absurd rfl hne

/-- C36, amended: for every update list whose items were added with
`AddUpdateValue`, with any path text that is not empty (the leading slash
being supplied when missing), any action and any value, no Put or Update
having the append marker alone as its path: every call of `AddUpdateValue`
returns, `buildUpdateExpression` returns an expression or an error on the
list, from any tables, and for each Put or Update item the translated path is
not empty, and is at least two characters long when it ends with the append
marker. -/
theorem buildUpdateExpression_returns (cd : Codec) (r : Request)
    (args : List (String × Action × Value)) (vals : ExprValues) (names : GoMap String)
    (hr : r.Updates = []) (hs : sliceSafe args = true) :
    ∃ r', addUpdateValues r args = some r' ∧
      (∃ b, buildUpdateExpression cd r'.Updates vals names = some b) ∧
      ∀ v ∈ r'.Updates, v.Action = Action.Put ∨ v.Action = Action.Update →
        ∀ n : Int, (parseUpdateKey v.Path n).1 ≠ "" ∧
          ((parseUpdateKey v.Path n).1.data.getLast? = some '-' →
            2 ≤ (parseUpdateKey v.Path n).1.data.length) := by
  obtain ⟨r', h1, h2⟩ := addUpdateValues_spec args hs r (fun v hv => by rw [hr] at hv; cases hv)
  refine ⟨r', h1, ?_, fun v hv hact n => ?_⟩
  · unfold buildUpdateExpression
    exact updLoop_returns cd r'.Updates h2 _ _ _ _ _ _
  · exact translated_sliceable v.Path n (h2 v hv hact).1 (h2 v hv hact).2

/-- Witness of C36: an Update added without the slash, a Put that appends to
a list and a Delete compile to one expression. -/
theorem buildUpdateExpression_returns_witness :
    (addUpdateValues {} exampleUpdateArgs).map (fun r => r.Updates.map (fun v => v.Path)) =
        some ["/name", "/list/-", "/old"] ∧
      ((addUpdateValues {} exampleUpdateArgs).bind
          (fun r => buildUpdateExpression exampleCodec r.Updates [] [])).map (fun b => b.exp) =
        some (.ok "SET #0ename0 = :val0, #1ename0[9992] = :val1 REMOVE #2ename0") ∧
      ∃ r', addUpdateValues {} exampleUpdateArgs = some r' ∧
        (∃ b, buildUpdateExpression exampleCodec r'.Updates [] [] = some b) ∧
        ∀ v ∈ r'.Updates, v.Action = Action.Put ∨ v.Action = Action.Update →
          ∀ n : Int, (parseUpdateKey v.Path n).1 ≠ "" ∧
            ((parseUpdateKey v.Path n).1.data.getLast? = some '-' →
              2 ≤ (parseUpdateKey v.Path n).1.data.length) :=
  ⟨rfl, rfl, buildUpdateExpression_returns exampleCodec {} exampleUpdateArgs [] [] rfl rfl⟩

/-- C36, counterexample: `AddUpdateValue` with the marker alone as the path of
a Put stores the path of the slash and the marker; its translated path is the
one character `-`, and `buildUpdateExpression` panics on the slice that is to
cut two characters off. -/
theorem buildUpdateExpression_bare_marker_panics :
    (addUpdateValues {} bareMarkerArgs).map (fun r => r.Updates.map (fun v => v.Path)) =
        some ["/-"] ∧
      (parseUpdateKey "/-" 0).1 = "-" ∧
      (addUpdateValues {} bareMarkerArgs).bind
          (fun r => buildUpdateExpression exampleCodec r.Updates [] []) = none :=
  ⟨rfl, by decide, rfl⟩

/-! ## The cache is keyed by the key alone -/

/-- C37, amended: the cache is keyed by Key alone: with caching enabled, after
a successful Get with key `K` (its fields distinct) that was made without
LiveData, or when no cached entry had a key equal to `K`, a Get without
LiveData with a key that `keysEqual` finds equal to `K`, on whatever table and
with whatever ConsistentRead flag, makes no backend call and returns the
Result of the first Get. -/
theorem Run_get_other_table {σ : Type} (cd : Codec) (db : DBer σ) (c : DynamoDBDatastore)
    (r1 r2 : Request) (st : σ × List Call) (o1 : RunOut (σ × List Call))
    (hc : c.cacheDisabled = false) (h1 : r1.Action = Action.Get)
    (hfresh : r1.LiveData = true → cacheScan c.cache r1.Key = some none)
    (hnd : (r1.Key.map Prod.fst).Nodup)
    (hrun1 : Run cd (traced db) c r1 st = some o1) (he1 : o1.e = none)
    (h2 : r2.Action = Action.Get) (hl2 : r2.LiveData = false)
    (heq : keysEqual r1.Key r2.Key = some true) :
    Run cd (traced db) o1.c r2 o1.s = some { c := o1.c, s := o1.s, r := o1.r, e := none } := by
  have hcond : ∀ (c' : DynamoDBDatastore), c'.cacheDisabled = false →
      ((!r2.LiveData && !c'.cacheDisabled) = true) := by
    intro c' hc'
    rw [hc', hl2]
    rfl
  rw [Run_get cd (traced db) c r1 st h1] at hrun1
  cases hsc : (if (!r1.LiveData && !c.cacheDisabled) = true then cacheScan c.cache r1.Key
      else some none) with
  | none => rw [hsc] at hrun1; cases hrun1
  | some found =>
    rw [hsc] at hrun1
    cases found with
    | some e =>
      have hs : cacheScan c.cache r1.Key = some (some e) := by
        by_cases hcnd : (!r1.LiveData && !c.cacheDisabled) = true
        · rw [if_pos hcnd] at hsc
          exact hsc
        · rw [if_neg hcnd] at hsc
          cases hsc
      dsimp only at hrun1
      cases hrun1
      dsimp only
      rw [Run_get cd (traced db) c r2 st h2, if_pos (hcond c hc),
        ← cacheScan_congr r1.Key r2.Key heq hnd c.cache, hs]
    | none =>
      have hs : cacheScan c.cache r1.Key = some none := by
        by_cases hcnd : (!r1.LiveData && !c.cacheDisabled) = true
        · rw [if_pos hcnd] at hsc
          exact hsc
        · apply hfresh
          rw [hc] at hcnd
          simpa using hcnd
      dsimp only at hrun1
      cases hg : get cd (traced db) { r1 with Table := c.tablePrefix ++ r1.Table } st with
      | mk res s' =>
        rw [hg] at hrun1
        cases res with
        | error e =>
          dsimp only at hrun1
          cases hrun1
          rw [runFinish_e] at he1
          cases he1
        | ok r =>
          dsimp only at hrun1
          cases hrun1
          have hcd := runFinish_cacheDisabled
            { c with cache := c.cache ++
                [{ request := { r1 with Table := c.tablePrefix ++ r1.Table }, result := some r }] }
            { r1 with Table := c.tablePrefix ++ r1.Table } (some r) none s'
          have hca := runFinish_cache
            { c with cache := c.cache ++
                [{ request := { r1 with Table := c.tablePrefix ++ r1.Table }, result := some r }] }
            { r1 with Table := c.tablePrefix ++ r1.Table } (some r) none s'
          have hr1 := runFinish_r
            { c with cache := c.cache ++
                [{ request := { r1 with Table := c.tablePrefix ++ r1.Table }, result := some r }] }
            { r1 with Table := c.tablePrefix ++ r1.Table } (some r) none s'
          dsimp only at hcd hca
          generalize runFinish
            { c with cache := c.cache ++
                [{ request := { r1 with Table := c.tablePrefix ++ r1.Table }, result := some r }] }
            { r1 with Table := c.tablePrefix ++ r1.Table } (some r) none s' = o1 at *
          rw [Run_get cd (traced db) o1.c r2 o1.s h2, if_pos (hcond o1.c (hcd.trans hc)),
            hca, cacheScan_append_miss r2.Key _ c.cache
              (by rw [← cacheScan_congr r1.Key r2.Key heq hnd c.cache]; exact hs)]
          dsimp only
          rw [heq]
          dsimp only
          rw [hr1]

/-- Witness of C37: after the Get of the key `id = 1` on table `t`, the Get of
the same key on the table `other` with a consistent read makes no call and
returns the result of the first; the same after a live first Get on a fresh
handle. -/
theorem Run_get_other_table_witness :
    (∃ o1, Run exampleCodec (traced (itemBackend (itemOf "1"))) {} exampleGet ((), []) =
          some o1 ∧ o1.s.2.length = 1 ∧
        Run exampleCodec (traced (itemBackend (itemOf "1"))) o1.c otherTableGet o1.s =
          some { c := o1.c, s := o1.s, r := o1.r, e := none }) ∧
      liveThenOther {} = some ([itemOf "1"], [itemOf "1"], [1, 1]) :=
  ⟨⟨_, rfl, rfl,
      Run_get_other_table exampleCodec (itemBackend (itemOf "1")) {} exampleGet otherTableGet
        ((), []) _ rfl rfl (fun h => by cases h) (by decide) rfl rfl rfl rfl rfl⟩, rfl⟩

/-- C37, counterexample: on a handle whose cache holds an older result for
the key, a successful live Get of the key on table `t` receives the item
`id = 1`, and the following Get of the key on the table `other` makes no call
but returns the older result, the item `id = 0`, not the Result of the Get on
table `t`. -/
theorem Run_get_returns_stale_result :
    liveThenOther staleHandle = some ([itemOf "1"], [itemOf "0"], [1, 1]) ∧
      staleHandle.cacheDisabled = false :=
  ⟨rfl, rfl⟩

/-! ## Symmetry of keysEqual -/

theorem float64Eq_comm (a b : Nat) : float64Eq a b = float64Eq b a := by
  unfold float64Eq
  rw [Bool.or_comm (float64IsNaN a), Bool.and_comm (a % 2 ^ 63 == 0)]
  have h : (a == b) = (b == a) := by
    cases hab : a == b <;> cases hba : b == a <;> simp_all
  rw [h]

theorem goEq_comm (a b : Value) : goEq a b = goEq b a := by
  cases a <;> cases b <;> simp only [goEq, Option.some.injEq, float64Eq_comm] <;>
    exact decide_eq_decide.mpr eq_comm

theorem goEq_comparable (w v : Value) (hv : v.isComparable = true) :
    goEq w v = some true ∨ goEq w v = some false := by
  cases v <;> cases w <;> simp [goEq, Value.isComparable] at hv ⊢ <;> exact Classical.em _

theorem mapIndex_comparable (m : GoMap Value) (hm : ∀ e ∈ m, e.2.isComparable = true)
    (i : String) : (mapIndex m i).isComparable = true := by
  unfold mapIndex
  cases h : mapLookup m i with
  | none => rfl
  | some v => exact hm (i, v) (mapLookup_mem m i v h)

/-- The loop of `keysEqual` returns when every comparison it can make returns. -/
theorem keysEqualLoop_returns (k2 : GoMap Value) :
    ∀ k1 : GoMap Value,
      (∀ e ∈ k1, goEq (mapIndex k2 e.1) e.2 = some true ∨
        goEq (mapIndex k2 e.1) e.2 = some false) →
      keysEqualLoop k1 k2 = some true ∨ keysEqualLoop k1 k2 = some false := by
  intro k1
  induction k1 with
  | nil => intro _; exact Or.inl rfl
  | cons e rest ih =>
    intro h
    obtain ⟨i, v⟩ := e
    unfold keysEqualLoop
    by_cases hn : (mapIndex k2 i).isNil = true
    · rw [if_pos hn]
      exact Or.inr rfl
    · rw [if_neg hn]
      rcases h (i, v) (List.mem_cons_self _ _) with hg | hg
      · dsimp only at hg
        rw [hg]
        exact ih (fun q hq => h q (List.mem_cons_of_mem _ hq))
      · dsimp only at hg
        rw [hg]
        exact Or.inr rfl

/-- The loop of `keysEqual` returns true when every entry of the first key
finds a present and equal value in the second. -/
theorem keysEqualLoop_of_entries (k2 : GoMap Value) :
    ∀ k1 : GoMap Value,
      (∀ e ∈ k1, (mapIndex k2 e.1).isNil = false ∧ goEq (mapIndex k2 e.1) e.2 = some true) →
      keysEqualLoop k1 k2 = some true := by
  intro k1
  induction k1 with
  | nil => intro _; rfl
  | cons e rest ih =>
    intro h
    obtain ⟨i, v⟩ := e
    obtain ⟨hn, hg⟩ := h (i, v) (List.mem_cons_self _ _)
    dsimp only at hn hg
    unfold keysEqualLoop
    rw [hn, hg]
    exact ih (fun q hq => h q (List.mem_cons_of_mem _ hq))

theorem mapLookup_of_mem {α : Type} (m : GoMap α) (hnd : (m.map Prod.fst).Nodup)
    (k : String) (v : α) (h : (k, v) ∈ m) : mapLookup m k = some v := by
  induction m with
  | nil => cases h
  | cons e rest ih =>
    obtain ⟨k', v'⟩ := e
    rw [List.map_cons, List.nodup_cons] at hnd
    unfold mapLookup
    rcases List.mem_cons.mp h with h1 | h1
    · cases h1
      rw [if_pos rfl]
    · have hne : k' ≠ k := by
        intro hk
        apply hnd.1
        rw [hk]
        exact List.mem_map.mpr ⟨(k, v), h1, rfl⟩
      rw [if_neg hne]
      exact ih hnd.2 h1

/-- When `keysEqual` finds the first key equal to the second, it finds the
second equal to the first. -/
theorem keysEqual_true_symm (k1 k2 : GoMap Value) (hnd1 : (k1.map Prod.fst).Nodup)
    (hnd2 : (k2.map Prod.fst).Nodup) (h : keysEqual k1 k2 = some true) :
    keysEqual k2 k1 = some true := by
  have hl : k1.length = k2.length := (keysEqual_pointwise k1 k2 h hnd1).1
  have hloop : keysEqualLoop k1 k2 = some true := by
    unfold keysEqual at h
    rw [if_neg (fun hh => hh hl)] at h
    exact h
  have hent := keysEqualLoop_true k2 k1 hloop
  have hsub : k1.map Prod.fst ⊆ k2.map Prod.fst := by
    intro j hj
    obtain ⟨e, he, hje⟩ := List.mem_map.mp hj
    obtain ⟨hn, _⟩ := hent e he
    have := mapLookup_mem k2 e.1 _ (mapIndex_not_nil k2 e.1 hn)
    rw [← hje]
    exact List.mem_map.mpr ⟨_, this, rfl⟩
  have hperm : List.Perm (k1.map Prod.fst) (k2.map Prod.fst) :=
    (List.subperm_of_subset hnd1 hsub).perm_of_length_le (by simp [hl])
  unfold keysEqual
  rw [if_neg (fun hh => hh hl.symm)]
  apply keysEqualLoop_of_entries
  intro e he
  obtain ⟨i, v⟩ := e
  dsimp only
  have hi : i ∈ k1.map Prod.fst :=
    hperm.symm.subset (List.mem_map.mpr ⟨(i, v), he, rfl⟩)
  obtain ⟨e1, he1, hie⟩ := List.mem_map.mp hi
  obtain ⟨i1, v1⟩ := e1
  dsimp only at hie
  subst hie
  obtain ⟨hn, hg⟩ := hent (i1, v1) he1
  dsimp only at hn hg
  have h2 : mapIndex k2 i1 = v := mapIndex_eq_of_lookup k2 i1 v (mapLookup_of_mem k2 hnd2 i1 v he)
  have h1 : mapIndex k1 i1 = v1 :=
    mapIndex_eq_of_lookup k1 i1 v1 (mapLookup_of_mem k1 hnd1 i1 v1 he1)
  rw [h2] at hn hg
  rw [h1]
  refine ⟨?_, by rw [goEq_comm]; exact hg⟩
  rw [← (goEq_congr v v1 hg).1]
  exact hn

/-- C38, amended: keysEqual is symmetric on the key mappings it can compare:
for all key mappings `k1` and `k2` (each with distinct fields, as every Go
map), `keysEqual(k1, k2)` returns true exactly when `keysEqual(k2, k1)` does;
and when the values of `k1` are nil or of a comparable type (ints, floats,
strings, bools), both calls return and `keysEqual(k1, k2) = keysEqual(k2, k1)`,
although the code only iterates over the entries of its first argument. -/
theorem keysEqual_symmetric (k1 k2 : GoMap Value) (hnd1 : (k1.map Prod.fst).Nodup)
    (hnd2 : (k2.map Prod.fst).Nodup) :
    (keysEqual k1 k2 = some true ↔ keysEqual k2 k1 = some true) ∧
      ((∀ e ∈ k1, e.2.isComparable = true) →
        keysEqual k1 k2 = keysEqual k2 k1 ∧
          (keysEqual k1 k2 = some true ∨ keysEqual k1 k2 = some false)) := by
  have hiff : keysEqual k1 k2 = some true ↔ keysEqual k2 k1 = some true :=
    Iff.intro (keysEqual_true_symm k1 k2 hnd1 hnd2) (keysEqual_true_symm k2 k1 hnd2 hnd1)
  refine ⟨hiff, fun hc => ?_⟩
  have ht1 : keysEqual k1 k2 = some true ∨ keysEqual k1 k2 = some false := by
    unfold keysEqual
    by_cases hl : k1.length = k2.length
    · rw [if_neg (fun hh => hh hl)]
      exact keysEqualLoop_returns k2 k1 (fun e he => goEq_comparable _ _ (hc e he))
    · rw [if_pos hl]
      exact Or.inr rfl
  have ht2 : keysEqual k2 k1 = some true ∨ keysEqual k2 k1 = some false := by
    unfold keysEqual
    by_cases hl : k2.length = k1.length
    · rw [if_neg (fun hh => hh hl)]
      refine keysEqualLoop_returns k1 k2 (fun e _ => ?_)
      rw [goEq_comm]
      exact goEq_comparable _ _ (mapIndex_comparable k1 hc e.1)
    · rw [if_pos hl]
      exact Or.inr rfl
  refine ⟨?_, ht1⟩
  rcases ht1 with h1 | h1
  · rw [h1, hiff.mp h1]
  · rcases ht2 with h2 | h2
    · rw [hiff.mpr h2] at h1
      cases h1
    · rw [h1, h2]

/-- Witness of C38: the key of `TestCacheHit` with a nil value against the
full key, and against itself. -/
theorem keysEqual_symmetric_witness :
    ((keysEqual nilValueKey [("subd", .int 1234), ("id", .str "usr")] = some true ↔
        keysEqual [("subd", .int 1234), ("id", .str "usr")] nilValueKey = some true) ∧
      ((∀ e ∈ nilValueKey, e.2.isComparable = true) →
        keysEqual nilValueKey [("subd", .int 1234), ("id", .str "usr")] =
            keysEqual [("subd", .int 1234), ("id", .str "usr")] nilValueKey ∧
          (keysEqual nilValueKey [("subd", .int 1234), ("id", .str "usr")] = some true ∨
            keysEqual nilValueKey [("subd", .int 1234), ("id", .str "usr")] = some false))) ∧
      (∀ e ∈ nilValueKey, e.2.isComparable = true) ∧
      keysEqual nilValueKey [("subd", .int 1234), ("id", .str "usr")] = some false ∧
      keysEqual [("subd", .int 1234), ("id", .str "usr")] nilValueKey = some false ∧
      keysEqual nilValueKey nilValueKey = some false :=
  ⟨keysEqual_symmetric nilValueKey [("subd", .int 1234), ("id", .str "usr")] (by decide)
      (by decide),
    (fun e he => by
      simp only [nilValueKey, List.mem_cons, List.mem_singleton, List.not_mem_nil,
        or_false] at he
      rcases he with h | h <;> subst h <;> rfl), rfl, rfl, rfl⟩

/-- C38, counterexample: two key mappings of the same two fields, the field
`a` holding a slice in both and the field `b` two different numbers.  Visiting
the field `a` first, `keysEqual(k1, k2)` panics on comparing the two slices;
visiting the field `b` first, `keysEqual(k2, k1)` returns false: the two calls
do not give the same result (the same happens to `keysEqual(k1, k2)` itself
when the field `b` comes first). -/
theorem keysEqual_slice_not_symmetric :
    keysEqual mixedKey mixedKeyOther = none ∧
      keysEqual mixedKeyOther mixedKey = some false ∧
      keysEqual mixedKey.reverse mixedKeyOther = some false ∧
      (mixedKey.map Prod.fst).Nodup ∧ (mixedKeyOther.map Prod.fst).Nodup :=
  ⟨rfl, rfl, rfl, by decide, by decide⟩

end Godba
